import Mathlib

/-!
# A boundary-tag allocator with an explicit free list (`mm.c`)

Shallow embedding of `src/mm.c`.

* Memory is a map from addresses to 64-bit words.  Every access the allocator
  makes is a word access (`READ_w`, `WRITE_w`, the two link fields of a
  `struct FLNode`), at addresses that are multiples of 8.
* `size_t` and pointer arithmetic is arithmetic modulo `2 ^ 64`
  (`add64`, `sub64`).
* `NULL` is the address `0`.
* The global `free_list` is a `struct FLNode` living outside the heap; the
  state records its address, and its two fields are the words at that address
  and 8 bytes further.
* The loop of `first_fit` takes a fuel argument; `none` means the fuel ran out.
-/

namespace MM

/-! ## Machine arithmetic -/

/-- Addition of two `size_t` values (or of a pointer and an offset). -/
def add64 (a b : Nat) : Nat := (a + b) % 2 ^ 64

/-- Subtraction of two `size_t` values (or of an offset from a pointer). -/
def sub64 (a b : Nat) : Nat := (a + (2 ^ 64 - b % 2 ^ 64)) % 2 ^ 64

/-- The constant `ALIGNMENT`. -/
def ALIGNMENT : Nat := 16

/-- The function `align`: `ALIGNMENT * ((x + ALIGNMENT - 1) / ALIGNMENT)`. -/
def align (x : Nat) : Nat :=
  (ALIGNMENT * (sub64 (add64 x ALIGNMENT) 1 / ALIGNMENT)) % 2 ^ 64

/-! ## Memory and the host -/

/-- Allocator state: the memory, the host's heap bounds, and the globals. -/
structure Heap where
  /-- the word stored at each address -/
  mem : Nat → Nat
  /-- first byte of the heap (`mem_heap_lo ()`) -/
  mem_start : Nat
  /-- first byte past the heap (`mem_heap_hi ()` is one less) -/
  mem_brk : Nat
  /-- the address the host will not grow the heap beyond -/
  mem_max : Nat
  /-- the global `heap_bptr` -/
  heap_bptr : Nat
  /-- the address of the global `free_list` -/
  free_list : Nat

/-- Modelled from the spec: `mem_heap_lo` of memlib, the inclusive low bound
of the current heap. -/
def mem_heap_lo (s : Heap) : Nat := s.mem_start

/-- Modelled from the spec: `mem_heap_hi` of memlib, the inclusive high bound
of the current heap. -/
def mem_heap_hi (s : Heap) : Nat := sub64 s.mem_brk 1

/-- Modelled from the spec: `mem_sbrk` of memlib, the host growth primitive.
It extends the heap by `incr` bytes and returns the address of the first new
byte, or refuses, returns `NULL` and leaves the heap as it was.  The host
refuses exactly when the new break would pass `mem_max`. -/
def mem_sbrk (s : Heap) (incr : Nat) : Heap × Nat :=
  if s.mem_brk + incr ≤ s.mem_max then
    ({ s with mem_brk := s.mem_brk + incr }, s.mem_brk)
  else (s, 0)

/-- Modelled from the spec: `memcpy`, the byte copy primitive, for 8-aligned
`dst` and `src` and regions that do not overlap.  Whole words are copied; of
a last, partial word the low `k` bytes (little endian) are copied. -/
def memcpy (m : Nat → Nat) (dst src n : Nat) : Nat → Nat := fun a =>
  if dst ≤ a ∧ a < dst + n ∧ (a - dst) % 8 = 0 then
    if a + 8 ≤ dst + n then m (src + (a - dst))
    else m (src + (a - dst)) % 256 ^ (dst + n - a) + m a / 256 ^ (dst + n - a) * 256 ^ (dst + n - a)
  else m a

/-! ## Free list primitives -/

/-- Read a word: `READ_w`. -/
def READ_w (m : Nat → Nat) (ptr : Nat) : Nat := m ptr

/-- Write a word: `WRITE_w`. -/
def WRITE_w (m : Nat → Nat) (ptr value : Nat) : Nat → Nat :=
  fun a => if a = ptr then value else m a

/-- Address of the field `next_node` of the node at `ptr` (offset 0). -/
def next_node (ptr : Nat) : Nat := ptr

/-- Address of the field `prev_node` of the node at `ptr` (offset 8). -/
def prev_node (ptr : Nat) : Nat := add64 ptr 8

/-- The function `FL_init`. -/
def FL_init (m : Nat → Nat) (root_node : Nat) : Nat → Nat :=
  let m1 := WRITE_w m (next_node root_node) root_node
  WRITE_w m1 (prev_node root_node) root_node

/-- The function `FL_append`: four assignments, in the order of the source. -/
def FL_append (m : Nat → Nat) (end_node newitem : Nat) : Nat → Nat :=
  let m1 := WRITE_w m (next_node newitem) (READ_w m (next_node end_node))
  let m2 := WRITE_w m1 (prev_node newitem) end_node
  let m3 := WRITE_w m2 (next_node end_node) newitem
  WRITE_w m3 (prev_node (READ_w m3 (next_node newitem))) newitem

/-- The function `FL_unlink`. -/
def FL_unlink (m : Nat → Nat) (ptr : Nat) : Nat → Nat :=
  let m1 := WRITE_w m (next_node (READ_w m (prev_node ptr))) (READ_w m (next_node ptr))
  let m2 := WRITE_w m1 (prev_node (READ_w m1 (next_node ptr))) (READ_w m1 (prev_node ptr))
  let m3 := WRITE_w m2 (next_node ptr) 0
  WRITE_w m3 (prev_node ptr) 0

/-! ## Tag arithmetic -/

/-- The function `READ_w_SIZE`: the word with its low three bits masked off. -/
def READ_w_SIZE (m : Nat → Nat) (ptr : Nat) : Nat := m ptr &&& (2 ^ 64 - 8)

/-- The function `READ_w_ALLOC`: bit 0 of the word. -/
def READ_w_ALLOC (m : Nat → Nat) (ptr : Nat) : Nat := m ptr &&& 1

/-- The function `Compute_HD`. -/
def Compute_HD (ptr : Nat) : Nat := sub64 ptr 8

/-- The function `Compute_FT`. -/
def Compute_FT (m : Nat → Nat) (ptr : Nat) : Nat :=
  sub64 (add64 ptr (READ_w_SIZE m (Compute_HD ptr))) (2 * 8)

/-- The function `Compute_NXBP`. -/
def Compute_NXBP (m : Nat → Nat) (ptr : Nat) : Nat :=
  add64 ptr (READ_w_SIZE m (sub64 ptr 8))

/-- The function `Compute_PVBP`. -/
def Compute_PVBP (m : Nat → Nat) (ptr : Nat) : Nat :=
  sub64 ptr (READ_w_SIZE m (sub64 ptr (2 * 8)))

/-- The function `Pack_w`. -/
def Pack_w (size alloc_bit : Nat) : Nat := size ||| alloc_bit

/-! ## The allocator -/

/-- The function `coalesce`; returns the new state and the returned pointer. -/
def coalesce (s : Heap) (ptr : Nat) : Heap × Nat :=
  let m := s.mem
  let prev_block_allocation :=
    if mem_heap_lo s ≤ Compute_PVBP m ptr then READ_w_ALLOC m (Compute_FT m (Compute_PVBP m ptr))
    else 1
  let next_block_allocation :=
    if Compute_NXBP m ptr ≤ mem_heap_hi s then READ_w_ALLOC m (Compute_HD (Compute_NXBP m ptr))
    else 1
  let size := READ_w_SIZE m (Compute_HD ptr)
  if prev_block_allocation ≠ 0 ∧ next_block_allocation ≠ 0 then
    ({ s with mem := FL_append m s.free_list ptr }, ptr)
  else if prev_block_allocation ≠ 0 ∧ ¬ next_block_allocation ≠ 0 then
    let m1 := FL_unlink m (Compute_NXBP m ptr)
    let m2 := FL_append m1 s.free_list ptr
    let size1 := add64 size (READ_w_SIZE m2 (Compute_HD (Compute_NXBP m2 ptr)))
    let m3 := WRITE_w m2 (Compute_HD ptr) (Pack_w size1 0)
    let m4 := WRITE_w m3 (Compute_FT m3 ptr) (Pack_w size1 0)
    ({ s with mem := m4 }, ptr)
  else if ¬ prev_block_allocation ≠ 0 ∧ next_block_allocation ≠ 0 then
    let size1 := add64 size (READ_w_SIZE m (Compute_HD (Compute_PVBP m ptr)))
    let m1 := WRITE_w m (Compute_FT m ptr) (Pack_w size1 0)
    let m2 := WRITE_w m1 (Compute_HD (Compute_PVBP m1 ptr)) (Pack_w size1 0)
    ({ s with mem := m2 }, Compute_PVBP m2 ptr)
  else
    let m1 := FL_unlink m (Compute_NXBP m ptr)
    let size1 := add64 size
      (add64 (READ_w_SIZE m1 (Compute_HD (Compute_PVBP m1 ptr)))
        (READ_w_SIZE m1 (Compute_FT m1 (Compute_NXBP m1 ptr))))
    let m2 := WRITE_w m1 (Compute_HD (Compute_PVBP m1 ptr)) (Pack_w size1 0)
    let m3 := WRITE_w m2 (Compute_FT m2 (Compute_NXBP m2 ptr)) (Pack_w size1 0)
    ({ s with mem := m3 }, Compute_PVBP m3 ptr)

/-- The function `mem_request`. -/
def mem_request (s : Heap) (size_req : Nat) : Heap × Nat :=
  let r := mem_sbrk s size_req
  let s1 := r.1
  let ptr := r.2
  if ptr = 0 then (s1, 0)
  else
    let m1 := WRITE_w s1.mem (Compute_HD ptr) (Pack_w size_req 0)
    let m2 := WRITE_w m1 (Compute_FT m1 ptr) (Pack_w size_req 0)
    let m3 := WRITE_w m2 (Compute_HD (Compute_NXBP m2 ptr)) (Pack_w 0 1)
    coalesce { s1 with mem := m3 } ptr

/-- The loop of `first_fit`, started at `ptr`; `some 0` is the `NULL` result. -/
def first_fit_loop (m : Nat → Nat) (root size : Nat) : Nat → Nat → Option Nat
  | 0, _ => none
  | fuel + 1, ptr =>
    if ptr = root then some 0
    else if size ≤ READ_w_SIZE m (Compute_HD ptr) then some ptr
    else first_fit_loop m root size fuel (READ_w m (next_node ptr))

/-- The function `first_fit`. -/
def first_fit (fuel : Nat) (s : Heap) (size : Nat) : Option Nat :=
  first_fit_loop s.mem s.free_list size fuel (READ_w s.mem (next_node s.free_list))

/-- The function `allocate_block`. -/
def allocate_block (s : Heap) (ptr size : Nat) : Heap :=
  let m := s.mem
  let size_r := READ_w_SIZE m (Compute_HD ptr)
  if sub64 size_r size ≥ 4 * 8 then
    let m1 := FL_unlink m ptr
    let m2 := WRITE_w m1 (Compute_HD ptr) (Pack_w size 1)
    let m3 := WRITE_w m2 (Compute_FT m2 ptr) (Pack_w size 1)
    let ptr1 := Compute_NXBP m3 ptr
    let m4 := WRITE_w m3 (Compute_HD ptr1) (Pack_w (sub64 size_r size) 0)
    let m5 := WRITE_w m4 (Compute_FT m4 ptr1) (Pack_w (sub64 size_r size) 0)
    { s with mem := FL_append m5 s.free_list ptr1 }
  else
    let m1 := FL_unlink m ptr
    let m2 := WRITE_w m1 (Compute_HD ptr) (Pack_w size_r 1)
    let m3 := WRITE_w m2 (Compute_FT m2 ptr) (Pack_w size_r 1)
    { s with mem := m3 }

/-- The function `mm_init`; returns the new state and the boolean result. -/
def mm_init (s : Heap) : Heap × Bool :=
  let m0 := FL_init s.mem s.free_list
  let CHUCKSIZE := 2 ^ 12
  let r := mem_sbrk { s with mem := m0 } (4 * 8)
  let s1 := { r.1 with heap_bptr := r.2 }
  if s1.heap_bptr = 0 then (s1, false)
  else
    let m1 := WRITE_w s1.mem s1.heap_bptr 0
    let m2 := WRITE_w m1 (add64 s1.heap_bptr 8) (Pack_w (2 * 8) 1)
    let m3 := WRITE_w m2 (add64 s1.heap_bptr (2 * 8)) (Pack_w (2 * 8) 1)
    let m4 := WRITE_w m3 (add64 s1.heap_bptr (3 * 8)) (Pack_w 0 1)
    let s2 := { s1 with mem := m4, heap_bptr := add64 s1.heap_bptr (2 * 8) }
    let r2 := mem_request s2 CHUCKSIZE
    if r2.2 = 0 then (r2.1, false) else (r2.1, true)

/-- The block size `size_a` that `malloc` computes for a request. -/
def size_a (size : Nat) : Nat :=
  if size ≤ 2 * 8 then 4 * 8 else add64 (align size) (2 * 8)

/-- The function `malloc`; `none` only when `first_fit` ran out of fuel. -/
def malloc (fuel : Nat) (s : Heap) (size : Nat) : Option (Heap × Nat) :=
  if size ≤ 0 then some (s, 0)
  else
    match first_fit fuel s (size_a size) with
    | none => none
    | some ptr =>
      if ptr ≠ 0 then some (allocate_block s ptr (size_a size), ptr)
      else
        let r := mem_request s (size_a size)
        if r.2 ≠ 0 then some (allocate_block r.1 r.2 (size_a size), r.2)
        else some (r.1, 0)

/-- The function `free`. -/
def free (s : Heap) (ptr : Nat) : Heap :=
  if ptr = 0 then s
  else
    let size := READ_w_SIZE s.mem (Compute_HD ptr)
    let m1 := WRITE_w s.mem (Compute_HD ptr) (Pack_w size 0)
    let m2 := WRITE_w m1 (Compute_FT m1 ptr) (Pack_w size 0)
    (coalesce { s with mem := m2 } ptr).1

/-- The function `realloc`; `none` only when `first_fit` ran out of fuel. -/
def realloc (fuel : Nat) (s : Heap) (oldptr size : Nat) : Option (Heap × Nat) :=
  if oldptr = 0 then malloc fuel s size
  else if size = 0 then some (free s oldptr, 0)
  else
    let old_size := sub64 (READ_w_SIZE s.mem (Compute_HD oldptr)) (2 * 8)
    if size ≤ old_size then some (s, oldptr)
    else
      match malloc fuel s size with
      | none => none
      | some (s1, newptr) =>
        if newptr = 0 then some (s1, 0)
        else
          let copy_size := if size < old_size then size else old_size
          let s2 := { s1 with mem := memcpy s1.mem newptr oldptr copy_size }
          some (free s2 oldptr, newptr)

/-! ## Heap layout: the specification side -/

/-- Sum of the sizes of a run of blocks. -/
def total : List (Nat × Nat) → Nat
  | [] => 0
  | b :: bs => b.1 + total bs

/-- The blocks `bs`, each a pair (size, allocated bit), tile the memory from
the payload address `a` up to the payload address `e`: every block has a legal
size (a multiple of 16, at least 32: I6), its header and its footer both hold
the packed pair (I1), and the next block starts where it ends (I2). -/
def Tiles (m : Nat → Nat) : Nat → List (Nat × Nat) → Nat → Prop
  | a, [], e => a = e
  | a, b :: bs, e =>
    b.1 % 16 = 0 ∧ 32 ≤ b.1 ∧ b.2 ≤ 1 ∧
    m (a - 8) = Pack_w b.1 b.2 ∧ m (a + b.1 - 16) = Pack_w b.1 b.2 ∧
    Tiles m (a + b.1) bs e

/-- Payload addresses of all blocks of a run that starts at `a`. -/
def starts : Nat → List (Nat × Nat) → List Nat
  | _, [] => []
  | a, b :: bs => a :: starts (a + b.1) bs

/-- Payload addresses of the free blocks of a run that starts at `a`. -/
def freeAddrs : Nat → List (Nat × Nat) → List Nat
  | _, [] => []
  | a, b :: bs => if b.2 = 0 then a :: freeAddrs (a + b.1) bs else freeAddrs (a + b.1) bs

/-- Payload addresses of the allocated blocks of a run that starts at `a`. -/
def liveAddrs : Nat → List (Nat × Nat) → List Nat
  | _, [] => []
  | a, b :: bs => if b.2 = 0 then liveAddrs (a + b.1) bs else a :: liveAddrs (a + b.1) bs

/-- The allocated blocks of a run that starts at `a`, each as the pair of its
payload address and its size. -/
def liveBlocks : Nat → List (Nat × Nat) → List (Nat × Nat)
  | _, [] => []
  | a, b :: bs =>
    if b.2 = 0 then liveBlocks (a + b.1) bs else (a, b.1) :: liveBlocks (a + b.1) bs

/-- The byte address `t` lies in the payload of an allocated block of the run. -/
def InLive (a : Nat) (bs : List (Nat × Nat)) (t : Nat) : Prop :=
  ∃ c ∈ liveBlocks a bs, c.1 ≤ t ∧ t + 16 < c.1 + c.2

/-- Header and footer addresses of the blocks of a run that starts at `a`. -/
def tagAddrs : Nat → List (Nat × Nat) → List Nat
  | _, [] => []
  | a, b :: bs => (a - 8) :: (a + b.1 - 16) :: tagAddrs (a + b.1) bs

/-- No two adjacent blocks are both free (I3). -/
def NoAdjFree (bs : List (Nat × Nat)) : Prop :=
  List.Chain' (fun b c => ¬ (b.2 = 0 ∧ c.2 = 0)) bs

/-- The nodes `xs` are doubly linked between `p` and `q`: following
`next_node` from `p` visits `xs` in order and then `q`, and every
`prev_node` points back. -/
def dll (m : Nat → Nat) : Nat → List Nat → Nat → Prop
  | p, [], q => m p = q ∧ m (q + 8) = p
  | p, x :: xs, q => m p = x ∧ m (x + 8) = p ∧ dll m x xs q

/-- The part of well-formedness that does not speak about which blocks are
free: the host's bounds, the sentinel outside the heap, prologue, tiling by
the blocks `bs`, epilogue, and the circular list `fl` rooted at the sentinel. -/
structure Frame (s : Heap) (bs : List (Nat × Nat)) (fl : List Nat) : Prop where
  lo_pos : 0 < s.mem_start
  lo_al : s.mem_start % 16 = 0
  brk_le : s.mem_brk ≤ s.mem_max
  max_lt : s.mem_max < 2 ^ 64
  root_out : s.free_list + 16 ≤ s.mem_start ∨ s.mem_max ≤ s.free_list
  root_lt : s.free_list + 16 ≤ 2 ^ 64
  bptr : s.heap_bptr = s.mem_start + 16
  pro_hd : s.mem (s.mem_start + 8) = Pack_w 16 1
  pro_ft : s.mem (s.mem_start + 16) = Pack_w 16 1
  tiles : Tiles s.mem (s.mem_start + 32) bs s.mem_brk
  epi : s.mem (s.mem_brk - 8) = Pack_w 0 1
  links : dll s.mem s.free_list fl s.free_list
  nodup : fl.Nodup

/-- The address `t` is not a link field of the sentinel or of a node of `fl`. -/
def NL (root : Nat) (fl : List Nat) (t : Nat) : Prop :=
  t ≠ root ∧ t ≠ root + 8 ∧ ∀ y ∈ fl, t ≠ y ∧ t ≠ y + 8

/-- A frame whose list nodes are payload addresses of blocks. -/
structure LFrame (s : Heap) (bs : List (Nat × Nat)) (fl : List Nat)
    extends Frame s bs fl : Prop where
  sub : ∀ y ∈ fl, y ∈ starts (s.mem_start + 32) bs

/-- Well-formed heap with block list `bs` and free list `fl` (in list order):
I1, I2, I5 and I6 through the tiling, I3, and I4: the circular list holds
exactly the free blocks, each once. -/
structure WF (s : Heap) (bs : List (Nat × Nat)) (fl : List Nat)
    extends Frame s bs fl : Prop where
  noadj : NoAdjFree bs
  fl_mem : ∀ x, x ∈ fl ↔ x ∈ freeAddrs (s.mem_start + 32) bs

/-- The state in which `coalesce` is called: the block of size `sz` after the
blocks `pre` is tagged free but is not in the free list, and may have free
neighbours. -/
structure WFc (s : Heap) (pre : List (Nat × Nat)) (sz : Nat) (post : List (Nat × Nat))
    (fl : List Nat) extends Frame s (pre ++ (sz, 0) :: post) fl : Prop where
  noadj_pre : NoAdjFree pre
  noadj_post : NoAdjFree post
  fl_mem : ∀ x, x ∈ fl ↔
    (x ∈ freeAddrs (s.mem_start + 32) pre ∨
      x ∈ freeAddrs (s.mem_start + 32 + total pre + sz) post)

/-- The allocated bit of the last block of a run; 1 for the empty run. -/
def lastAlloc (bs : List (Nat × Nat)) : Nat :=
  match bs.getLast? with
  | none => 1
  | some b => b.2

/-- The allocated bit of the first block of a run; 1 for the empty run. -/
def headAlloc (bs : List (Nat × Nat)) : Nat :=
  match bs.head? with
  | none => 1
  | some b => b.2

/-- A heap the host has just created: empty, at a non-null 16-aligned
address, with the sentinel outside the region it may grow into. -/
structure EmptyHeap (s : Heap) : Prop where
  lo_pos : 0 < s.mem_start
  lo_al : s.mem_start % 16 = 0
  brk_eq : s.mem_brk = s.mem_start
  max_lt : s.mem_max < 2 ^ 64
  root_out : s.free_list + 16 ≤ s.mem_start ∨ s.mem_max ≤ s.free_list
  root_lt : s.free_list + 16 ≤ 2 ^ 64

/-! ## The remaining entry points -/

/-- Multiplication of two `size_t` values. -/
def mul64 (a b : Nat) : Nat := (a * b) % 2 ^ 64

/-- Modelled from the spec: `memset`, the byte fill primitive, for an
8-aligned `dst` and `n` bytes that lie in the memory of the host.  Whole words
are filled; of a last, partial word the low bytes (little endian) are filled
and the other bytes are kept.  This is the memory after a fill that returns:
in C a fill that runs past the memory of the host faults and does not return,
and there the function describes nothing. -/
def memset (m : Nat → Nat) (dst v n : Nat) : Nat → Nat := fun a =>
  if dst ≤ a ∧ a < dst + n ∧ (a - dst) % 8 = 0 then
    if a + 8 ≤ dst + n then (v % 256) * ((256 ^ 8 - 1) / 255)
    else (v % 256) * ((256 ^ (dst + n - a) - 1) / 255)
      + m a / 256 ^ (dst + n - a) * 256 ^ (dst + n - a)
  else m a

/-- The function `calloc`; `none` only when `first_fit` ran out of fuel.  The
fill is `memset` above, which describes a fill that returns. -/
def calloc (fuel : Nat) (s : Heap) (nmemb size : Nat) : Option (Heap × Nat) :=
  if nmemb = 0 ∨ size = 0 then some (s, 0)
  else
    let total_size := mul64 nmemb size
    if total_size / nmemb ≠ size then some (s, 0)
    else
      let size1 := mul64 size nmemb
      match malloc fuel s size1 with
      | none => none
      | some (s1, ptr) =>
        if ptr ≠ 0 then some ({ s1 with mem := memset s1.mem ptr 0 size1 }, ptr)
        else some (s1, ptr)

/-- The function `in_heap`. -/
def in_heap (s : Heap) (p : Nat) : Bool := decide (p ≤ mem_heap_hi s ∧ mem_heap_lo s ≤ p)

/-- The function `aligned`. -/
def aligned (p : Nat) : Bool := decide (align p = p)

/-- The `for` loop of `mm_checkheap` (compiled with `DEBUG`).  Its body is the
alignment test alone: the statements after it are not in braces.  `none`
means the fuel ran out, `some none` that the loop returned `false`, and
`some (some ptr)` that the loop ended with `ptr`. -/
def checkheap_loop (m : Nat → Nat) : Nat → Nat → Option (Option Nat)
  | 0, _ => none
  | fuel + 1, ptr =>
    if READ_w_SIZE m (Compute_HD ptr) > 0 then
      if ¬ aligned ptr then some none
      else checkheap_loop m fuel (Compute_NXBP m ptr)
    else some (some ptr)

/-- The function `mm_checkheap`, compiled with `DEBUG`; `none` only when the
loop ran out of fuel. -/
def mm_checkheap (fuel : Nat) (s : Heap) (lineno : Int) : Option Bool :=
  let m := s.mem
  if lineno ≠ 0 then
    if READ_w_SIZE m (Compute_HD s.heap_bptr) ≠ 2 * 8 ∨
        READ_w_ALLOC m (Compute_HD s.heap_bptr) = 0 then some false
    else if READ_w m (Compute_HD s.heap_bptr) ≠ READ_w m (Compute_FT m s.heap_bptr) then
      some false
    else
      match checkheap_loop m fuel s.heap_bptr with
      | none => none
      | some none => some false
      | some (some ptr) =>
        if ¬ in_heap s (Compute_HD ptr) ∨ ¬ in_heap s (Compute_FT m ptr) ∨ ¬ in_heap s ptr then
          some false
        else if READ_w m (Compute_HD ptr) ≠ READ_w m (Compute_FT m ptr) then some false
        else if Compute_FT m ptr > Compute_HD (Compute_NXBP m ptr) then some false
        else if READ_w_SIZE m (Compute_HD ptr) ≠ 0 ∨ READ_w_ALLOC m (Compute_HD ptr) = 0 then
          some false
        else some true
  else some true

/-! ## Variants the specification compares the code with -/

/-- The insertion as the specification orders it: `node.next = root.next`,
`node.prev = root`, `root.next.prev = node`, `root.next = node`. -/
def FL_insert_spec (m : Nat → Nat) (root node : Nat) : Nat → Nat :=
  let m1 := WRITE_w m (next_node node) (READ_w m (next_node root))
  let m2 := WRITE_w m1 (prev_node node) root
  let m3 := WRITE_w m2 (prev_node (READ_w m2 (next_node root))) node
  WRITE_w m3 (next_node root) node

/-- The specification's variant of `coalesce`: the two allocated bits are read
from the previous block's footer and from the next block's header without
the heap-bounds tests; everything else is `coalesce`. -/
def coalesce_untested (s : Heap) (ptr : Nat) : Heap × Nat :=
  let m := s.mem
  let prev_block_allocation := READ_w_ALLOC m (Compute_FT m (Compute_PVBP m ptr))
  let next_block_allocation := READ_w_ALLOC m (Compute_HD (Compute_NXBP m ptr))
  let size := READ_w_SIZE m (Compute_HD ptr)
  if prev_block_allocation ≠ 0 ∧ next_block_allocation ≠ 0 then
    ({ s with mem := FL_append m s.free_list ptr }, ptr)
  else if prev_block_allocation ≠ 0 ∧ ¬ next_block_allocation ≠ 0 then
    let m1 := FL_unlink m (Compute_NXBP m ptr)
    let m2 := FL_append m1 s.free_list ptr
    let size1 := add64 size (READ_w_SIZE m2 (Compute_HD (Compute_NXBP m2 ptr)))
    let m3 := WRITE_w m2 (Compute_HD ptr) (Pack_w size1 0)
    let m4 := WRITE_w m3 (Compute_FT m3 ptr) (Pack_w size1 0)
    ({ s with mem := m4 }, ptr)
  else if ¬ prev_block_allocation ≠ 0 ∧ next_block_allocation ≠ 0 then
    let size1 := add64 size (READ_w_SIZE m (Compute_HD (Compute_PVBP m ptr)))
    let m1 := WRITE_w m (Compute_FT m ptr) (Pack_w size1 0)
    let m2 := WRITE_w m1 (Compute_HD (Compute_PVBP m1 ptr)) (Pack_w size1 0)
    ({ s with mem := m2 }, Compute_PVBP m2 ptr)
  else
    let m1 := FL_unlink m (Compute_NXBP m ptr)
    let size1 := add64 size
      (add64 (READ_w_SIZE m1 (Compute_HD (Compute_PVBP m1 ptr)))
        (READ_w_SIZE m1 (Compute_FT m1 (Compute_NXBP m1 ptr))))
    let m2 := WRITE_w m1 (Compute_HD (Compute_PVBP m1 ptr)) (Pack_w size1 0)
    let m3 := WRITE_w m2 (Compute_FT m2 (Compute_NXBP m2 ptr)) (Pack_w size1 0)
    ({ s with mem := m3 }, Compute_PVBP m3 ptr)

/-! ## Clients -/

/-- The byte at address `a` of the word memory (little endian). -/
def byteAt (m : Nat → Nat) (a : Nat) : Nat := m (a - a % 8) / 256 ^ (a % 8) % 256

/-- The live pointers after `realloc (p, n)` has returned `q`. -/
def realloc_live (L : List Nat) (p n q : Nat) : List Nat :=
  if q ≠ 0 then q :: L.erase p else if n = 0 then L.erase p else L

/-- The states a client can reach, each with the list of its live pointers
(returned by `malloc` or `realloc` and not freed since): `mm_init` on an empty
heap, then any sequence of `malloc`, `free` of a live pointer, `realloc` of
`NULL` or of a live pointer, and stores into the payload of a live pointer.
Every requested size is at most `B`. -/
inductive Reach (B : Nat) : Heap → List Nat → Prop
  | init (s0 : Heap) : EmptyHeap s0 → (mm_init s0).2 = true → Reach B (mm_init s0).1 []
  | step_malloc {s : Heap} {L : List Nat} (fuel n : Nat) {s' : Heap} {p : Nat} :
      Reach B s L → n ≤ B → malloc fuel s n = some (s', p) →
      Reach B s' (if p = 0 then L else p :: L)
  | step_free {s : Heap} {L : List Nat} (p : Nat) :
      Reach B s L → p ∈ L → Reach B (free s p) (L.erase p)
  | step_realloc {s : Heap} {L : List Nat} (fuel p n : Nat) {s' : Heap} {q : Nat} :
      Reach B s L → (p = 0 ∨ p ∈ L) → n ≤ B → realloc fuel s p n = some (s', q) →
      Reach B s' (realloc_live L p n q)
  | step_store {s : Heap} {L : List Nat} (p t v : Nat) :
      Reach B s L → p ∈ L → p ≤ t → t + 16 < p + READ_w_SIZE s.mem (Compute_HD p) →
      Reach B { s with mem := WRITE_w s.mem t v } L

/-- What exclusive ownership of the `n` bytes at `p` means in the state `s`
with the other live pointers `L`: the bytes are in the heap, between the
header and the footer of the block of `p`, and that block overlaps the block
of no other live pointer. -/
def Exclusive (s : Heap) (L : List Nat) (p n : Nat) : Prop :=
  mem_heap_lo s ≤ p ∧ p + n ≤ s.mem_brk ∧
    n + 16 ≤ READ_w_SIZE s.mem (Compute_HD p) ∧
    ∀ q ∈ L, q + READ_w_SIZE s.mem (Compute_HD q) ≤ p ∨
      p + READ_w_SIZE s.mem (Compute_HD p) ≤ q

/-! ## Deciding the layout predicates on a concrete heap -/

/-- The tiling predicate is decidable. -/
instance decTiles (m : Nat → Nat) : ∀ (bs : List (Nat × Nat)) (a e : Nat),
    Decidable (Tiles m a bs e)
  | [], a, e => inferInstanceAs (Decidable (a = e))
  | b :: bs, a, e =>
    have := decTiles m bs (a + b.1) e
    inferInstanceAs (Decidable (b.1 % 16 = 0 ∧ 32 ≤ b.1 ∧ b.2 ≤ 1 ∧
      m (a - 8) = Pack_w b.1 b.2 ∧ m (a + b.1 - 16) = Pack_w b.1 b.2 ∧
      Tiles m (a + b.1) bs e))

/-- The linking predicate is decidable. -/
instance decDll (m : Nat → Nat) : ∀ (xs : List Nat) (p q : Nat), Decidable (dll m p xs q)
  | [], p, q => inferInstanceAs (Decidable (m p = q ∧ m (q + 8) = p))
  | x :: xs, p, q =>
    have := decDll m xs x q
    inferInstanceAs (Decidable (m p = x ∧ m (x + 8) = p ∧ dll m x xs q))

/-- A check that no two adjacent blocks are both free. -/
def noAdj : List (Nat × Nat) → Bool
  | [] => true
  | [_] => true
  | b :: c :: bs => !(b.2 == 0 && c.2 == 0) && noAdj (c :: bs)

/-! ## Concrete heaps -/

/-- An empty heap at address 4096 that may grow to one megabyte, with the
sentinel at address 64. -/
def heap0 : Heap :=
  { mem := fun _ => 0, mem_start := 4096, mem_brk := 4096, mem_max := 1048576,
    heap_bptr := 0, free_list := 64 }

/-- The heap after `mm_init`. -/
def heap1 : Heap := (mm_init heap0).1

/-- The heap after `mm_init` and `malloc (40)`: a 64-byte allocated block and
the rest of the first chunk. -/
def heap2 : Heap := allocate_block heap1 4128 64

/-- A heap whose first block is free and 48 bytes long: after `malloc (32)`,
`malloc (16)` and `free` of the first pointer. -/
def heap48 : Heap := free (allocate_block (allocate_block heap1 4128 48) 4176 32) 4128

/-- The words of a heap image: the word at each multiple of 8 from `base`. -/
def image (base : Nat) (ws : List Nat) : Nat → Nat := fun a =>
  if base ≤ a ∧ (a - base) % 8 = 0 then ws.getD ((a - base) / 8) 0 else 0

/-- Four 32-byte blocks A, B, C, D at 4128, 4160, 4192, 4224: A and C are free
and in the free list (C first), B has just been tagged free and is not in
the list, D is allocated. -/
def heapABC : Heap :=
  { mem := WRITE_w (WRITE_w (image 4096
      [0, 17, 17,
       32, 64, 4192, 32,
       32, 0, 0, 32,
       32, 4128, 64, 32,
       33, 0, 0, 33,
       1]) 64 4192) 72 4128,
    mem_start := 4096, mem_brk := 4256, mem_max := 1048576,
    heap_bptr := 4112, free_list := 64 }

/-- The heap after `mm_init` and `malloc (2 ^ 64 - 20)`: the computed block
size has wrapped to 0. -/
def heapW : Heap := allocate_block heap1 4128 0

/-- The heap `heapW` after `free` of the pointer that `malloc` returned. -/
def heapWf : Heap := free heapW 4128

/-- The heap `heapWf` after `malloc (8000)`. -/
def heapW3 : Heap := allocate_block heapWf 4128 8016

/-- The heap after three times `malloc (16)` and `free` of the first pointer:
a free block at 4128, allocated blocks at 4160 and 4192. -/
def heapF : Heap :=
  free (allocate_block (allocate_block (allocate_block heap1 4128 32) 4160 32) 4192 32) 4128

/-- An empty heap that may grow to 4128 bytes only. -/
def heap0t : Heap :=
  { mem := fun _ => 0, mem_start := 4096, mem_brk := 4096, mem_max := 8224,
    heap_bptr := 0, free_list := 64 }

/-- The heap `heap0t` after `mm_init`: the host grants nothing more. -/
def heap1t : Heap := (mm_init heap0t).1

/-- The heap after `mm_init` and `malloc (16)`. -/
def heapM : Heap := allocate_block heap1 4128 32

/-- The heap `heapM` after the client has stored the five bytes of "HELLO"
at the pointer it got. -/
def heapH : Heap := { heapM with mem := WRITE_w heapM.mem 4128 0x4F4C4C4548 }

/-- The heap `heap1t` after `malloc (16)`. -/
def heapMt : Heap := allocate_block heap1t 4128 32

/-! ## Machine arithmetic and tag words -/

theorem add64_eq {a b : Nat} (h : a + b < 2 ^ 64) : add64 a b = a + b := by
  unfold add64; omega

theorem sub64_eq {a b : Nat} (h : b ≤ a) (ha : a < 2 ^ 64) : sub64 a b = a - b := by
  unfold sub64; omega

theorem and_mask (x : Nat) (h : x < 2 ^ 64) : x &&& (2 ^ 64 - 8) = x - x % 8 := by
  have e : x - x % 8 = 2 ^ 3 * (x / 2 ^ 3) := by omega
  rw [e]
  apply Nat.eq_of_testBit_eq
  intro i
  rw [Nat.testBit_and, Nat.testBit_mul_pow_two, ← Nat.shiftRight_eq_div_pow,
    Nat.testBit_shiftRight]
  have h7 : (2 ^ 64 - 8 : Nat) = 2 ^ 64 - (7 + 1) := by norm_num
  rw [h7, Nat.testBit_two_pow_sub_succ (by norm_num)]
  have h3 : (7 : Nat) = 2 ^ 3 - 1 := by norm_num
  rw [h3, Nat.testBit_two_pow_sub_one]
  by_cases h1 : i < 3
  · simp [h1]
  · have e3 : 3 + (i - 3) = i := by omega
    rw [e3]
    by_cases h2 : i < 64
    · simp [h1, h2]; omega
    · have hx : x.testBit i = false :=
        Nat.testBit_lt_two_pow (lt_of_lt_of_le h (Nat.pow_le_pow_right (by norm_num) (by omega)))
      simp [hx]

theorem Pack_w_eq {s a : Nat} (hs : s % 2 = 0) (ha : a ≤ 1) : Pack_w s a = s + a := by
  unfold Pack_w
  have e : s = 2 ^ 1 * (s / 2) := by omega
  rw [e, ← Nat.mul_add_lt_is_or (by omega)]

theorem READ_w_SIZE_of {m : Nat → Nat} {p sz al : Nat} (h : m p = sz + al)
    (hs : sz % 8 = 0) (ha : al ≤ 1) (hlt : sz + al < 2 ^ 64) : READ_w_SIZE m p = sz := by
  unfold READ_w_SIZE
  rw [h, and_mask _ hlt]; omega

theorem READ_w_ALLOC_of {m : Nat → Nat} {p sz al : Nat} (h : m p = sz + al)
    (hs : sz % 8 = 0) (ha : al ≤ 1) : READ_w_ALLOC m p = al := by
  unfold READ_w_ALLOC
  rw [h, Nat.and_one_is_mod]; omega

@[simp] theorem WRITE_w_same (m : Nat → Nat) (p v : Nat) : WRITE_w m p v p = v := by
  simp [WRITE_w]

theorem WRITE_w_other {m : Nat → Nat} {p v a : Nat} (h : a ≠ p) : WRITE_w m p v a = m a := by
  simp [WRITE_w, h]

/-! ## Tilings -/

theorem Tiles_cons {m : Nat → Nat} {a sz al : Nat} {bs : List (Nat × Nat)} {e : Nat} :
    Tiles m a ((sz, al) :: bs) e ↔
      sz % 16 = 0 ∧ 32 ≤ sz ∧ al ≤ 1 ∧ m (a - 8) = sz + al ∧ m (a + sz - 16) = sz + al ∧
        Tiles m (a + sz) bs e := by
  simp only [Tiles]
  constructor
  · rintro ⟨h1, h2, h3, h4, h5, h6⟩
    rw [Pack_w_eq (by omega) h3] at h4 h5
    exact ⟨h1, h2, h3, h4, h5, h6⟩
  · rintro ⟨h1, h2, h3, h4, h5, h6⟩
    rw [Pack_w_eq (by omega) h3]
    exact ⟨h1, h2, h3, h4, h5, h6⟩

theorem total_append (l1 l2 : List (Nat × Nat)) : total (l1 ++ l2) = total l1 + total l2 := by
  induction l1 with
  | nil => simp [total]
  | cons b l1 ih => simp [total, ih]; omega

theorem Tiles_end {m : Nat → Nat} {bs : List (Nat × Nat)} {a e : Nat} (h : Tiles m a bs e) :
    e = a + total bs := by
  induction bs generalizing a with
  | nil => simpa [Tiles, total] using h.symm
  | cons b bs ih =>
    have := ih h.2.2.2.2.2
    simp [total]; omega

theorem Tiles_append {m : Nat → Nat} {l1 l2 : List (Nat × Nat)} {a e : Nat} :
    Tiles m a (l1 ++ l2) e ↔ Tiles m a l1 (a + total l1) ∧ Tiles m (a + total l1) l2 e := by
  induction l1 generalizing a with
  | nil => simp [Tiles, total]
  | cons b l1 ih =>
    rw [List.cons_append]
    simp only [Tiles, total, ih, Nat.add_assoc]
    tauto

theorem starts_append (a : Nat) (l1 l2 : List (Nat × Nat)) :
    starts a (l1 ++ l2) = starts a l1 ++ starts (a + total l1) l2 := by
  induction l1 generalizing a with
  | nil => simp [starts, total]
  | cons b l1 ih =>
    rw [List.cons_append]
    simp only [starts, total, ih, Nat.add_assoc, List.cons_append]

theorem freeAddrs_append (a : Nat) (l1 l2 : List (Nat × Nat)) :
    freeAddrs a (l1 ++ l2) = freeAddrs a l1 ++ freeAddrs (a + total l1) l2 := by
  induction l1 generalizing a with
  | nil => simp [freeAddrs, total]
  | cons b l1 ih =>
    rw [List.cons_append]
    simp only [freeAddrs, total, ih, Nat.add_assoc]
    split <;> simp

theorem liveAddrs_append (a : Nat) (l1 l2 : List (Nat × Nat)) :
    liveAddrs a (l1 ++ l2) = liveAddrs a l1 ++ liveAddrs (a + total l1) l2 := by
  induction l1 generalizing a with
  | nil => simp [liveAddrs, total]
  | cons b l1 ih =>
    rw [List.cons_append]
    simp only [liveAddrs, total, ih, Nat.add_assoc]
    split <;> simp

theorem tagAddrs_append (a : Nat) (l1 l2 : List (Nat × Nat)) :
    tagAddrs a (l1 ++ l2) = tagAddrs a l1 ++ tagAddrs (a + total l1) l2 := by
  induction l1 generalizing a with
  | nil => simp [tagAddrs, total]
  | cons b l1 ih =>
    rw [List.cons_append]
    simp only [tagAddrs, total, ih, Nat.add_assoc, List.cons_append]

theorem mem_starts_bounds {m : Nat → Nat} {bs : List (Nat × Nat)} {a e y : Nat}
    (h : Tiles m a bs e) (hy : y ∈ starts a bs) : a ≤ y ∧ y + 32 ≤ e ∧ y % 16 = a % 16 := by
  induction bs generalizing a with
  | nil => simp [starts] at hy
  | cons b bs ih =>
    obtain ⟨h1, h2, -, -, -, h6⟩ := h
    have he := Tiles_end h6
    simp only [starts, List.mem_cons] at hy
    rcases hy with rfl | hy
    · omega
    · have := ih h6 hy
      omega

theorem freeAddrs_sub_starts {bs : List (Nat × Nat)} {a y : Nat} (hy : y ∈ freeAddrs a bs) :
    y ∈ starts a bs := by
  induction bs generalizing a with
  | nil => simp [freeAddrs] at hy
  | cons b bs ih =>
    simp only [freeAddrs] at hy
    simp only [starts, List.mem_cons]
    split at hy
    · rcases List.mem_cons.1 hy with rfl | hy
      · exact Or.inl rfl
      · exact Or.inr (ih hy)
    · exact Or.inr (ih hy)

theorem liveAddrs_sub_starts {bs : List (Nat × Nat)} {a y : Nat} (hy : y ∈ liveAddrs a bs) :
    y ∈ starts a bs := by
  induction bs generalizing a with
  | nil => simp [liveAddrs] at hy
  | cons b bs ih =>
    simp only [liveAddrs] at hy
    simp only [starts, List.mem_cons]
    split at hy
    · exact Or.inr (ih hy)
    · rcases List.mem_cons.1 hy with rfl | hy
      · exact Or.inl rfl
      · exact Or.inr (ih hy)

theorem mem_freeAddrs_bounds {m : Nat → Nat} {bs : List (Nat × Nat)} {a e y : Nat}
    (h : Tiles m a bs e) (hy : y ∈ freeAddrs a bs) : a ≤ y ∧ y + 32 ≤ e ∧ y % 16 = a % 16 :=
  mem_starts_bounds h (freeAddrs_sub_starts hy)

theorem mem_liveAddrs_bounds {m : Nat → Nat} {bs : List (Nat × Nat)} {a e y : Nat}
    (h : Tiles m a bs e) (hy : y ∈ liveAddrs a bs) : a ≤ y ∧ y + 32 ≤ e ∧ y % 16 = a % 16 :=
  mem_starts_bounds h (liveAddrs_sub_starts hy)

theorem mem_tagAddrs_bounds {m : Nat → Nat} {bs : List (Nat × Nat)} {a e t : Nat}
    (h : Tiles m a bs e) (ht : t ∈ tagAddrs a bs) : a ≤ t + 8 ∧ t + 16 ≤ e := by
  induction bs generalizing a with
  | nil => simp [tagAddrs] at ht
  | cons b bs ih =>
    obtain ⟨h1, h2, -, -, -, h6⟩ := h
    have he := Tiles_end h6
    simp only [tagAddrs, List.mem_cons] at ht
    rcases ht with rfl | rfl | ht
    · omega
    · omega
    · have := ih h6 ht
      omega

theorem tag_ne_link {m : Nat → Nat} {bs : List (Nat × Nat)} {a e t y : Nat}
    (h : Tiles m a bs e) (ha : 8 ≤ a) (ht : t ∈ tagAddrs a bs) (hy : y ∈ starts a bs) :
    t ≠ y ∧ t ≠ y + 8 := by
  induction bs generalizing a with
  | nil => simp [tagAddrs] at ht
  | cons b bs ih =>
    obtain ⟨h1, h2, -, -, -, h6⟩ := h
    simp only [tagAddrs, List.mem_cons] at ht
    simp only [starts, List.mem_cons] at hy
    rcases ht with rfl | rfl | ht
    · rcases hy with rfl | hy
      · omega
      · have := mem_starts_bounds h6 hy
        omega
    · rcases hy with rfl | hy
      · omega
      · have := mem_starts_bounds h6 hy
        omega
    · have hb := mem_tagAddrs_bounds h6 ht
      rcases hy with rfl | hy
      · omega
      · exact ih h6 (by omega) ht hy

theorem Tiles_congr {m m' : Nat → Nat} {bs : List (Nat × Nat)} {a e : Nat}
    (hm : ∀ t ∈ tagAddrs a bs, m' t = m t) (h : Tiles m a bs e) : Tiles m' a bs e := by
  induction bs generalizing a with
  | nil => exact h
  | cons b bs ih =>
    obtain ⟨h1, h2, h3, h4, h5, h6⟩ := h
    refine ⟨h1, h2, h3, ?_, ?_, ih (fun t ht => hm t ?_) h6⟩
    · rw [hm _ (by simp [tagAddrs])]; exact h4
    · rw [hm _ (by simp [tagAddrs])]; exact h5
    · simp [tagAddrs, ht]

theorem mem_freeAddrs_split {bs : List (Nat × Nat)} {a y : Nat} (hy : y ∈ freeAddrs a bs) :
    ∃ pre sz post, bs = pre ++ (sz, 0) :: post ∧ y = a + total pre := by
  induction bs generalizing a with
  | nil => simp [freeAddrs] at hy
  | cons b bs ih =>
    obtain ⟨sz, al⟩ := b
    simp only [freeAddrs] at hy
    by_cases hal : al = 0
    · subst hal
      simp only [if_true, List.mem_cons] at hy
      rcases hy with rfl | hy
      · exact ⟨[], sz, bs, rfl, by simp [total]⟩
      · obtain ⟨pre, s1, post, rfl, rfl⟩ := ih hy
        exact ⟨(sz, 0) :: pre, s1, post, rfl, by simp [total]; omega⟩
    · simp only [hal, if_false] at hy
      obtain ⟨pre, s1, post, rfl, rfl⟩ := ih hy
      exact ⟨(sz, al) :: pre, s1, post, rfl, by simp [total]; omega⟩

theorem mem_liveAddrs_split {bs : List (Nat × Nat)} {a y : Nat} (hy : y ∈ liveAddrs a bs) :
    ∃ pre sz al post, bs = pre ++ (sz, al) :: post ∧ al ≠ 0 ∧ y = a + total pre := by
  induction bs generalizing a with
  | nil => simp [liveAddrs] at hy
  | cons b bs ih =>
    obtain ⟨sz, al⟩ := b
    simp only [liveAddrs] at hy
    by_cases hal : al = 0
    · simp only [hal, if_true] at hy
      obtain ⟨pre, s1, a1, post, rfl, h1, rfl⟩ := ih hy
      exact ⟨(sz, al) :: pre, s1, a1, post, rfl, h1, by simp [total]; omega⟩
    · simp only [hal, if_false, List.mem_cons] at hy
      rcases hy with rfl | hy
      · exact ⟨[], sz, al, bs, rfl, hal, by simp [total]⟩
      · obtain ⟨pre, s1, a1, post, rfl, h1, rfl⟩ := ih hy
        exact ⟨(sz, al) :: pre, s1, a1, post, rfl, h1, by simp [total]; omega⟩

theorem liveBlocks_append (a : Nat) (l1 l2 : List (Nat × Nat)) :
    liveBlocks a (l1 ++ l2) = liveBlocks a l1 ++ liveBlocks (a + total l1) l2 := by
  induction l1 generalizing a with
  | nil => simp [liveBlocks, total]
  | cons b l1 ih =>
    rw [List.cons_append]
    simp only [liveBlocks, total, ih, Nat.add_assoc]
    split <;> simp

theorem liveBlocks_nil (a : Nat) : liveBlocks a [] = [] := rfl

theorem liveBlocks_free_cons (a sz : Nat) (l : List (Nat × Nat)) :
    liveBlocks a ((sz, 0) :: l) = liveBlocks (a + sz) l := by
  simp [liveBlocks]

theorem liveBlocks_live_cons {a sz al : Nat} (l : List (Nat × Nat)) (h : al ≠ 0) :
    liveBlocks a ((sz, al) :: l) = (a, sz) :: liveBlocks (a + sz) l := by
  simp [liveBlocks, h]

theorem liveAddrs_eq_map (a : Nat) (bs : List (Nat × Nat)) :
    liveAddrs a bs = (liveBlocks a bs).map Prod.fst := by
  induction bs generalizing a with
  | nil => rfl
  | cons b bs ih =>
    simp only [liveAddrs, liveBlocks, ih]
    split <;> simp

theorem mem_liveBlocks_split {bs : List (Nat × Nat)} {a : Nat} {c : Nat × Nat}
    (hc : c ∈ liveBlocks a bs) :
    ∃ pre al post, bs = pre ++ (c.2, al) :: post ∧ al ≠ 0 ∧ c.1 = a + total pre := by
  induction bs generalizing a with
  | nil => simp [liveBlocks] at hc
  | cons b bs ih =>
    obtain ⟨sz, al⟩ := b
    simp only [liveBlocks] at hc
    by_cases hal : al = 0
    · simp only [hal, if_true] at hc
      obtain ⟨pre, a1, post, rfl, h1, h2⟩ := ih hc
      exact ⟨(sz, al) :: pre, a1, post, rfl, h1, by simp [total]; omega⟩
    · simp only [hal, if_false, List.mem_cons] at hc
      rcases hc with rfl | hc
      · exact ⟨[], al, bs, rfl, hal, by simp [total]⟩
      · obtain ⟨pre, a1, post, rfl, h1, h2⟩ := ih hc
        exact ⟨(sz, al) :: pre, a1, post, rfl, h1, by simp [total]; omega⟩

/-! ## The doubly linked list -/

theorem FL_unlink_eq {m : Nat → Nat} {x a b : Nat} (ha : m (x + 8) = a) (hb : m x = b)
    (hx : x + 8 < 2 ^ 64) (hb8 : b + 8 < 2 ^ 64) (h1 : a ≠ x) (h2 : a ≠ x + 8) :
    FL_unlink m x = WRITE_w (WRITE_w (WRITE_w (WRITE_w m a b) (b + 8) a) x 0) (x + 8) 0 := by
  unfold FL_unlink next_node prev_node READ_w
  rw [add64_eq hx]
  simp only [ha, hb]
  rw [WRITE_w_other (Ne.symm h1), WRITE_w_other (Ne.symm h2), ha, hb, add64_eq hb8]

theorem FL_append_eq {m : Nat → Nat} {root q f : Nat} (hf : m root = f)
    (hq : q + 8 < 2 ^ 64) (hf8 : f + 8 < 2 ^ 64) (h1 : q ≠ root) :
    FL_append m root q = WRITE_w (WRITE_w (WRITE_w (WRITE_w m q f) (q + 8) root) root q) (f + 8) q := by
  unfold FL_append next_node prev_node READ_w
  dsimp only
  rw [add64_eq hq, hf]
  have e : WRITE_w (WRITE_w (WRITE_w m q f) (q + 8) root) root q q = f := by
    rw [WRITE_w_other h1, WRITE_w_other (by omega), WRITE_w_same]
  rw [e, add64_eq hf8]

theorem dll_congr {m m' : Nat → Nat} {xs : List Nat} {p q : Nat}
    (h1 : ∀ y ∈ p :: xs, m' y = m y) (h2 : ∀ y ∈ xs ++ [q], m' (y + 8) = m (y + 8))
    (h : dll m p xs q) : dll m' p xs q := by
  induction xs generalizing p with
  | nil =>
    obtain ⟨ha, hb⟩ := h
    exact ⟨by rw [h1 p (by simp)]; exact ha, by rw [h2 q (by simp)]; exact hb⟩
  | cons x xs ih =>
    obtain ⟨ha, hb, hc⟩ := h
    refine ⟨by rw [h1 p (by simp)]; exact ha, by rw [h2 x (by simp)]; exact hb, ih ?_ ?_ hc⟩
    · intro y hy; exact h1 y (List.mem_cons_of_mem _ hy)
    · intro y hy; exact h2 y (by simp at hy ⊢; tauto)

theorem dll_append {m : Nat → Nat} {l1 l2 : List Nat} {p x q : Nat} :
    dll m p (l1 ++ x :: l2) q ↔ dll m p l1 x ∧ dll m x l2 q := by
  induction l1 generalizing p with
  | nil => simp [dll, and_assoc]
  | cons c l1 ih =>
    rw [List.cons_append]
    simp only [dll, ih, and_assoc]

theorem dll_next_mem {m : Nat → Nat} {l : List Nat} {x q : Nat} (h : dll m x l q) :
    m x ∈ l ++ [q] := by
  cases l with
  | nil => simp [h.1]
  | cons c l => simp [h.1]

theorem dll_prev_mem {m : Nat → Nat} {l : List Nat} {p x : Nat} (h : dll m p l x) :
    m (x + 8) ∈ p :: l := by
  induction l generalizing p with
  | nil => simp [h.2]
  | cons c l ih =>
    have := ih h.2.2
    exact List.mem_cons_of_mem _ this

/-- Removing `x` from a doubly linked segment: any memory that redirects the
two neighbours of `x` and leaves the other link fields alone links the rest. -/
theorem dll_remove {m m' : Nat → Nat} {l1 l2 : List Nat} {p x q : Nat} (S : Nat → Prop)
    (hS : ∀ y z, S y → S z → y ≠ z + 8) (hp : S p) (hq : S q)
    (hl : ∀ y ∈ l1 ++ x :: l2, S y)
    (hnd : (p :: (l1 ++ x :: l2)).Nodup) (hqn : q ∉ l1 ++ x :: l2)
    (F1 : m' (m (x + 8)) = m x) (F2 : m' (m x + 8) = m (x + 8))
    (F3 : ∀ t, t ≠ m (x + 8) → t ≠ m x + 8 → t ≠ x → t ≠ x + 8 → m' t = m t)
    (h1 : dll m p l1 x) (h2 : dll m x l2 q) : dll m' p (l1 ++ l2) q := by
  have hSx : S x := hl x (by simp)
  induction l1 generalizing p with
  | nil =>
    obtain ⟨hpx, hxp⟩ := h1
    rw [hxp] at F1 F2
    simp only [List.nil_append, List.nodup_cons, List.mem_cons, not_or] at hnd hqn hl ⊢
    cases l2 with
    | nil =>
      obtain ⟨hxq, -⟩ := h2
      rw [hxq] at F1 F2
      exact ⟨F1, F2⟩
    | cons b l2 =>
      obtain ⟨hxb, -, h3⟩ := h2
      rw [hxb] at F1 F2
      rw [hxp, hxb] at F3
      have hSb : S b := hl b (by simp)
      simp only [List.nodup_cons, List.mem_cons, not_or] at hnd hqn
      obtain ⟨⟨hpx', hpb, hpl⟩, ⟨hxb', hxl⟩, hbl, -⟩ := hnd
      obtain ⟨hqx, hqb, hql⟩ := hqn
      refine ⟨F1, F2, dll_congr ?_ ?_ h3⟩
      · intro y hy
        have hSy : S y := hl y (Or.inr hy)
        apply F3
        · rintro rfl
          rcases List.mem_cons.1 hy with h | h
          · exact hpb h
          · exact hpl h
        · exact hS _ _ hSy hSb
        · rintro rfl
          rcases List.mem_cons.1 hy with h | h
          · exact hxb' h
          · exact hxl h
        · exact hS _ _ hSy hSx
      · intro y hy
        simp only [List.mem_append, List.mem_singleton] at hy
        have hSy : S y := by
          rcases hy with hy | rfl
          · exact hl y (Or.inr (List.mem_cons_of_mem _ hy))
          · exact hq
        apply F3
        · exact fun h => hS _ _ hp hSy h.symm
        · intro h
          have : y = b := by omega
          subst this
          rcases hy with hy | hy
          · exact hbl hy
          · exact hqb hy.symm
        · exact fun h => hS _ _ hSx hSy h.symm
        · intro h
          have : y = x := by omega
          subst this
          rcases hy with hy | hy
          · exact hxl hy
          · exact hqx hy.symm
  | cons c l1 ih =>
    obtain ⟨hpc, hcp, h3⟩ := h1
    rw [List.cons_append] at hnd hqn hl ⊢
    have hSc : S c := hl c (by simp)
    have hprev := dll_prev_mem h3
    have hnext := dll_next_mem h2
    have hSprev : S (m (x + 8)) := by
      simp only [List.mem_cons] at hprev
      rcases hprev with h | h
      · rw [h]; exact hSc
      · exact hl _ (by simp; tauto)
    have hSnext : S (m x) := by
      simp only [List.mem_append, List.mem_singleton] at hnext
      rcases hnext with h | h
      · exact hl _ (by simp; tauto)
      · rw [h]; exact hq
    have hnd' := hnd
    simp only [List.nodup_cons, List.mem_cons, List.mem_append, not_or] at hnd
    simp only [List.mem_cons, List.mem_append, not_or] at hqn
    refine ⟨?_, ?_, ih hSc (fun y hy => hl y (List.mem_cons_of_mem _ hy)) (List.nodup_cons.1 hnd').2
        (by simp only [List.mem_append, List.mem_cons, not_or]; tauto) h3⟩
    · rw [F3 p, hpc]
      · intro h
        rw [← h] at hprev
        simp only [List.mem_cons] at hprev
        tauto
      · exact hS _ _ hp hSnext
      · intro h; subst h; simp at hnd
      · exact hS _ _ hp hSx
    · rw [F3 (c + 8), hcp]
      · exact fun h => hS _ _ hSprev hSc h.symm
      · intro h
        have hc : c = m x := by omega
        rw [← hc] at hnext
        simp only [List.mem_append, List.mem_singleton] at hnext
        tauto
      · exact fun h => hS _ _ hSx hSc h.symm
      · intro h
        have hc : c = x := by omega
        subst hc
        simp at hnd

/-- The function `FL_unlink` on a well-formed list: the node is removed, the
others keep their order, and only link fields of list nodes change. -/
theorem FL_unlink_dll {m : Nat → Nat} {fl : List Nat} {x lo hi root : Nat}
    (hd : dll m root fl root) (hnd : fl.Nodup) (hx : x ∈ fl)
    (hN : ∀ y ∈ fl, y % 16 = 0 ∧ lo ≤ y ∧ y + 16 ≤ hi)
    (hR : root + 16 ≤ lo ∨ hi ≤ root) (hhi : hi < 2 ^ 64) (hroot : root + 16 ≤ 2 ^ 64) :
    ∃ l1 l2, fl = l1 ++ x :: l2 ∧ dll (FL_unlink m x) root (l1 ++ l2) root ∧
      (∀ t, t ≠ root → t ≠ root + 8 → (∀ y ∈ fl, t ≠ y ∧ t ≠ y + 8) →
        FL_unlink m x t = m t) := by
  obtain ⟨l1, l2, rfl⟩ := List.append_of_mem hx
  refine ⟨l1, l2, rfl, ?_⟩
  obtain ⟨h1, h2⟩ := dll_append.1 hd
  have hprev := dll_prev_mem h1
  have hnext := dll_next_mem h2
  have hNx := hN x hx
  have hrx : root ≠ x := by omega
  have hnd2 := List.nodup_middle.1 hnd
  obtain ⟨hx12, -⟩ := List.nodup_cons.1 hnd2
  simp only [List.mem_append, not_or] at hx12
  have hSa : m (x + 8) = root ∨ (m (x + 8) % 16 = 0 ∧ lo ≤ m (x + 8) ∧ m (x + 8) + 16 ≤ hi) := by
    rcases List.mem_cons.1 hprev with h | h
    · exact Or.inl h
    · exact Or.inr (hN _ (by simp [h]))
  have hSb : m x = root ∨ (m x % 16 = 0 ∧ lo ≤ m x ∧ m x + 16 ≤ hi) := by
    simp only [List.mem_append, List.mem_singleton] at hnext
    rcases hnext with h | h
    · exact Or.inr (hN _ (by simp [h]))
    · exact Or.inl h
  have hax : m (x + 8) ≠ x := by
    intro h
    rw [h] at hprev
    rcases List.mem_cons.1 hprev with h' | h'
    · exact hrx h'.symm
    · exact hx12.1 h'
  have hbx : m x ≠ x := by
    intro h
    rw [h] at hnext
    simp only [List.mem_append, List.mem_singleton] at hnext
    rcases hnext with h' | h'
    · exact hx12.2 h'
    · exact hrx h'.symm
  have heq := FL_unlink_eq (m := m) (x := x) rfl rfl (by omega) (by omega) hax (by omega)
  have F3 : ∀ t, t ≠ m (x + 8) → t ≠ m x + 8 → t ≠ x → t ≠ x + 8 → FL_unlink m x t = m t := by
    intro t h1 h2 h3 h4
    rw [heq, WRITE_w_other h4, WRITE_w_other h3, WRITE_w_other h2, WRITE_w_other h1]
  constructor
  · refine dll_remove (fun y => y = root ∨ (y % 16 = 0 ∧ lo ≤ y ∧ y + 16 ≤ hi)) ?_
      (Or.inl rfl) (Or.inl rfl) (fun y hy => Or.inr (hN y hy)) ?_ ?_ ?_ ?_ F3 h1 h2
    · intro y z hy hz; omega
    · refine List.nodup_cons.2 ⟨?_, hnd⟩
      intro h
      have := hN root h
      omega
    · intro h
      have := hN root h
      omega
    · rw [heq, WRITE_w_other (by omega), WRITE_w_other hax, WRITE_w_other (by omega),
        WRITE_w_same]
    · rw [heq, WRITE_w_other (by omega), WRITE_w_other (by omega), WRITE_w_same]
  · intro t ht1 ht2 ht3
    apply F3
    · rcases List.mem_cons.1 hprev with h | h
      · rw [h]; exact ht1
      · exact (ht3 _ (by simp [h])).1
    · simp only [List.mem_append, List.mem_singleton] at hnext
      rcases hnext with h | h
      · exact (ht3 _ (by simp [h])).2
      · rw [h]; exact ht2
    · exact (ht3 x hx).1
    · exact (ht3 x hx).2

/-- The function `FL_append` on a well-formed list: the node becomes the
first one, and only link fields of the node and of list nodes change. -/
theorem FL_append_dll {m : Nat → Nat} {fl : List Nat} {q lo hi root : Nat}
    (hd : dll m root fl root) (hnd : fl.Nodup) (hq : q ∉ fl)
    (hN : ∀ y ∈ q :: fl, y % 16 = 0 ∧ lo ≤ y ∧ y + 16 ≤ hi)
    (hR : root + 16 ≤ lo ∨ hi ≤ root) (hhi : hi < 2 ^ 64) (hroot : root + 16 ≤ 2 ^ 64) :
    dll (FL_append m root q) root (q :: fl) root ∧
      (∀ t, t ≠ root → t ≠ root + 8 → t ≠ q → t ≠ q + 8 → (∀ y ∈ fl, t ≠ y + 8) →
        FL_append m root q t = m t) := by
  have hNq := hN q (by simp)
  have hnext := dll_next_mem hd
  have hSf : m root = root ∨ (m root % 16 = 0 ∧ lo ≤ m root ∧ m root + 16 ≤ hi) := by
    simp only [List.mem_append, List.mem_singleton] at hnext
    rcases hnext with h | h
    · exact Or.inr (hN _ (by simp [h]))
    · exact Or.inl h
  have hfq : m root ≠ q := by
    intro h
    rw [h] at hnext
    simp only [List.mem_append, List.mem_singleton] at hnext
    rcases hnext with h' | h'
    · exact hq h'
    · omega
  have heq := @FL_append_eq m root q _ rfl (by omega) (by omega) (by omega)
  constructor
  · cases fl with
    | nil =>
      obtain ⟨h1, h2⟩ := hd
      rw [heq, h1]
      refine ⟨?_, ?_, ?_, ?_⟩
      · rw [WRITE_w_other (by omega), WRITE_w_same]
      · rw [WRITE_w_other (by omega), WRITE_w_other (by omega), WRITE_w_same]
      · rw [WRITE_w_other (by omega), WRITE_w_other (by omega), WRITE_w_other (by omega),
          WRITE_w_same]
      · rw [WRITE_w_same]
    | cons f fl =>
      obtain ⟨h1, h2, h3⟩ := hd
      rw [heq, h1]
      rw [h1] at hfq hSf
      have hNf := hN f (by simp)
      obtain ⟨hffl, -⟩ := List.nodup_cons.1 hnd
      refine ⟨?_, ?_, ?_, ?_, dll_congr ?_ ?_ h3⟩
      · rw [WRITE_w_other (by omega), WRITE_w_same]
      · rw [WRITE_w_other (by omega), WRITE_w_other (by omega), WRITE_w_same]
      · rw [WRITE_w_other (by omega), WRITE_w_other (by omega), WRITE_w_other (by omega),
          WRITE_w_same]
      · rw [WRITE_w_same]
      · intro y hy
        have hNy := hN y (by simp at hy ⊢; tauto)
        have hyq : y ≠ q := by
          rintro rfl
          exact hq hy
        rw [WRITE_w_other (by omega), WRITE_w_other (by omega), WRITE_w_other (by omega),
          WRITE_w_other hyq]
      · intro y hy
        simp only [List.mem_append, List.mem_singleton] at hy
        have hyf : y ≠ f := by
          rintro rfl
          rcases hy with hy | hy
          · exact hffl hy
          · omega
        have hyq : y ≠ q := by
          rintro rfl
          rcases hy with hy | hy
          · exact hq (List.mem_cons_of_mem _ hy)
          · omega
        have hSy : y = root ∨ (y % 16 = 0 ∧ lo ≤ y ∧ y + 16 ≤ hi) := by
          rcases hy with hy | hy
          · exact Or.inr (hN y (by simp [hy]))
          · exact Or.inl hy
        rw [WRITE_w_other (by omega), WRITE_w_other (by omega), WRITE_w_other (by omega),
          WRITE_w_other (by omega)]
  · intro t h1 h2 h3 h4 h5
    rw [heq, WRITE_w_other, WRITE_w_other h1, WRITE_w_other h4, WRITE_w_other h3]
    simp only [List.mem_append, List.mem_singleton] at hnext
    rcases hnext with h | h
    · exact h5 _ h
    · rw [h]; exact h2

/-! ## The scan of the free list -/

theorem first_fit_loop_spec {m : Nat → Nat} {root size : Nat} {l : List Nat} {p fuel : Nat}
    (hd : dll m p l root) (hroot : ∀ y ∈ l, y ≠ root) (hfuel : l.length < fuel) :
    first_fit_loop m root size fuel (m p) =
      some ((l.find? (fun y => decide (size ≤ READ_w_SIZE m (Compute_HD y)))).getD 0) := by
  induction l generalizing p fuel with
  | nil =>
    obtain ⟨k, rfl⟩ : ∃ k, fuel = k + 1 := ⟨fuel - 1, by simp at hfuel; omega⟩
    simp [first_fit_loop, hd.1]
  | cons x l ih =>
    obtain ⟨k, rfl⟩ : ∃ k, fuel = k + 1 := ⟨fuel - 1, by simp at hfuel; omega⟩
    obtain ⟨h1, -, h3⟩ := hd
    have hx : x ≠ root := hroot x (by simp)
    rw [h1]
    simp only [first_fit_loop, hx, if_false, List.find?_cons]
    by_cases hs : size ≤ READ_w_SIZE m (Compute_HD x)
    · simp [hs]
    · simp only [hs, if_false, decide_False]
      unfold READ_w next_node
      exact ih h3 (fun y hy => hroot y (List.mem_cons_of_mem _ hy))
        (by simp at hfuel; omega)

theorem first_fit_spec {s : Heap} {fl : List Nat} {size fuel : Nat}
    (hd : dll s.mem s.free_list fl s.free_list) (hroot : ∀ y ∈ fl, y ≠ s.free_list)
    (hfuel : fl.length < fuel) :
    first_fit fuel s size =
      some ((fl.find? (fun y => decide (size ≤ READ_w_SIZE s.mem (Compute_HD y)))).getD 0) := by
  unfold first_fit READ_w next_node
  exact first_fit_loop_spec hd hroot hfuel

/-! ## Adjacent free blocks -/

theorem headAlloc_cons (b : Nat × Nat) (l : List (Nat × Nat)) : headAlloc (b :: l) = b.2 := rfl

theorem headAlloc_nil : headAlloc [] = 1 := rfl

theorem lastAlloc_nil : lastAlloc [] = 1 := rfl

theorem lastAlloc_concat (l : List (Nat × Nat)) (b : Nat × Nat) : lastAlloc (l ++ [b]) = b.2 := by
  simp [lastAlloc]

theorem NoAdjFree_cons {b : Nat × Nat} {l : List (Nat × Nat)} :
    NoAdjFree (b :: l) ↔ ¬ (b.2 = 0 ∧ headAlloc l = 0) ∧ NoAdjFree l := by
  unfold NoAdjFree
  cases l with
  | nil => simp [headAlloc]
  | cons c l => simp [List.chain'_cons, headAlloc]

theorem NoAdjFree_append {l1 l2 : List (Nat × Nat)} :
    NoAdjFree (l1 ++ l2) ↔
      NoAdjFree l1 ∧ NoAdjFree l2 ∧ ¬ (lastAlloc l1 = 0 ∧ headAlloc l2 = 0) := by
  unfold NoAdjFree
  rw [List.chain'_append]
  rcases List.eq_nil_or_concat l1 with rfl | ⟨L, b, rfl⟩
  · simp [lastAlloc]
  · cases l2 with
    | nil => simp [headAlloc]
    | cons c l2 => simp [lastAlloc, headAlloc]

theorem NoAdjFree_nil : NoAdjFree [] := by simp [NoAdjFree]

/-! ## Consequences of the frame -/

theorem starts_tri {m : Nat → Nat} {pre post : List (Nat × Nat)} {b : Nat × Nat} {a e y : Nat}
    (h : Tiles m a (pre ++ b :: post) e) (hy : y ∈ starts a (pre ++ b :: post)) :
    y % 16 = a % 16 ∧ a ≤ y ∧ y + 32 ≤ e ∧
      (y + 32 ≤ a + total pre ∨ y = a + total pre ∨ a + total pre + b.1 ≤ y) := by
  have hb := mem_starts_bounds h hy
  obtain ⟨h1, h2⟩ := Tiles_append.1 h
  rw [starts_append] at hy
  simp only [starts, List.mem_append, List.mem_cons] at hy
  rcases hy with hy | rfl | hy
  · have := mem_starts_bounds h1 hy; omega
  · omega
  · have := mem_starts_bounds h2.2.2.2.2.2 hy; omega

theorem split_mem {fl fl1 fl2 : List Nat} {p y : Nat} (he : fl = fl1 ++ p :: fl2)
    (hnd : fl.Nodup) : (y ∈ fl1 ++ fl2 ↔ y ∈ fl ∧ y ≠ p) := by
  subst he
  have h2 := List.nodup_middle.1 hnd
  obtain ⟨hp, -⟩ := List.nodup_cons.1 h2
  simp only [List.mem_append, List.mem_cons]
  constructor
  · intro h
    refine ⟨by tauto, ?_⟩
    rintro rfl
    exact hp (List.mem_append.2 h)
  · rintro ⟨h, hne⟩
    tauto

theorem split_nodup {fl fl1 fl2 : List Nat} {p : Nat} (he : fl = fl1 ++ p :: fl2)
    (hnd : fl.Nodup) : (fl1 ++ fl2).Nodup := by
  subst he
  exact (List.nodup_cons.1 (List.nodup_middle.1 hnd)).2

theorem Frame.brk_eq {s : Heap} {bs : List (Nat × Nat)} {fl : List Nat} (h : Frame s bs fl) :
    s.mem_brk = s.mem_start + 32 + total bs := Tiles_end h.tiles

theorem Frame.node {s : Heap} {bs : List (Nat × Nat)} {fl : List Nat} (h : Frame s bs fl)
    (hsub : ∀ y ∈ fl, y ∈ starts (s.mem_start + 32) bs) {y : Nat} (hy : y ∈ fl) :
    y % 16 = 0 ∧ s.mem_start + 32 ≤ y ∧ y + 32 ≤ s.mem_brk := by
  have := mem_starts_bounds h.tiles (hsub y hy)
  have := h.lo_al
  omega

/-- Tags, prologue and epilogue words are not link fields. -/
theorem Frame.tag_NL {s : Heap} {bs : List (Nat × Nat)} {fl : List Nat} (h : Frame s bs fl)
    (hsub : ∀ y ∈ fl, y ∈ starts (s.mem_start + 32) bs) {t : Nat}
    (ht : t ∈ tagAddrs (s.mem_start + 32) bs ∨ t = s.mem_start + 8 ∨ t = s.mem_start + 16 ∨
      t = s.mem_brk - 8) :
    t ≠ s.free_list ∧ t ≠ s.free_list + 8 ∧ ∀ y ∈ fl, t ≠ y ∧ t ≠ y + 8 := by
  have h1 := h.root_out
  have h2 := h.brk_le
  have h3 := h.brk_eq
  rcases ht with ht | ht | ht | ht
  · have hb := mem_tagAddrs_bounds h.tiles ht
    refine ⟨by omega, by omega, fun y hy => ?_⟩
    exact tag_ne_link h.tiles (by omega) ht (hsub y hy)
  all_goals
    refine ⟨by omega, by omega, fun y hy => ?_⟩
    have := h.node hsub hy
    omega

theorem Frame.update {s : Heap} {bs bs' : List (Nat × Nat)} {fl fl' : List Nat}
    (h : Frame s bs fl) (m' : Nat → Nat)
    (hp1 : m' (s.mem_start + 8) = s.mem (s.mem_start + 8))
    (hp2 : m' (s.mem_start + 16) = s.mem (s.mem_start + 16))
    (ht : Tiles m' (s.mem_start + 32) bs' s.mem_brk)
    (he : m' (s.mem_brk - 8) = s.mem (s.mem_brk - 8))
    (hl : dll m' s.free_list fl' s.free_list) (hn : fl'.Nodup) :
    Frame { s with mem := m' } bs' fl' :=
  { lo_pos := h.lo_pos, lo_al := h.lo_al, brk_le := h.brk_le, max_lt := h.max_lt,
    root_out := h.root_out, root_lt := h.root_lt, bptr := h.bptr,
    pro_hd := by show m' _ = _; rw [hp1]; exact h.pro_hd,
    pro_ft := by show m' _ = _; rw [hp2]; exact h.pro_ft,
    tiles := ht,
    epi := by show m' _ = _; rw [he]; exact h.epi,
    links := hl, nodup := hn }

theorem WF.sub {s : Heap} {bs : List (Nat × Nat)} {fl : List Nat} (h : WF s bs fl) :
    ∀ y ∈ fl, y ∈ starts (s.mem_start + 32) bs :=
  fun y hy => freeAddrs_sub_starts ((h.fl_mem y).1 hy)

theorem WFc.sub_c {s : Heap} {pre post : List (Nat × Nat)} {sz : Nat} {fl : List Nat}
    (h : WFc s pre sz post fl) :
    ∀ y ∈ fl, y ∈ starts (s.mem_start + 32) (pre ++ (sz, 0) :: post) := by
  intro y hy
  rw [starts_append]
  simp only [starts, List.mem_append, List.mem_cons]
  rcases (h.fl_mem y).1 hy with h1 | h1
  · exact Or.inl (freeAddrs_sub_starts h1)
  · exact Or.inr (Or.inr (freeAddrs_sub_starts h1))

/-! ## Tag arithmetic on a tiled heap -/

theorem Compute_HD_eq {p : Nat} (h8 : 8 ≤ p) (hp : p < 2 ^ 64) : Compute_HD p = p - 8 := by
  unfold Compute_HD; exact sub64_eq h8 hp

theorem Compute_FT_eq {m : Nat → Nat} {p sz al : Nat} (h : m (p - 8) = sz + al)
    (hs : sz % 8 = 0) (ha : al ≤ 1) (h8 : 8 ≤ p) (h16 : 16 ≤ p + sz) (hp : p + sz < 2 ^ 64) :
    Compute_FT m p = p + sz - 16 := by
  unfold Compute_FT
  rw [Compute_HD_eq h8 (by omega), READ_w_SIZE_of h hs ha (by omega), add64_eq hp,
    sub64_eq (by omega) hp]

theorem Compute_NXBP_eq {m : Nat → Nat} {p sz al : Nat} (h : m (p - 8) = sz + al)
    (hs : sz % 8 = 0) (ha : al ≤ 1) (h8 : 8 ≤ p) (hp : p + sz < 2 ^ 64) :
    Compute_NXBP m p = p + sz := by
  unfold Compute_NXBP
  rw [sub64_eq h8 (by omega), READ_w_SIZE_of h hs ha (by omega), add64_eq hp]

theorem Compute_PVBP_eq {m : Nat → Nat} {p sz al : Nat} (h : m (p - 16) = sz + al)
    (hs : sz % 8 = 0) (ha : al ≤ 1) (h16 : 16 ≤ p) (hsz : sz ≤ p) (hp : p < 2 ^ 64) :
    Compute_PVBP m p = p - sz := by
  unfold Compute_PVBP
  have e : sub64 p (2 * 8) = p - 16 := sub64_eq (by omega) hp
  rw [e, READ_w_SIZE_of h hs ha (by omega), sub64_eq hsz hp]

theorem READ_size_tag {m : Nat → Nat} {p sz al : Nat} (h : m (p - 8) = sz + al)
    (hs : sz % 8 = 0) (ha : al ≤ 1) (h8 : 8 ≤ p) (hp : p + sz < 2 ^ 64) :
    READ_w_SIZE m (Compute_HD p) = sz := by
  rw [Compute_HD_eq h8 (by omega), READ_w_SIZE_of h hs ha (by omega)]

/-- What the frame says around the block that follows the blocks `pre`. -/
theorem Frame.at_block {s : Heap} {pre post : List (Nat × Nat)} {r al : Nat} {fl : List Nat}
    (h : Frame s (pre ++ (r, al) :: post) fl)
    (hsub : ∀ y ∈ fl, y ∈ starts (s.mem_start + 32) (pre ++ (r, al) :: post))
    {p : Nat} (hp : p = s.mem_start + 32 + total pre) :
    r % 16 = 0 ∧ 32 ≤ r ∧ al ≤ 1 ∧ s.mem (p - 8) = r + al ∧ s.mem (p + r - 16) = r + al ∧
      Tiles s.mem (s.mem_start + 32) pre p ∧ Tiles s.mem (p + r) post s.mem_brk ∧
      p + r + total post = s.mem_brk ∧
      ∀ y ∈ fl, y % 16 = 0 ∧ s.mem_start + 32 ≤ y ∧ y + 32 ≤ s.mem_brk ∧
        (y + 32 ≤ p ∨ y = p ∨ p + r ≤ y) := by
  subst hp
  obtain ⟨h1, h2⟩ := Tiles_append.1 h.tiles
  obtain ⟨a1, a2, a3, a4, a5, a6⟩ := Tiles_cons.1 h2
  have he := Tiles_end a6
  refine ⟨a1, a2, a3, a4, a5, h1, a6, by omega, fun y hy => ?_⟩
  have := starts_tri h.tiles (hsub y hy)
  have := h.lo_al
  simp only at this
  omega

/-! ## Stages: list updates and tag updates on a frame -/

theorem WF.lframe {s : Heap} {bs : List (Nat × Nat)} {fl : List Nat} (h : WF s bs fl) :
    LFrame s bs fl := ⟨h.toFrame, h.sub⟩

theorem WFc.lframe_c {s : Heap} {pre post : List (Nat × Nat)} {sz : Nat} {fl : List Nat}
    (h : WFc s pre sz post fl) : LFrame s (pre ++ (sz, 0) :: post) fl := ⟨h.toFrame, h.sub_c⟩

theorem Frame.node_of {s : Heap} {bs : List (Nat × Nat)} {fl : List Nat} (h : Frame s bs fl)
    {y : Nat} (hy : y ∈ starts (s.mem_start + 32) bs) :
    y % 16 = 0 ∧ s.mem_start + 32 ≤ y ∧ y + 32 ≤ s.mem_brk ∧ y + 32 < 2 ^ 64 ∧
      (s.free_list + 16 ≤ y ∨ y + 16 ≤ s.free_list) := by
  have := mem_starts_bounds h.tiles hy
  have := h.lo_al
  have := h.root_out
  have := h.brk_le
  have := h.max_lt
  omega

/-- Tags, prologue and epilogue words are not link fields of payload addresses. -/
theorem Frame.tag_NL_of {s : Heap} {bs : List (Nat × Nat)} {fl l : List Nat} (h : Frame s bs fl)
    (hl : ∀ y ∈ l, y ∈ starts (s.mem_start + 32) bs) {t : Nat}
    (ht : t ∈ tagAddrs (s.mem_start + 32) bs ∨ t = s.mem_start + 8 ∨ t = s.mem_start + 16 ∨
      t = s.mem_brk - 8) : NL s.free_list l t := by
  have h1 := h.root_out
  have h2 := h.brk_le
  have h3 := h.brk_eq
  rcases ht with ht | ht | ht | ht
  · have hb := mem_tagAddrs_bounds h.tiles ht
    refine ⟨by omega, by omega, fun y hy => ?_⟩
    exact tag_ne_link h.tiles (by omega) ht (hl y hy)
  all_goals
    refine ⟨by omega, by omega, fun y hy => ?_⟩
    have := h.node_of (hl y hy)
    omega

/-- A memory change that leaves every tag alone keeps the tiling. -/
theorem LFrame.links_only {s : Heap} {bs : List (Nat × Nat)} {fl fl' : List Nat}
    (h : LFrame s bs fl) (m' : Nat → Nat)
    (hm : ∀ t, (t ∈ tagAddrs (s.mem_start + 32) bs ∨ t = s.mem_start + 8 ∨
      t = s.mem_start + 16 ∨ t = s.mem_brk - 8) → m' t = s.mem t)
    (hl : dll m' s.free_list fl' s.free_list) (hn : fl'.Nodup)
    (hs : ∀ y ∈ fl', y ∈ starts (s.mem_start + 32) bs) :
    LFrame { s with mem := m' } bs fl' :=
  ⟨h.toFrame.update m' (hm _ (by simp)) (hm _ (by simp))
      (Tiles_congr (fun t ht => hm t (Or.inl ht)) h.tiles) (hm _ (by simp)) hl hn, hs⟩

/-- Stage: `FL_unlink` of a list node. -/
theorem LFrame.unlink {s : Heap} {bs : List (Nat × Nat)} {fl : List Nat} {x : Nat}
    (h : LFrame s bs fl) (hx : x ∈ fl) :
    ∃ fl1 fl2, fl = fl1 ++ x :: fl2 ∧
      LFrame { s with mem := FL_unlink s.mem x } bs (fl1 ++ fl2) ∧
      (∀ t, NL s.free_list fl t → FL_unlink s.mem x t = s.mem t) := by
  have hmax := h.max_lt
  have hble := h.brk_le
  have hro := h.root_out
  obtain ⟨fl1, fl2, hfl, hd1, hfr1⟩ := @FL_unlink_dll _ _ _ s.mem_start s.mem_brk _
    h.links h.nodup hx (fun y hy => by have := h.toFrame.node h.sub hy; omega) (by omega)
    (by omega) h.root_lt
  have hfr : ∀ t, NL s.free_list fl t → FL_unlink s.mem x t = s.mem t :=
    fun t ht => hfr1 t ht.1 ht.2.1 ht.2.2
  refine ⟨fl1, fl2, hfl, ?_, hfr⟩
  refine h.links_only _ (fun t ht => hfr t (h.toFrame.tag_NL_of h.sub ht)) hd1
    (split_nodup hfl h.nodup) (fun y hy => h.sub y ((split_mem hfl h.nodup).1 hy).1)

/-- Stage: `FL_append` of a payload address that is not in the list. -/
theorem LFrame.append {s : Heap} {bs : List (Nat × Nat)} {fl : List Nat} {q : Nat}
    (h : LFrame s bs fl) (hq : q ∈ starts (s.mem_start + 32) bs) (hqn : q ∉ fl) :
    LFrame { s with mem := FL_append s.mem s.free_list q } bs (q :: fl) ∧
      (∀ t, NL s.free_list (q :: fl) t → FL_append s.mem s.free_list q t = s.mem t) := by
  have hmax := h.max_lt
  have hble := h.brk_le
  have hro := h.root_out
  have hsub : ∀ y ∈ q :: fl, y ∈ starts (s.mem_start + 32) bs := by
    intro y hy
    rcases List.mem_cons.1 hy with rfl | hy
    · exact hq
    · exact h.sub y hy
  obtain ⟨hd1, hfr1⟩ := @FL_append_dll _ _ _ s.mem_start s.mem_brk _ h.links h.nodup hqn
    (fun y hy => by have := h.toFrame.node_of (hsub y hy); omega) (by omega) (by omega) h.root_lt
  have hfr : ∀ t, NL s.free_list (q :: fl) t → FL_append s.mem s.free_list q t = s.mem t := by
    intro t ht
    obtain ⟨t1, t2, t3⟩ := ht
    exact hfr1 t t1 t2 (t3 q (by simp)).1 (t3 q (by simp)).2
      (fun y hy => (t3 y (List.mem_cons_of_mem _ hy)).2)
  refine ⟨?_, hfr⟩
  exact h.links_only _ (fun t ht => hfr t (h.toFrame.tag_NL_of hsub ht)) hd1
    (List.nodup_cons.2 ⟨hqn, h.nodup⟩) hsub

theorem starts_mid_bounds {m : Nat → Nat} {mid : List (Nat × Nat)} {p e y : Nat}
    (h : Tiles m p mid e) (hy : y ∈ starts p mid) : p ≤ y ∧ y + 32 ≤ e :=
  ⟨(mem_starts_bounds h hy).1, (mem_starts_bounds h hy).2.1⟩

/-- Stage: rewriting the tags of the run `mid` into the run `mid'`. -/
theorem LFrame.retag {s : Heap} {pre mid mid' post : List (Nat × Nat)} {fl : List Nat}
    (h : LFrame s (pre ++ (mid ++ post)) fl) (m' : Nat → Nat) {p : Nat}
    (hp : p = s.mem_start + 32 + total pre)
    (hout : ∀ t, (t + 16 ≤ p ∨ p + total mid ≤ t + 8) → m' t = s.mem t)
    (hmid : Tiles m' p mid' (p + total mid))
    (hn : ∀ y ∈ fl, (y + 32 ≤ p ∨ p + total mid ≤ y) ∨
      (m' y = s.mem y ∧ m' (y + 8) = s.mem (y + 8) ∧ y ∈ starts p mid')) :
    LFrame { s with mem := m' } (pre ++ (mid' ++ post)) fl := by
  obtain ⟨Tpre, Tmp⟩ := Tiles_append.1 h.tiles
  obtain ⟨Tmid, Tpost⟩ := Tiles_append.1 Tmp
  rw [← hp] at Tpre Tmid Tpost
  have hbrk := Tiles_end Tpost
  have hpre := Tiles_end Tpre
  have hmid' := Tiles_end hmid
  have hro := h.root_out
  have hble := h.brk_le
  have hnode : ∀ y ∈ fl, m' y = s.mem y ∧ m' (y + 8) = s.mem (y + 8) := by
    intro y hy
    rcases hn y hy with h1 | h1
    · exact ⟨hout y (by omega), hout (y + 8) (by omega)⟩
    · exact ⟨h1.1, h1.2.1⟩
  have hroot : m' s.free_list = s.mem s.free_list ∧
      m' (s.free_list + 8) = s.mem (s.free_list + 8) :=
    ⟨hout _ (by omega), hout _ (by omega)⟩
  refine ⟨h.toFrame.update m' (hout _ (by omega)) (hout _ (by omega)) ?_ (hout _ (by omega)) ?_
    h.nodup, ?_⟩
  · refine Tiles_append.2 ⟨?_, Tiles_append.2 ⟨?_, ?_⟩⟩
    · rw [← hp]
      exact Tiles_congr (fun t ht => hout t (Or.inl (mem_tagAddrs_bounds Tpre ht).2)) Tpre
    · rw [← hp, ← hmid']; exact hmid
    · rw [← hp, ← hmid']
      exact Tiles_congr (fun t ht => hout t (Or.inr (mem_tagAddrs_bounds Tpost ht).1)) Tpost
  · refine dll_congr ?_ ?_ h.links
    · intro y hy
      rcases List.mem_cons.1 hy with rfl | hy
      · exact hroot.1
      · exact (hnode y hy).1
    · intro y hy
      simp only [List.mem_append, List.mem_singleton] at hy
      rcases hy with hy | rfl
      · exact (hnode y hy).2
      · exact hroot.2
  · intro y hy
    have hs := h.sub y hy
    rw [starts_append, starts_append, ← hp] at hs ⊢
    simp only [List.mem_append] at hs ⊢
    rcases hn y hy with h1 | h1
    · rcases hs with hs | hs | hs
      · exact Or.inl hs
      · have := starts_mid_bounds Tmid hs; omega
      · rw [← hmid']; exact Or.inr (Or.inr hs)
    · exact Or.inr (Or.inl h1.2.2)

/-! ## Placement: `allocate_block` -/

@[simp] theorem allocate_block_start (s : Heap) (p size : Nat) :
    (allocate_block s p size).mem_start = s.mem_start := by
  unfold allocate_block; dsimp only; split <;> rfl

@[simp] theorem allocate_block_brk (s : Heap) (p size : Nat) :
    (allocate_block s p size).mem_brk = s.mem_brk := by
  unfold allocate_block; dsimp only; split <;> rfl

@[simp] theorem allocate_block_max (s : Heap) (p size : Nat) :
    (allocate_block s p size).mem_max = s.mem_max := by
  unfold allocate_block; dsimp only; split <;> rfl

@[simp] theorem allocate_block_bptr (s : Heap) (p size : Nat) :
    (allocate_block s p size).heap_bptr = s.heap_bptr := by
  unfold allocate_block; dsimp only; split <;> rfl

@[simp] theorem allocate_block_root (s : Heap) (p size : Nat) :
    (allocate_block s p size).free_list = s.free_list := by
  unfold allocate_block; dsimp only; split <;> rfl

theorem mem_freeAddrs_mid {pre post : List (Nat × Nat)} {r a : Nat} :
    a + total pre ∈ freeAddrs a (pre ++ (r, 0) :: post) := by
  rw [freeAddrs_append]
  simp [freeAddrs]

theorem NoAdjFree_split_block {pre post : List (Nat × Nat)} {r s1 s2 : Nat}
    (h : NoAdjFree (pre ++ (r, 0) :: post)) : NoAdjFree (pre ++ (s1, 1) :: (s2, 0) :: post) := by
  simp only [NoAdjFree_append, NoAdjFree_cons, headAlloc_cons] at h ⊢
  tauto

theorem NoAdjFree_alloc_block {pre post : List (Nat × Nat)} {r s1 al : Nat}
    (h : NoAdjFree (pre ++ (r, al) :: post)) : NoAdjFree (pre ++ (s1, 1) :: post) := by
  simp only [NoAdjFree_append, NoAdjFree_cons, headAlloc_cons] at h ⊢
  simp only [one_ne_zero, false_and, and_false, not_false_eq_true, true_and, and_true]
  tauto

/-- What a frame says around the block that follows the blocks `pre`. -/
theorem LFrame.block_at {s : Heap} {pre post : List (Nat × Nat)} {r al : Nat} {fl : List Nat}
    (h : LFrame s (pre ++ (r, al) :: post) fl) {p : Nat}
    (hp : p = s.mem_start + 32 + total pre) :
    (r % 16 = 0 ∧ 32 ≤ r ∧ al ≤ 1 ∧ p % 16 = 0 ∧ s.mem_start + 32 ≤ p ∧ p + r ≤ s.mem_brk ∧
      p + r < 2 ^ 64) ∧
      s.mem (p - 8) = r + al ∧ s.mem (p + r - 16) = r + al ∧
      Tiles s.mem (s.mem_start + 32) pre p ∧ Tiles s.mem (p + r) post s.mem_brk ∧
      ∀ y ∈ fl, y + 32 ≤ p ∨ y = p ∨ p + r ≤ y := by
  obtain ⟨a1, a2, a3, a4, a5, a6, a7, a8, a9⟩ := h.toFrame.at_block h.sub hp
  have hlo := h.lo_al
  have hmax := h.max_lt
  have hble := h.brk_le
  have hpre := Tiles_end a6
  have hpm : p % 16 = 0 := by
    have := mem_starts_bounds h.tiles (y := p) (by rw [starts_append, ← hp]; simp [starts])
    omega
  exact ⟨⟨a1, a2, a3, hpm, by omega, by omega, by omega⟩, a4, a5, a6, a7,
    fun y hy => (a9 y hy).2.2.2⟩

theorem allocate_block_exec_split {s : Heap} {p r size : Nat} (hhd : s.mem (p - 8) = r + 0)
    (r16 : r % 16 = 0) (s16 : size % 16 = 0) (hs : 32 ≤ size) (hsr : size + 32 ≤ r)
    (h8 : 32 ≤ p) (hlt : p + r < 2 ^ 64) :
    allocate_block s p size =
      { s with mem := FL_append (WRITE_w (WRITE_w (WRITE_w (WRITE_w (FL_unlink s.mem p)
          (p - 8) (size + 1)) (p + size - 16) (size + 1)) (p + size - 8) (r - size))
          (p + r - 16) (r - size)) s.free_list (p + size) } := by
  have e0 : READ_w_SIZE s.mem (p - 8) = r := READ_w_SIZE_of hhd (by omega) (by omega) (by omega)
  have e1 : sub64 r size = r - size := sub64_eq (by omega) (by omega)
  have hP1 : Pack_w size 1 = size + 1 := Pack_w_eq (by omega) (by omega)
  have hP2 : Pack_w (r - size) 0 = r - size := by rw [Pack_w_eq (by omega) (by omega)]; rfl
  have hHD : Compute_HD p = p - 8 := Compute_HD_eq (by omega) (by omega)
  have hFT2 : Compute_FT (WRITE_w (FL_unlink s.mem p) (p - 8) (size + 1)) p = p + size - 16 :=
    @Compute_FT_eq _ (p) (size) 1 (WRITE_w_same _ _ _) (by omega) (by omega)
      (by omega) (by omega) (by omega)
  have hNX3 : Compute_NXBP (WRITE_w (WRITE_w (FL_unlink s.mem p) (p - 8) (size + 1))
      (p + size - 16) (size + 1)) p = p + size :=
    @Compute_NXBP_eq _ (p) (size) 1
      (by rw [WRITE_w_other (by omega), WRITE_w_same]) (by omega) (by omega) (by omega) (by omega)
  have hHDq : Compute_HD (p + size) = p + size - 8 := Compute_HD_eq (by omega) (by omega)
  have hFT4 : Compute_FT (WRITE_w (WRITE_w (WRITE_w (FL_unlink s.mem p) (p - 8) (size + 1))
      (p + size - 16) (size + 1)) (p + size - 8) (r - size)) (p + size) = p + r - 16 := by
    rw [@Compute_FT_eq _ (p + size) (r - size) 0
      (show WRITE_w _ (p + size - 8) (r - size) (p + size - 8) = r - size + 0 from
        WRITE_w_same _ _ _)
      (by omega) (by omega) (by omega) (by omega) (by omega)]
    omega
  have hc : r - size ≥ 4 * 8 := by omega
  unfold allocate_block
  simp only [e0, e1, hc, if_true, hP1, hP2, hHD, hFT2, hNX3, hHDq, hFT4]

theorem split_tags {m1 m5 : Nat → Nat} {p r size : Nat}
    (hm5 : m5 = WRITE_w (WRITE_w (WRITE_w (WRITE_w m1 (p - 8) (size + 1)) (p + size - 16)
      (size + 1)) (p + size - 8) (r - size)) (p + r - 16) (r - size))
    (r16 : r % 16 = 0) (s16 : size % 16 = 0) (hs : 32 ≤ size) (hsr : size + 32 ≤ r)
    (h8 : 32 ≤ p) :
    (∀ t, (t + 16 ≤ p ∨ p + (r + 0) ≤ t + 8) → m5 t = m1 t) ∧
      Tiles m5 p [(size, 1), (r - size, 0)] (p + (r + 0)) := by
  subst hm5
  constructor
  · intro t ht
    rw [WRITE_w_other (by omega), WRITE_w_other (by omega), WRITE_w_other (by omega),
      WRITE_w_other (by omega)]
  · have e2 : p + size + (r - size) = p + r := by omega
    refine Tiles_cons.2 ⟨s16, hs, le_refl _, ?_, ?_, Tiles_cons.2 ⟨by omega, by omega,
      by omega, ?_, ?_, ?_⟩⟩
    · rw [WRITE_w_other (by omega), WRITE_w_other (by omega), WRITE_w_other (by omega),
        WRITE_w_same]
    · rw [WRITE_w_other (by omega), WRITE_w_other (by omega), WRITE_w_same]
    · rw [WRITE_w_other (by omega), WRITE_w_same]; rfl
    · rw [e2, WRITE_w_same]; rfl
    · simp only [Tiles]; omega

theorem out_ne_mid {t p r q : Nat} (ht : t + 16 ≤ p ∨ p + r ≤ t + 8) (h1 : p + 16 ≤ q)
    (h2 : q + 32 ≤ p + r) : t ≠ q ∧ t ≠ q + 8 := by omega

theorem node_ne_mid {y p r q : Nat} (hy : y + 32 ≤ p ∨ p + r ≤ y) (h1 : p + 16 ≤ q)
    (h2 : q + 32 ≤ p + r) : q ≠ y := by omega

/-- Nodes of the list other than the block at `p` lie outside that block. -/
theorem nodes_outside {fl fl1 fl2 : List Nat} {p r : Nat} (hfl : fl = fl1 ++ p :: fl2)
    (hnd : fl.Nodup) (tri : ∀ y ∈ fl, y + 32 ≤ p ∨ y = p ∨ p + r ≤ y) :
    ∀ y ∈ fl1 ++ fl2, y + 32 ≤ p ∨ p + r ≤ y := by
  intro y hy
  obtain ⟨h1, h2⟩ := (split_mem hfl hnd).1 hy
  rcases tri y h1 with h3 | h3 | h3
  · exact Or.inl h3
  · exact absurd h3 h2
  · exact Or.inr h3

theorem NL_cons {root q t : Nat} {fl fl' : List Nat} (h : NL root fl t)
    (hsub : ∀ y ∈ fl', y ∈ fl) (hq : t ≠ q ∧ t ≠ q + 8) : NL root (q :: fl') t := by
  refine ⟨h.1, h.2.1, fun y hy => ?_⟩
  rcases List.mem_cons.1 hy with rfl | hy
  · exact hq
  · exact h.2.2 y (hsub y hy)

theorem NL_sub {root t : Nat} {fl fl' : List Nat} (h : NL root fl t)
    (hsub : ∀ y ∈ fl', y ∈ fl) : NL root fl' t :=
  ⟨h.1, h.2.1, fun y hy => h.2.2 y (hsub y hy)⟩

/-- Splitting placement: the block of size `r` at `p` becomes an allocated
block of size `size` followed by a free block of size `r - size`, which goes
to the head of the free list. -/
theorem allocate_block_split {s : Heap} {pre post : List (Nat × Nat)} {r size p : Nat}
    {fl : List Nat} (h : WF s (pre ++ (r, 0) :: post) fl)
    (hp : p = s.mem_start + 32 + total pre)
    (hs16 : size % 16 = 0) (hs32 : 32 ≤ size) (hsr : size + 32 ≤ r) :
    ∃ fl1 fl2, fl = fl1 ++ p :: fl2 ∧
      WF (allocate_block s p size) (pre ++ (size, 1) :: (r - size, 0) :: post)
        ((p + size) :: (fl1 ++ fl2)) ∧
      (∀ t, NL s.free_list fl t → (t + 16 ≤ p ∨ p + r ≤ t + 8) →
        (allocate_block s p size).mem t = s.mem t) := by
  obtain ⟨⟨r16, r32, -, hp16, hplo, hpr, hlt⟩, hhd, hft, Tpre, Tpost, tri⟩ := h.lframe.block_at hp
  have hpfl : p ∈ fl := (h.fl_mem p).2 (by rw [hp]; exact mem_freeAddrs_mid)
  obtain ⟨fl1, fl2, hfl, LF1, fr1⟩ := h.lframe.unlink hpfl
  refine ⟨fl1, fl2, hfl, ?_⟩
  have hnodes := nodes_outside hfl h.nodup tri
  obtain ⟨hout5, hmid5⟩ := @split_tags (FL_unlink s.mem p) _ _ _ _ rfl r16 hs16 hs32 hsr
    (le_trans (Nat.le_add_left _ _) hplo)
  have LF1' : LFrame { s with mem := FL_unlink s.mem p } (pre ++ ([(r, 0)] ++ post))
    (fl1 ++ fl2) := LF1
  have LF2 := LF1'.retag _ hp hout5 hmid5 (fun y hy => Or.inl (by
    simpa only [total, Nat.add_zero] using hnodes y hy))
  have hq : p + size ∈ starts (s.mem_start + 32)
      (pre ++ ([(size, 1), (r - size, 0)] ++ post)) := by
    rw [starts_append, ← hp]; simp [starts]
  have hqn : p + size ∉ fl1 ++ fl2 := fun hq =>
    node_ne_mid (hnodes _ hq) (le_trans (Nat.add_le_add_left (by omega : 16 ≤ 32) p)
      (Nat.add_le_add_left hs32 p)) (by omega) rfl
  obtain ⟨LF3, fr3⟩ := LF2.append hq hqn
  rw [allocate_block_exec_split hhd r16 hs16 hs32 hsr (le_trans (Nat.le_add_left _ _) hplo) hlt]
  refine ⟨{ toFrame := LF3.toFrame, noadj := NoAdjFree_split_block h.noadj, fl_mem := ?_ }, ?_⟩
  · intro y
    have hold := h.fl_mem y
    have hsm := split_mem (y := y) hfl h.nodup
    rw [freeAddrs_append] at hold ⊢
    simp only [freeAddrs, if_true, List.mem_append, List.mem_cons, ← hp, one_ne_zero,
      if_false] at hold ⊢
    have e2 : p + size + (r - size) = p + r := by omega
    rw [e2]
    simp only [List.mem_append] at hsm
    constructor
    · rintro (rfl | hy)
      · exact Or.inr (Or.inl rfl)
      · obtain ⟨h1, h2⟩ := hsm.1 hy
        rcases hold.1 h1 with h3 | h3 | h3
        · exact Or.inl h3
        · exact absurd h3 h2
        · exact Or.inr (Or.inr h3)
    · rintro (hy | rfl | hy)
      · have := mem_freeAddrs_bounds Tpre hy
        exact Or.inr (hsm.2 ⟨hold.2 (Or.inl hy), by omega⟩)
      · exact Or.inl rfl
      · have := mem_freeAddrs_bounds Tpost hy
        exact Or.inr (hsm.2 ⟨hold.2 (Or.inr (Or.inr hy)), by omega⟩)
  · intro t ht hb
    have hsub : ∀ y ∈ fl1 ++ fl2, y ∈ fl := fun y hy => ((split_mem hfl h.nodup).1 hy).1
    have hne := out_ne_mid (q := p + size) hb (by omega) (by omega)
    show FL_append _ _ _ t = s.mem t
    rw [fr3 t (NL_cons ht hsub hne)]
    show WRITE_w _ _ _ t = s.mem t
    rw [hout5 t (by simpa only [Nat.add_zero] using hb), fr1 t ht]

theorem allocate_block_exec_whole {s : Heap} {p r size : Nat} (hhd : s.mem (p - 8) = r + 0)
    (r16 : r % 16 = 0) (hsr : size ≤ r) (hlt2 : r < size + 32)
    (h8 : 32 ≤ p) (hlt : p + r < 2 ^ 64) :
    allocate_block s p size =
      { s with
        mem := (WRITE_w (WRITE_w (FL_unlink s.mem p) (p - 8) (r + 1)) (p + r - 16) (r + 1)) } := by
  have e0 : READ_w_SIZE s.mem (p - 8) = r := READ_w_SIZE_of hhd (by omega) (by omega) (by omega)
  have e1 : sub64 r size = r - size := sub64_eq (by omega) (by omega)
  have hP1 : Pack_w r 1 = r + 1 := Pack_w_eq (by omega) (by omega)
  have hHD : Compute_HD p = p - 8 := Compute_HD_eq (by omega) (by omega)
  have hFT2 : Compute_FT (WRITE_w (FL_unlink s.mem p) (p - 8) (r + 1)) p = p + r - 16 :=
    @Compute_FT_eq _ (p) (r) 1 (WRITE_w_same _ _ _) (by omega) (by omega)
      (by omega) (by omega) (by omega)
  have hc : ¬ r - size ≥ 4 * 8 := by omega
  unfold allocate_block
  simp only [hHD, e0, e1, hc, if_false, hP1, hFT2]

theorem whole_tags {m1 m3 : Nat → Nat} {p r al : Nat}
    (hm3 : m3 = WRITE_w (WRITE_w m1 (p - 8) (r + al)) (p + r - 16) (r + al))
    (r16 : r % 16 = 0) (r32 : 32 ≤ r) (hal : al ≤ 1) (h8 : 32 ≤ p) :
    (∀ t, (t + 16 ≤ p ∨ p + (r + 0) ≤ t + 8) → m3 t = m1 t) ∧
      Tiles m3 p [(r, al)] (p + (r + 0)) ∧ m3 p = m1 p ∧ m3 (p + 8) = m1 (p + 8) := by
  subst hm3
  refine ⟨?_, ?_, ?_, ?_⟩
  · intro t ht
    rw [WRITE_w_other (by omega), WRITE_w_other (by omega)]
  rotate_left
  · rw [WRITE_w_other (by omega), WRITE_w_other (by omega)]
  · rw [WRITE_w_other (by omega), WRITE_w_other (by omega)]
  · refine Tiles_cons.2 ⟨r16, r32, hal, ?_, ?_, ?_⟩
    · rw [WRITE_w_other (by omega), WRITE_w_same]
    · rw [WRITE_w_same]
    · simp only [Tiles]; omega

/-- Placement without a split: the whole block of size `r` at `p` becomes
allocated and leaves the free list. -/
theorem allocate_block_whole {s : Heap} {pre post : List (Nat × Nat)} {r size p : Nat}
    {fl : List Nat} (h : WF s (pre ++ (r, 0) :: post) fl)
    (hp : p = s.mem_start + 32 + total pre) (hsr : size ≤ r) (hlt2 : r < size + 32) :
    ∃ fl1 fl2, fl = fl1 ++ p :: fl2 ∧
      WF (allocate_block s p size) (pre ++ (r, 1) :: post) (fl1 ++ fl2) ∧
      (∀ t, NL s.free_list fl t → (t + 16 ≤ p ∨ p + r ≤ t + 8) →
        (allocate_block s p size).mem t = s.mem t) := by
  obtain ⟨⟨r16, r32, -, hp16, hplo, hpr, hlt⟩, hhd, hft, Tpre, Tpost, tri⟩ := h.lframe.block_at hp
  have hpfl : p ∈ fl := (h.fl_mem p).2 (by rw [hp]; exact mem_freeAddrs_mid)
  obtain ⟨fl1, fl2, hfl, LF1, fr1⟩ := h.lframe.unlink hpfl
  refine ⟨fl1, fl2, hfl, ?_⟩
  have hnodes := nodes_outside hfl h.nodup tri
  have h32 : 32 ≤ p := le_trans (Nat.le_add_left _ _) hplo
  obtain ⟨hout3, hmid3, -, -⟩ := @whole_tags (FL_unlink s.mem p) _ _ _ 1 rfl r16 r32
    (le_refl _) h32
  have LF1' : LFrame { s with mem := FL_unlink s.mem p } (pre ++ ([(r, 0)] ++ post))
    (fl1 ++ fl2) := LF1
  have LF2 := LF1'.retag _ hp hout3 hmid3 (fun y hy => Or.inl (by
    simpa only [total, Nat.add_zero] using hnodes y hy))
  rw [allocate_block_exec_whole hhd r16 hsr hlt2 h32 hlt]
  refine ⟨{ toFrame := LF2.toFrame, noadj := NoAdjFree_alloc_block h.noadj, fl_mem := ?_ }, ?_⟩
  · intro y
    have hold := h.fl_mem y
    have hsm := split_mem (y := y) hfl h.nodup
    rw [freeAddrs_append] at hold ⊢
    simp only [freeAddrs, if_true, List.mem_append, List.mem_cons, ← hp, one_ne_zero,
      if_false] at hold ⊢
    simp only [List.mem_append] at hsm
    constructor
    · intro hy
      obtain ⟨h1, h2⟩ := hsm.1 hy
      rcases hold.1 h1 with h3 | h3 | h3
      · exact Or.inl h3
      · exact absurd h3 h2
      · exact Or.inr h3
    · rintro (hy | hy)
      · have := mem_freeAddrs_bounds Tpre hy
        exact hsm.2 ⟨hold.2 (Or.inl hy), by omega⟩
      · have := mem_freeAddrs_bounds Tpost hy
        exact hsm.2 ⟨hold.2 (Or.inr (Or.inr hy)), by omega⟩
  · intro t ht hb
    exact (hout3 t (by simpa only [Nat.add_zero] using hb)).trans (fr1 t ht)

/-! ## Coalescing: reading the neighbours -/

@[simp] theorem coalesce_start (s : Heap) (p : Nat) : (coalesce s p).1.mem_start = s.mem_start := by
  unfold coalesce; dsimp only; split_ifs <;> rfl

@[simp] theorem coalesce_brk (s : Heap) (p : Nat) : (coalesce s p).1.mem_brk = s.mem_brk := by
  unfold coalesce; dsimp only; split_ifs <;> rfl

@[simp] theorem coalesce_max (s : Heap) (p : Nat) : (coalesce s p).1.mem_max = s.mem_max := by
  unfold coalesce; dsimp only; split_ifs <;> rfl

@[simp] theorem coalesce_bptr (s : Heap) (p : Nat) : (coalesce s p).1.heap_bptr = s.heap_bptr := by
  unfold coalesce; dsimp only; split_ifs <;> rfl

@[simp] theorem coalesce_root (s : Heap) (p : Nat) : (coalesce s p).1.free_list = s.free_list := by
  unfold coalesce; dsimp only; split_ifs <;> rfl

/-- The allocated bit `coalesce` computes for the previous block. -/
theorem prev_alloc_eq {s : Heap} {pre post : List (Nat × Nat)} {sz al : Nat} {fl : List Nat}
    (hF : Frame s (pre ++ (sz, al) :: post) fl) {p : Nat}
    (hp : p = s.mem_start + 32 + total pre) :
    (if mem_heap_lo s ≤ Compute_PVBP s.mem p then
      READ_w_ALLOC s.mem (Compute_FT s.mem (Compute_PVBP s.mem p)) else 1) = lastAlloc pre := by
  obtain ⟨Tpre, Tmp⟩ := Tiles_append.1 hF.tiles
  have hbrk := Tiles_end Tmp
  have hmax := hF.max_lt
  have hble := hF.brk_le
  have hlo := hF.lo_al
  simp only [total] at hbrk
  rw [← hp] at Tpre hbrk
  unfold mem_heap_lo
  rcases List.eq_nil_or_concat pre with rfl | ⟨L, b, rfl⟩
  · simp only [total, Nat.add_zero] at hp
    have h1 : s.mem (p - 16) = 16 + 1 := by
      rw [hp]; exact hF.pro_ft
    have h2 : s.mem (p - 16 - 8) = 16 + 1 := by
      rw [hp]; exact hF.pro_hd
    have e1 : Compute_PVBP s.mem p = p - 16 :=
      Compute_PVBP_eq h1 (by omega) (by omega) (by omega) (by omega) (by omega)
    have e2 : Compute_FT s.mem (p - 16) = p - 16 := by
      rw [Compute_FT_eq (p := p - 16) h2 (by omega) (by omega) (by omega) (by omega) (by omega)]
      omega
    rw [e1, e2, if_pos (by omega), READ_w_ALLOC_of h1 (by omega) (by omega)]
    rfl
  · obtain ⟨psz, pal⟩ := b
    rw [List.concat_eq_append] at Tpre hp ⊢
    obtain ⟨TL, Tb⟩ := Tiles_append.1 Tpre
    obtain ⟨a1, a2, a3, a4, a5, a6⟩ := Tiles_cons.1 Tb
    simp only [Tiles] at a6
    rw [total_append] at hp
    simp only [total, Nat.add_zero] at hp
    have hq : s.mem_start + 32 + total L = p - psz := by omega
    rw [hq] at a4 a5
    have a5' : s.mem (p - 16) = psz + pal := by
      rw [← a5]; congr 1; omega
    have e1 : Compute_PVBP s.mem p = p - psz :=
      Compute_PVBP_eq a5' (by omega) a3 (by omega) (by omega) (by omega)
    have e2 : Compute_FT s.mem (p - psz) = p - 16 := by
      rw [Compute_FT_eq (p := p - psz) a4 (by omega) a3 (by omega) (by omega) (by omega)]
      omega
    rw [e1, e2, if_pos (by omega), READ_w_ALLOC_of a5' (by omega) a3, lastAlloc_concat]

/-- The allocated bit `coalesce` computes for the next block. -/
theorem next_alloc_eq {s : Heap} {pre post : List (Nat × Nat)} {sz al : Nat} {fl : List Nat}
    (hF : Frame s (pre ++ (sz, al) :: post) fl) {p : Nat}
    (hp : p = s.mem_start + 32 + total pre) :
    (if Compute_NXBP s.mem p ≤ mem_heap_hi s then
      READ_w_ALLOC s.mem (Compute_HD (Compute_NXBP s.mem p)) else 1) = headAlloc post := by
  obtain ⟨Tpre, Tmp⟩ := Tiles_append.1 hF.tiles
  rw [← hp] at Tmp
  obtain ⟨a1, a2, a3, a4, a5, a6⟩ := Tiles_cons.1 Tmp
  have hbrk := Tiles_end a6
  have hmax := hF.max_lt
  have hble := hF.brk_le
  have e1 : Compute_NXBP s.mem p = p + sz :=
    Compute_NXBP_eq a4 (by omega) a3 (by omega) (by omega)
  have e2 : mem_heap_hi s = s.mem_brk - 1 := by
    unfold mem_heap_hi; exact sub64_eq (by omega) (by omega)
  rw [e1, e2]
  cases post with
  | nil =>
    simp only [total, Nat.add_zero] at hbrk
    rw [if_neg (by omega)]; rfl
  | cons b post =>
    obtain ⟨nsz, nal⟩ := b
    obtain ⟨b1, b2, b3, b4, b5, b6⟩ := Tiles_cons.1 a6
    simp only [total] at hbrk
    rw [if_pos (by omega), Compute_HD_eq (by omega) (by omega),
      READ_w_ALLOC_of b4 (by omega) b3]
    rfl

/-! ## Adjacency after a merge -/

theorem NoAdjFree_merge_next {pre post : List (Nat × Nat)} {S nsz : Nat}
    (n1 : NoAdjFree pre) (n2 : NoAdjFree ((nsz, 0) :: post)) (h1 : lastAlloc pre ≠ 0) :
    NoAdjFree (pre ++ (S, 0) :: post) := by
  simp only [NoAdjFree_append, NoAdjFree_cons, headAlloc_cons] at n2 ⊢
  tauto

theorem NoAdjFree_merge_prev {pre post : List (Nat × Nat)} {S psz : Nat}
    (n1 : NoAdjFree (pre ++ [(psz, 0)])) (n2 : NoAdjFree post) (h2 : headAlloc post ≠ 0) :
    NoAdjFree (pre ++ (S, 0) :: post) := by
  simp only [NoAdjFree_append, NoAdjFree_cons, headAlloc_cons, headAlloc_nil] at n1 ⊢
  tauto

theorem NoAdjFree_merge_both {pre post : List (Nat × Nat)} {S psz nsz : Nat}
    (n1 : NoAdjFree (pre ++ [(psz, 0)])) (n2 : NoAdjFree ((nsz, 0) :: post)) :
    NoAdjFree (pre ++ (S, 0) :: post) := by
  simp only [NoAdjFree_append, NoAdjFree_cons, headAlloc_cons, headAlloc_nil] at n1 n2 ⊢
  tauto

/-! ## Coalescing: the four cases -/

theorem WFc.nodes {s : Heap} {pre post : List (Nat × Nat)} {sz : Nat} {fl : List Nat}
    (h : WFc s pre sz post fl) {p : Nat} (hp : p = s.mem_start + 32 + total pre) :
    p ∉ fl ∧ ∀ y ∈ fl, (y ∈ freeAddrs (s.mem_start + 32) pre ∧ y + 32 ≤ p) ∨
      (y ∈ freeAddrs (p + sz) post ∧ p + sz ≤ y) := by
  obtain ⟨-, -, -, Tpre, Tpost, -⟩ := h.lframe_c.block_at hp
  have hn : ∀ y ∈ fl, (y ∈ freeAddrs (s.mem_start + 32) pre ∧ y + 32 ≤ p) ∨
      (y ∈ freeAddrs (p + sz) post ∧ p + sz ≤ y) := by
    intro y hy
    rcases (h.fl_mem y).1 hy with h1 | h1
    · exact Or.inl ⟨h1, (mem_freeAddrs_bounds Tpre h1).2.1⟩
    · rw [← hp] at h1
      exact Or.inr ⟨h1, (mem_freeAddrs_bounds Tpost h1).1⟩
  refine ⟨fun hpf => ?_, hn⟩
  have := h.lframe_c.block_at hp
  rcases hn p hpf with h1 | h1 <;> omega

theorem mem_starts_mid {pre post : List (Nat × Nat)} {b : Nat × Nat} {a : Nat} :
    a + total pre ∈ starts a (pre ++ b :: post) := by
  rw [starts_append]
  simp [starts]

theorem out_ne_start {t p sz : Nat} (ht : t + 16 ≤ p ∨ p + sz ≤ t + 8) (h : 32 ≤ sz) :
    t ≠ p ∧ t ≠ p + 8 := by omega

theorem coalesce_exec_11 {s : Heap} {p a b : Nat}
    (hpa : (if mem_heap_lo s ≤ Compute_PVBP s.mem p then
      READ_w_ALLOC s.mem (Compute_FT s.mem (Compute_PVBP s.mem p)) else 1) = a)
    (hna : (if Compute_NXBP s.mem p ≤ mem_heap_hi s then
      READ_w_ALLOC s.mem (Compute_HD (Compute_NXBP s.mem p)) else 1) = b)
    (ha : a ≠ 0) (hb : b ≠ 0) :
    coalesce s p = ({ s with mem := FL_append s.mem s.free_list p }, p) := by
  unfold coalesce
  dsimp only
  rw [hpa, hna, if_pos ⟨ha, hb⟩]

/-- Case 1/1: both neighbours allocated; the block goes to the head of the
free list. -/
theorem coalesce_11 {s : Heap} {pre post : List (Nat × Nat)} {sz : Nat} {fl : List Nat}
    (h : WFc s pre sz post fl) {p : Nat} (hp : p = s.mem_start + 32 + total pre)
    (h1 : lastAlloc pre ≠ 0) (h2 : headAlloc post ≠ 0) :
    (coalesce s p).2 = p ∧ WF (coalesce s p).1 (pre ++ (sz, 0) :: post) (p :: fl) ∧
      (∀ t, NL s.free_list fl t → (t + 16 ≤ p ∨ p + sz ≤ t + 8) →
        (coalesce s p).1.mem t = s.mem t) := by
  obtain ⟨⟨s16, s32, -, hp16, hplo, hpr, hlt⟩, hhd, hft, Tpre, Tpost, tri⟩ := h.lframe_c.block_at hp
  obtain ⟨hpn, -⟩ := h.nodes hp
  obtain ⟨LF1, fr1⟩ := h.lframe_c.append (by rw [hp]; exact mem_starts_mid) hpn
  rw [coalesce_exec_11 (prev_alloc_eq h.toFrame hp) (next_alloc_eq h.toFrame hp) h1 h2]
  refine ⟨rfl, { toFrame := LF1.toFrame, noadj := ?_, fl_mem := ?_ }, ?_⟩
  · have n1 := h.noadj_pre
    have n2 := h.noadj_post
    simp only [NoAdjFree_append, NoAdjFree_cons, headAlloc_cons]
    tauto
  · intro y
    have hold := h.fl_mem y
    rw [freeAddrs_append]
    simp only [freeAddrs, if_true, List.mem_append, List.mem_cons, ← hp] at hold ⊢
    rw [hold]
    constructor
    · rintro (h3 | h3 | h3)
      · exact Or.inr (Or.inl h3)
      · exact Or.inl h3
      · exact Or.inr (Or.inr h3)
    · rintro (h3 | h3 | h3)
      · exact Or.inr (Or.inl h3)
      · exact Or.inl h3
      · exact Or.inr (Or.inr h3)
  · intro t ht hb
    exact fr1 t (NL_cons ht (fun y hy => hy) (out_ne_start hb s32))

theorem coalesce_exec_10 {s : Heap} {p sz nsz a : Nat} {m2 : Nat → Nat}
    (hpa : (if mem_heap_lo s ≤ Compute_PVBP s.mem p then
      READ_w_ALLOC s.mem (Compute_FT s.mem (Compute_PVBP s.mem p)) else 1) = a)
    (hna : (if Compute_NXBP s.mem p ≤ mem_heap_hi s then
      READ_w_ALLOC s.mem (Compute_HD (Compute_NXBP s.mem p)) else 1) = 0)
    (ha : a ≠ 0) (hhd : s.mem (p - 8) = sz + 0)
    (hm2 : m2 = FL_append (FL_unlink s.mem (p + sz)) s.free_list p)
    (h1 : m2 (p - 8) = sz + 0) (h2 : m2 (p + sz - 8) = nsz + 0)
    (s16 : sz % 16 = 0) (n16 : nsz % 16 = 0) (h32 : 32 ≤ p) (s32 : 32 ≤ sz)
    (hlt : p + sz + nsz < 2 ^ 64) :
    coalesce s p =
      ({ s with mem := (WRITE_w (WRITE_w m2 (p - 8) (sz + nsz)) (p + (sz + nsz) - 16)
          (sz + nsz)) }, p) := by
  have eNX : Compute_NXBP s.mem p = p + sz :=
    Compute_NXBP_eq hhd (by omega) (by omega) (by omega) (by omega)
  have eNX2 : Compute_NXBP m2 p = p + sz :=
    Compute_NXBP_eq h1 (by omega) (by omega) (by omega) (by omega)
  have eS : READ_w_SIZE s.mem (p - 8) = sz := READ_w_SIZE_of hhd (by omega) (by omega) (by omega)
  have eRS : READ_w_SIZE m2 (Compute_HD (p + sz)) = nsz :=
    READ_size_tag (p := p + sz) h2 (by omega) (by omega) (by omega) (by omega)
  have eA : add64 sz nsz = sz + nsz := add64_eq (by omega)
  have hP : Pack_w (sz + nsz) 0 = sz + nsz := by rw [Pack_w_eq (by omega) (by omega)]; rfl
  have hHD : Compute_HD p = p - 8 := Compute_HD_eq (by omega) (by omega)
  have eFT3 : Compute_FT (WRITE_w m2 (p - 8) (sz + nsz)) p = p + (sz + nsz) - 16 :=
    @Compute_FT_eq _ (p) (sz + nsz) 0 (WRITE_w_same _ _ _) (by omega) (by omega)
      (by omega) (by omega) (by omega)
  unfold coalesce
  dsimp only
  rw [hpa, hna, if_neg (by simp), if_pos ⟨ha, by simp⟩]
  simp only [eNX, ← hm2, eNX2, hHD, eS, eRS, eA, hP, eFT3]

/-- Case 1/0: only the next block is free; it is unlinked, the two blocks
merge at `p`, and `p` goes to the head of the free list. -/
theorem coalesce_10 {s : Heap} {pre post : List (Nat × Nat)} {sz nsz : Nat} {fl : List Nat}
    (h : WFc s pre sz ((nsz, 0) :: post) fl) {p : Nat}
    (hp : p = s.mem_start + 32 + total pre) (h1 : lastAlloc pre ≠ 0) :
    ∃ fl1 fl2, fl = fl1 ++ (p + sz) :: fl2 ∧
      (coalesce s p).2 = p ∧
      WF (coalesce s p).1 (pre ++ (sz + nsz, 0) :: post) (p :: (fl1 ++ fl2)) ∧
      (∀ t, NL s.free_list fl t → (t + 16 ≤ p ∨ p + (sz + nsz) ≤ t + 8) →
        (coalesce s p).1.mem t = s.mem t) := by
  obtain ⟨⟨s16, s32, -, hp16, hplo, hpr, hlt⟩, hhd, hft, Tpre, Tpost, tri⟩ := h.lframe_c.block_at hp
  obtain ⟨n16, n32, -, nhd, nft, Tpost'⟩ := Tiles_cons.1 Tpost
  have hbrk' := Tiles_end Tpost'
  have hmax := h.max_lt
  have hble := h.brk_le
  obtain ⟨hpn, hnodes⟩ := h.nodes hp
  have hnfl : p + sz ∈ fl := (h.fl_mem _).2 (Or.inr (by rw [← hp]; simp [freeAddrs]))
  obtain ⟨fl1, fl2, hfl, LF1, fr1⟩ := h.lframe_c.unlink hnfl
  refine ⟨fl1, fl2, hfl, ?_⟩
  have hsub : ∀ y ∈ fl1 ++ fl2, y ∈ fl := fun y hy => ((split_mem hfl h.nodup).1 hy).1
  have hpn' : p ∉ fl1 ++ fl2 := fun hq => hpn (hsub p hq)
  obtain ⟨LF2, fr2⟩ := LF1.append (by rw [hp]; exact mem_starts_mid) hpn'
  obtain ⟨-, hhd2, -, -, Tpost2, -⟩ := LF2.block_at (p := p) hp
  obtain ⟨-, -, -, nhd2, -, -⟩ := Tiles_cons.1 Tpost2
  have hh32 : 32 ≤ p := le_trans (Nat.le_add_left _ _) hplo
  obtain ⟨hout3, hmid3, hin1, hin2⟩ := @whole_tags
    (FL_append (FL_unlink s.mem (p + sz)) s.free_list p) _ p (sz + nsz)
    0 rfl (by omega) (by omega) (by omega) hh32
  have LF2' : LFrame { s with mem := FL_append (FL_unlink s.mem (p + sz)) s.free_list p }
      (pre ++ ([(sz, 0), (nsz, 0)] ++ post)) (p :: (fl1 ++ fl2)) := LF2
  have LF3 := @LFrame.retag _ _ _ [(sz + nsz, 0)] _ _ LF2' _ _ hp
    (by simpa only [total, Nat.add_zero] using hout3)
    (by simpa only [total, Nat.add_zero] using hmid3)
    (by
      intro y hy
      rcases List.mem_cons.1 hy with rfl | hy
      · exact Or.inr ⟨hin1, hin2, by simp [starts]⟩
      · refine Or.inl ?_
        obtain ⟨h3, h4⟩ := (split_mem hfl h.nodup).1 hy
        simp only [total, Nat.add_zero]
        rcases hnodes y h3 with h5 | h5
        · exact Or.inl h5.2
        · have h6 := h5.1
          simp only [freeAddrs, if_true, List.mem_cons] at h6
          rcases h6 with h6 | h6
          · exact absurd h6 h4
          · have := mem_freeAddrs_bounds Tpost' h6; omega)
  rw [coalesce_exec_10 (prev_alloc_eq h.toFrame hp) (next_alloc_eq h.toFrame hp) h1 hhd rfl
    hhd2 nhd2 s16 n16 hh32 s32 (by omega)]
  refine ⟨rfl, { toFrame := LF3.toFrame, noadj := NoAdjFree_merge_next h.noadj_pre h.noadj_post h1,
                 fl_mem := ?_ }, ?_⟩
  · intro y
    have hold := h.fl_mem y
    have hsm := split_mem (y := y) hfl h.nodup
    rw [freeAddrs_append]
    simp only [freeAddrs, if_true, List.mem_append, List.mem_cons, ← hp, List.singleton_append]
      at hold hsm ⊢
    have e2 : p + (sz + nsz) = p + sz + nsz := by omega
    rw [e2]
    constructor
    · rintro (h3 | h3)
      · exact Or.inr (Or.inl h3)
      · obtain ⟨h4, h5⟩ := hsm.1 h3
        rcases hold.1 h4 with h6 | h6 | h6
        · exact Or.inl h6
        · exact absurd h6 h5
        · exact Or.inr (Or.inr h6)
    · rintro (h3 | h3 | h3)
      · have := mem_freeAddrs_bounds Tpre h3
        exact Or.inr (hsm.2 ⟨hold.2 (Or.inl h3), by omega⟩)
      · exact Or.inl h3
      · have := mem_freeAddrs_bounds Tpost' h3
        exact Or.inr (hsm.2 ⟨hold.2 (Or.inr (Or.inr h3)), by omega⟩)
  · intro t ht hb
    exact (hout3 t (by simpa only [Nat.add_zero] using hb)).trans
      ((fr2 t (NL_cons ht hsub (out_ne_start hb (by omega)))).trans (fr1 t ht))

theorem WRITE_w_comm {m : Nat → Nat} {a b v w : Nat} (h : a ≠ b) :
    WRITE_w (WRITE_w m a v) b w = WRITE_w (WRITE_w m b w) a v := by
  funext t
  unfold WRITE_w
  by_cases h1 : t = b
  · subst h1
    simp [Ne.symm h]
  · simp [h1]

theorem coalesce_exec_01 {s : Heap} {p q sz psz b : Nat}
    (hpa : (if mem_heap_lo s ≤ Compute_PVBP s.mem p then
      READ_w_ALLOC s.mem (Compute_FT s.mem (Compute_PVBP s.mem p)) else 1) = 0)
    (hna : (if Compute_NXBP s.mem p ≤ mem_heap_hi s then
      READ_w_ALLOC s.mem (Compute_HD (Compute_NXBP s.mem p)) else 1) = b)
    (hb : b ≠ 0) (hhd : s.mem (p - 8) = sz + 0) (pft : s.mem (p - 16) = psz + 0)
    (phd : s.mem (q - 8) = psz + 0) (hq : p = q + psz)
    (s16 : sz % 16 = 0) (p16 : psz % 16 = 0) (h32 : 32 ≤ q) (s32 : 32 ≤ sz) (p32 : 32 ≤ psz)
    (hlt : p + sz < 2 ^ 64) :
    coalesce s p =
      ({ s with mem := (WRITE_w (WRITE_w s.mem (q - 8) (psz + sz)) (q + (psz + sz) - 16)
          (psz + sz)) }, q) := by
  have eS : READ_w_SIZE s.mem (p - 8) = sz := READ_w_SIZE_of hhd (by omega) (by omega) (by omega)
  have hHD : Compute_HD p = p - 8 := Compute_HD_eq (by omega) (by omega)
  have ePV : Compute_PVBP s.mem p = q := by
    rw [Compute_PVBP_eq pft (by omega) (by omega) (by omega) (by omega) (by omega)]; omega
  have hHDq : Compute_HD q = q - 8 := Compute_HD_eq (by omega) (by omega)
  have eRS : READ_w_SIZE s.mem (q - 8) = psz :=
    READ_w_SIZE_of phd (by omega) (by omega) (by omega)
  have eA : add64 sz psz = psz + sz := by rw [add64_eq (by omega)]; omega
  have hP : Pack_w (psz + sz) 0 = psz + sz := by rw [Pack_w_eq (by omega) (by omega)]; rfl
  have eFT : Compute_FT s.mem p = p + sz - 16 :=
    Compute_FT_eq hhd (by omega) (by omega) (by omega) (by omega) (by omega)
  have ePV1 : Compute_PVBP (WRITE_w s.mem (p + sz - 16) (psz + sz)) p = q := by
    rw [@Compute_PVBP_eq _ (p) (psz) 0
      (by rw [WRITE_w_other (by omega)]; exact pft) (by omega) (by omega) (by omega) (by omega)
      (by omega)]
    omega
  have ePV2 : Compute_PVBP (WRITE_w (WRITE_w s.mem (p + sz - 16) (psz + sz)) (q - 8) (psz + sz)) p
      = q := by
    rw [@Compute_PVBP_eq _ (p) (psz) 0
      (by rw [WRITE_w_other (by omega), WRITE_w_other (by omega)]; exact pft) (by omega)
      (by omega) (by omega) (by omega) (by omega)]
    omega
  have e2 : q + (psz + sz) - 16 = p + sz - 16 := by omega
  unfold coalesce
  dsimp only
  rw [hpa, hna, if_neg (by simp), if_neg (by simp), if_pos ⟨by simp, hb⟩]
  simp only [hHD, eS, ePV, hHDq, eRS, eA, hP, eFT, ePV1, ePV2]
  rw [e2, WRITE_w_comm (by omega)]

theorem WFc.prev_frame {s : Heap} {L post : List (Nat × Nat)} {psz sz : Nat} {fl : List Nat}
    (h : WFc s (L ++ [(psz, 0)]) sz post fl) {p q : Nat}
    (hq : q = s.mem_start + 32 + total L) (hp : p = q + psz) :
    p = s.mem_start + 32 + total (L ++ [(psz, 0)]) ∧
      LFrame s (L ++ (psz, 0) :: ((sz, 0) :: post)) fl ∧ q ∈ fl ∧
      ∀ y ∈ fl, y + 32 ≤ q ∨ y = q ∨ p + sz ≤ y := by
  have hp' : p = s.mem_start + 32 + total (L ++ [(psz, 0)]) := by
    rw [total_append]; simp only [total]; omega
  have LF : LFrame s (L ++ (psz, 0) :: ((sz, 0) :: post)) fl := by
    have := h.lframe_c
    rw [List.append_assoc] at this
    exact this
  obtain ⟨-, -, -, TL, -, -⟩ := LF.block_at hq
  refine ⟨hp', LF, (h.fl_mem q).2 (Or.inl (by rw [freeAddrs_append, ← hq]; simp [freeAddrs])), ?_⟩
  intro y hy
  rcases (h.nodes hp').2 y hy with h1 | h1
  · have h2 := h1.1
    rw [freeAddrs_append, ← hq] at h2
    simp only [freeAddrs, if_true, List.mem_append, List.mem_cons, List.not_mem_nil,
      or_false] at h2
    rcases h2 with h2 | h2
    · exact Or.inl (mem_freeAddrs_bounds TL h2).2.1
    · exact Or.inr (Or.inl h2)
  · exact Or.inr (Or.inr h1.2)

/-- Case 0/1: only the previous block is free; the block is merged into it,
and the previous block keeps its place in the free list. -/
theorem coalesce_01 {s : Heap} {L post : List (Nat × Nat)} {psz sz : Nat} {fl : List Nat}
    (h : WFc s (L ++ [(psz, 0)]) sz post fl) {p q : Nat}
    (hq : q = s.mem_start + 32 + total L) (hp : p = q + psz) (h2 : headAlloc post ≠ 0) :
    (coalesce s p).2 = q ∧ WF (coalesce s p).1 (L ++ (psz + sz, 0) :: post) fl ∧
      (∀ t, NL s.free_list fl t → (t + 16 ≤ q ∨ q + (psz + sz) ≤ t + 8) →
        (coalesce s p).1.mem t = s.mem t) := by
  obtain ⟨hp', LF, hqfl, tri⟩ := h.prev_frame hq hp
  obtain ⟨⟨s16, s32, -, hp16, hplo, hpr, hlt⟩, hhd, hft, Tpre, Tpost, -⟩ := h.lframe_c.block_at hp'
  obtain ⟨⟨p16, p32, -, hq16, hqlo, -, -⟩, phd, pft, TL, -, -⟩ := LF.block_at hq
  have hh32 : 32 ≤ q := le_trans (Nat.le_add_left _ _) hqlo
  have pft' : s.mem (p - 16) = psz + 0 := by
    rw [← pft]; congr 1; omega
  obtain ⟨hout3, hmid3, hin1, hin2⟩ := @whole_tags s.mem _ q (psz + sz)
    0 rfl (by omega) (by omega) (by omega) hh32
  have LF' : LFrame s (L ++ ([(psz, 0), (sz, 0)] ++ post)) fl := LF
  have LF3 := @LFrame.retag _ _ _ [(psz + sz, 0)] _ _ LF' _ _ hq
    (by simpa only [total, Nat.add_zero] using hout3)
    (by simpa only [total, Nat.add_zero] using hmid3)
    (by
      intro y hy
      simp only [total, Nat.add_zero]
      rcases tri y hy with h3 | h3 | h3
      · exact Or.inl (Or.inl h3)
      · subst h3; exact Or.inr ⟨hin1, hin2, by simp [starts]⟩
      · exact Or.inl (Or.inr (by omega)))
  rw [coalesce_exec_01 (by rw [prev_alloc_eq h.toFrame hp', lastAlloc_concat])
    (next_alloc_eq h.toFrame hp') h2 hhd pft' phd hp s16 p16 hh32 s32 p32 hlt]
  refine ⟨rfl, { toFrame := LF3.toFrame,
                 noadj := NoAdjFree_merge_prev h.noadj_pre h.noadj_post h2, fl_mem := ?_ }, ?_⟩
  · intro y
    have hold := h.fl_mem y
    rw [freeAddrs_append, ← hq] at hold
    rw [freeAddrs_append, ← hq]
    simp only [freeAddrs, if_true, List.mem_append, List.mem_cons, List.not_mem_nil, or_false,
      ← hp', List.singleton_append] at hold ⊢
    have e2 : q + (psz + sz) = p + sz := by omega
    rw [e2, hold]
    constructor
    · rintro ((h3 | h3) | h3)
      · exact Or.inl h3
      · exact Or.inr (Or.inl h3)
      · exact Or.inr (Or.inr h3)
    · rintro (h3 | h3 | h3)
      · exact Or.inl (Or.inl h3)
      · exact Or.inl (Or.inr h3)
      · exact Or.inr h3
  · intro t ht hb
    exact hout3 t (by simpa only [Nat.add_zero] using hb)

theorem coalesce_exec_00 {s : Heap} {p q sz psz nsz : Nat} {m1 : Nat → Nat}
    (hpa : (if mem_heap_lo s ≤ Compute_PVBP s.mem p then
      READ_w_ALLOC s.mem (Compute_FT s.mem (Compute_PVBP s.mem p)) else 1) = 0)
    (hna : (if Compute_NXBP s.mem p ≤ mem_heap_hi s then
      READ_w_ALLOC s.mem (Compute_HD (Compute_NXBP s.mem p)) else 1) = 0)
    (hhd : s.mem (p - 8) = sz + 0) (hm1 : m1 = FL_unlink s.mem (p + sz))
    (r1 : m1 (p - 16) = psz + 0) (r2 : m1 (q - 8) = psz + 0) (r3 : m1 (p - 8) = sz + 0)
    (r4 : m1 (p + sz - 8) = nsz + 0) (r5 : m1 (p + sz + nsz - 16) = nsz + 0)
    (hq : p = q + psz)
    (s16 : sz % 16 = 0) (p16 : psz % 16 = 0) (n16 : nsz % 16 = 0) (h32 : 32 ≤ q)
    (s32 : 32 ≤ sz) (p32 : 32 ≤ psz) (n32 : 32 ≤ nsz) (hlt : p + sz + nsz < 2 ^ 64) :
    coalesce s p =
      ({ s with mem := (WRITE_w (WRITE_w m1 (q - 8) (psz + sz + nsz))
          (q + (psz + sz + nsz) - 16) (psz + sz + nsz)) }, q) := by
  have f1 : sz % 8 = 0 := by omega
  have f2 : psz % 8 = 0 := by omega
  have f3 : nsz % 8 = 0 := by omega
  have f0 : (0 : Nat) ≤ 1 := Nat.zero_le _
  have g1 : 8 ≤ p := by omega
  have g2 : 16 ≤ p := by omega
  have g3 : psz ≤ p := by omega
  have g4 : p < 2 ^ 64 := by omega
  have g5 : p + sz < 2 ^ 64 := by omega
  have g6 : 8 ≤ p + sz := by omega
  have g7 : 16 ≤ p + sz + nsz := by omega
  have g8 : sz + 0 < 2 ^ 64 := by omega
  have g9 : psz + 0 < 2 ^ 64 := by omega
  have g10 : nsz + 0 < 2 ^ 64 := by omega
  have g11 : 8 ≤ q := by omega
  have g12 : q < 2 ^ 64 := by omega
  have g13 : psz + nsz < 2 ^ 64 := by omega
  have g14 : sz + (psz + nsz) < 2 ^ 64 := by omega
  have g15 : sz + (psz + nsz) = psz + sz + nsz := by omega
  have g16 : (psz + sz + nsz) % 2 = 0 := by omega
  have g17 : p - 8 ≠ q - 8 := by omega
  have g18 : p + sz - 8 ≠ q - 8 := by omega
  have g19 : p - 16 ≠ q - 8 := by omega
  have g20 : p - 16 ≠ p + sz + nsz - 16 := by omega
  have g21 : p - psz = q := by omega
  have e2 : q + (psz + sz + nsz) - 16 = p + sz + nsz - 16 := by omega
  have eNX : Compute_NXBP s.mem p = p + sz := Compute_NXBP_eq hhd f1 f0 g1 g5
  have eS : READ_w_SIZE s.mem (p - 8) = sz := READ_w_SIZE_of hhd f1 f0 g8
  have hHD : Compute_HD p = p - 8 := Compute_HD_eq g1 g4
  have ePV1 : Compute_PVBP m1 p = q := by
    rw [Compute_PVBP_eq r1 f2 f0 g2 g3 g4]; exact g21
  have hHDq : Compute_HD q = q - 8 := Compute_HD_eq g11 g12
  have eRS1 : READ_w_SIZE m1 (q - 8) = psz := READ_w_SIZE_of r2 f2 f0 g9
  have eNX1 : Compute_NXBP m1 p = p + sz := Compute_NXBP_eq r3 f1 f0 g1 g5
  have eFT1 : Compute_FT m1 (p + sz) = p + sz + nsz - 16 :=
    Compute_FT_eq (p := p + sz) r4 f3 f0 g6 g7 hlt
  have eRS2 : READ_w_SIZE m1 (p + sz + nsz - 16) = nsz := READ_w_SIZE_of r5 f3 f0 g10
  have eA1 : add64 psz nsz = psz + nsz := add64_eq g13
  have eA2 : add64 sz (psz + nsz) = psz + sz + nsz := by rw [add64_eq g14]; exact g15
  have hP : Pack_w (psz + sz + nsz) 0 = psz + sz + nsz := by
    rw [Pack_w_eq g16 f0]; rfl
  have eNX2 : Compute_NXBP (WRITE_w m1 (q - 8) (psz + sz + nsz)) p = p + sz :=
    @Compute_NXBP_eq _ (p) (sz) 0
      (by rw [WRITE_w_other g17]; exact r3) f1 f0 g1 g5
  have eFT2 : Compute_FT (WRITE_w m1 (q - 8) (psz + sz + nsz)) (p + sz) = p + sz + nsz - 16 :=
    @Compute_FT_eq _ (p + sz) (nsz) 0
      (by rw [WRITE_w_other g18]; exact r4) f3 f0 g6 g7 hlt
  have ePV3 : Compute_PVBP (WRITE_w (WRITE_w m1 (q - 8) (psz + sz + nsz)) (p + sz + nsz - 16)
      (psz + sz + nsz)) p = q := by
    rw [@Compute_PVBP_eq _ (p) (psz) 0
      (by rw [WRITE_w_other g20, WRITE_w_other g19]; exact r1) f2 f0 g2 g3 g4]
    exact g21
  unfold coalesce
  dsimp only
  rw [hpa, hna, if_neg (by simp), if_neg (by simp), if_neg (by simp)]
  simp only [eNX, ← hm1, hHD, eS, ePV1, hHDq, eRS1, eNX1, eFT1, eRS2, eA1, eA2, hP, eNX2, eFT2,
    ePV3]
  rw [e2]

/-- Case 0/0: both neighbours free; the next block is unlinked, the three
blocks merge at the previous block, which keeps its place in the free list. -/
theorem coalesce_00 {s : Heap} {L post : List (Nat × Nat)} {psz sz nsz : Nat} {fl : List Nat}
    (h : WFc s (L ++ [(psz, 0)]) sz ((nsz, 0) :: post) fl) {p q : Nat}
    (hq : q = s.mem_start + 32 + total L) (hp : p = q + psz) :
    ∃ fl1 fl2, fl = fl1 ++ (p + sz) :: fl2 ∧
      (coalesce s p).2 = q ∧
      WF (coalesce s p).1 (L ++ (psz + sz + nsz, 0) :: post) (fl1 ++ fl2) ∧
      (∀ t, NL s.free_list fl t → (t + 16 ≤ q ∨ q + (psz + sz + nsz) ≤ t + 8) →
        (coalesce s p).1.mem t = s.mem t) := by
  subst hp
  obtain ⟨hp', LF, hqfl, tri0⟩ := h.prev_frame hq rfl
  obtain ⟨⟨s16, s32, -, hp16, hplo, hpr, hlt⟩, hhd, hft, Tpre, Tpost, -⟩ := h.lframe_c.block_at hp'
  obtain ⟨n16, n32, -, nhd, nft, Tpost'⟩ := Tiles_cons.1 Tpost
  have hbrk' := Tiles_end Tpost'
  have hmax := h.max_lt
  have hble := h.brk_le
  obtain ⟨⟨p16, p32, -, hq16, hqlo, -, -⟩, -, -, TL, -, -⟩ := LF.block_at hq
  have hh32 : 32 ≤ q := le_trans (Nat.le_add_left _ _) hqlo
  have hnfl : q + psz + sz ∈ fl := (h.fl_mem _).2 (Or.inr (by rw [← hp']; simp [freeAddrs]))
  have tri : ∀ y ∈ fl, y + 32 ≤ q ∨ y = q ∨ y = q + psz + sz ∨ q + psz + sz + nsz ≤ y := by
    intro y hy
    rcases tri0 y hy with h1 | h1 | h1
    · exact Or.inl h1
    · exact Or.inr (Or.inl h1)
    · rcases (h.nodes hp').2 y hy with h3 | h3
      · omega
      · have h4 := h3.1
        simp only [freeAddrs, if_true, List.mem_cons] at h4
        rcases h4 with h4 | h4
        · exact Or.inr (Or.inr (Or.inl h4))
        · have := mem_freeAddrs_bounds Tpost' h4; omega
  obtain ⟨fl1, fl2, hfl, LF1, fr1⟩ := LF.unlink hnfl
  refine ⟨fl1, fl2, hfl, ?_⟩
  obtain ⟨-, r2, r1, -, T1, -⟩ := LF1.block_at hq
  obtain ⟨-, -, -, r3, -, T2⟩ := Tiles_cons.1 T1
  obtain ⟨-, -, -, r4, r5, -⟩ := Tiles_cons.1 T2
  have r1' : FL_unlink s.mem (q + psz + sz) (q + psz - 16) = psz + 0 := r1
  obtain ⟨hout3, hmid3, hin1, hin2⟩ := @whole_tags (FL_unlink s.mem (q + psz + sz)) _ q
    (psz + sz + nsz) 0 rfl (by omega) (by omega) (by omega) hh32
  have LF1' : LFrame { s with mem := FL_unlink s.mem (q + psz + sz) }
      (L ++ ([(psz, 0), (sz, 0), (nsz, 0)] ++ post)) (fl1 ++ fl2) := LF1
  have etot : total [(psz, 0), (sz, 0), (nsz, 0)] = psz + sz + nsz + 0 := by
    simp only [total]; omega
  have LF3 := @LFrame.retag _ _ _ [(psz + sz + nsz, 0)] _ _ LF1'
    (WRITE_w (WRITE_w (FL_unlink s.mem (q + psz + sz)) (q - 8) (psz + sz + nsz + 0))
      (q + (psz + sz + nsz) - 16) (psz + sz + nsz + 0)) _ hq
    (by rw [etot]; exact hout3) (by rw [etot]; exact hmid3)
    (by
      intro y hy
      obtain ⟨h3, h4⟩ := (split_mem hfl h.nodup).1 hy
      rw [etot]
      rcases tri y h3 with h5 | h5 | h5 | h5
      · exact Or.inl (Or.inl h5)
      · subst h5; exact Or.inr ⟨hin1, hin2, by simp [starts]⟩
      · exact absurd h5 h4
      · exact Or.inl (Or.inr (by omega)))
  rw [coalesce_exec_00 (by rw [prev_alloc_eq h.toFrame hp', lastAlloc_concat])
    (by rw [next_alloc_eq h.toFrame hp', headAlloc_cons]) hhd rfl r1' r2 r3 r4 r5 rfl s16 p16 n16
    hh32 s32 p32 n32 (by omega)]
  refine ⟨rfl, { toFrame := LF3.toFrame,
                 noadj := NoAdjFree_merge_both h.noadj_pre h.noadj_post, fl_mem := ?_ }, ?_⟩
  · intro y
    have hold := h.fl_mem y
    have hsm := split_mem (y := y) hfl h.nodup
    rw [freeAddrs_append, ← hq] at hold
    rw [freeAddrs_append, ← hq]
    simp only [freeAddrs, if_true, List.mem_append, List.mem_cons, List.not_mem_nil, or_false,
      ← hp', List.singleton_append] at hold hsm ⊢
    have e2 : q + (psz + sz + nsz) = q + psz + sz + nsz := by omega
    rw [e2]
    constructor
    · intro h3
      obtain ⟨h4, h5⟩ := hsm.1 h3
      rcases hold.1 h4 with (h6 | h6) | h6 | h6
      · exact Or.inl h6
      · exact Or.inr (Or.inl h6)
      · exact absurd h6 h5
      · exact Or.inr (Or.inr h6)
    · rintro (h3 | h3 | h3)
      · have := mem_freeAddrs_bounds TL h3
        exact hsm.2 ⟨hold.2 (Or.inl (Or.inl h3)), by omega⟩
      · exact hsm.2 ⟨hold.2 (Or.inl (Or.inr h3)), by omega⟩
      · have := mem_freeAddrs_bounds Tpost' h3
        exact hsm.2 ⟨hold.2 (Or.inr (Or.inr h3)), by omega⟩
  · intro t ht hb
    exact (hout3 t (by simpa only [Nat.add_zero] using hb)).trans (fr1 t ht)

/-! ## Coalescing: all cases together -/

theorem lastAlloc_eq_zero {pre : List (Nat × Nat)} (h : lastAlloc pre = 0) :
    ∃ L psz, pre = L ++ [(psz, 0)] := by
  rcases List.eq_nil_or_concat pre with rfl | ⟨L, b, rfl⟩
  · simp [lastAlloc] at h
  · obtain ⟨psz, pal⟩ := b
    rw [List.concat_eq_append, lastAlloc_concat] at h
    simp only at h
    subst h
    exact ⟨L, psz, by simp⟩

theorem headAlloc_eq_zero {post : List (Nat × Nat)} (h : headAlloc post = 0) :
    ∃ nsz post', post = (nsz, 0) :: post' := by
  cases post with
  | nil => simp [headAlloc] at h
  | cons b post =>
    obtain ⟨nsz, nal⟩ := b
    rw [headAlloc_cons] at h
    simp only at h
    subst h
    exact ⟨nsz, post, rfl⟩

/-- The function `coalesce` on a block tagged free and not yet listed: the
result is well formed, the allocated blocks are the same, the returned pointer
is the payload of a free block that contains the given block, and nothing
outside that block changes except link fields. -/
theorem coalesce_wf {s : Heap} {pre post : List (Nat × Nat)} {sz : Nat} {fl : List Nat}
    (h : WFc s pre sz post fl) {p : Nat} (hp : p = s.mem_start + 32 + total pre) :
    ∃ pre' S post' fl', WF (coalesce s p).1 (pre' ++ (S, 0) :: post') fl' ∧
      (coalesce s p).2 = s.mem_start + 32 + total pre' ∧
      liveBlocks (s.mem_start + 32) (pre' ++ (S, 0) :: post') =
        liveBlocks (s.mem_start + 32) (pre ++ (sz, 0) :: post) ∧
      (coalesce s p).2 ≤ p ∧ p + sz ≤ (coalesce s p).2 + S ∧
      (∀ t, NL s.free_list fl t → (t + 16 ≤ (coalesce s p).2 ∨ (coalesce s p).2 + S ≤ t + 8) →
        (coalesce s p).1.mem t = s.mem t) := by
  by_cases h1 : lastAlloc pre = 0
  · obtain ⟨L, psz, rfl⟩ := lastAlloc_eq_zero h1
    have hq : p = (s.mem_start + 32 + total L) + psz := by
      rw [hp, total_append]; simp only [total]; omega
    by_cases h2 : headAlloc post = 0
    · obtain ⟨nsz, post', rfl⟩ := headAlloc_eq_zero h2
      obtain ⟨fl1, fl2, -, e1, e2, e3⟩ := coalesce_00 h rfl hq
      refine ⟨L, psz + sz + nsz, post', fl1 ++ fl2, e2, e1, ?_, ?_, ?_, ?_⟩
      · simp only [liveBlocks_append, liveBlocks_free_cons, liveBlocks_nil, List.append_nil,
          total_append, total]
        congr 2; omega
      · rw [e1]; omega
      · rw [e1]; omega
      · rw [e1]; exact e3
    · obtain ⟨e1, e2, e3⟩ := coalesce_01 h rfl hq h2
      refine ⟨L, psz + sz, post, fl, e2, e1, ?_, ?_, ?_, ?_⟩
      · simp only [liveBlocks_append, liveBlocks_free_cons, liveBlocks_nil, List.append_nil,
          total_append, total]
        congr 2; omega
      · rw [e1]; omega
      · rw [e1]; omega
      · rw [e1]; exact e3
  · by_cases h2 : headAlloc post = 0
    · obtain ⟨nsz, post', rfl⟩ := headAlloc_eq_zero h2
      obtain ⟨fl1, fl2, -, e1, e2, e3⟩ := coalesce_10 h hp h1
      refine ⟨pre, sz + nsz, post', p :: (fl1 ++ fl2), e2, by rw [e1, hp], ?_, ?_, ?_, ?_⟩
      · simp only [liveBlocks_append, liveBlocks_free_cons]
        congr 2; omega
      · rw [e1]
      · rw [e1]; omega
      · rw [e1]; exact e3
    · obtain ⟨e1, e2, e3⟩ := coalesce_11 h hp h1 h2
      refine ⟨pre, sz, post, p :: fl, e2, by rw [e1, hp], rfl, ?_, ?_, ?_⟩
      · rw [e1]
      · rw [e1]
      · rw [e1]; exact e3

/-! ## The function `free` -/

theorem free_exec {s : Heap} {p sz al : Nat} (hhd : s.mem (p - 8) = sz + al)
    (s16 : sz % 16 = 0) (hal : al ≤ 1) (h32 : 32 ≤ p) (s32 : 32 ≤ sz) (hlt : p + sz < 2 ^ 64) :
    free s p =
      (coalesce { s with
        mem := (WRITE_w (WRITE_w s.mem (p - 8) (sz + 0)) (p + sz - 16) (sz + 0)) } p).1 := by
  have f1 : sz % 8 = 0 := by omega
  have g1 : 8 ≤ p := by omega
  have g2 : p < 2 ^ 64 := by omega
  have g3 : 16 ≤ p + sz := by omega
  have hp0 : p ≠ 0 := by omega
  have eS : READ_w_SIZE s.mem (p - 8) = sz := READ_w_SIZE_of hhd f1 hal (by omega)
  have hHD : Compute_HD p = p - 8 := Compute_HD_eq g1 g2
  have hP : Pack_w sz 0 = sz + 0 := Pack_w_eq (by omega) (Nat.zero_le _)
  have eFT : Compute_FT (WRITE_w s.mem (p - 8) (sz + 0)) p = p + sz - 16 :=
    @Compute_FT_eq _ (p) (sz) 0 (WRITE_w_same _ _ _) f1 (Nat.zero_le _) g1 g3 hlt
  unfold free
  simp only [hp0, if_false, hHD, eS, hP, eFT]

@[simp] theorem free_start (s : Heap) (p : Nat) : (free s p).mem_start = s.mem_start := by
  unfold free; split
  · rfl
  · simp only [coalesce_start]

@[simp] theorem free_brk (s : Heap) (p : Nat) : (free s p).mem_brk = s.mem_brk := by
  unfold free; split
  · rfl
  · simp only [coalesce_brk]

@[simp] theorem free_max (s : Heap) (p : Nat) : (free s p).mem_max = s.mem_max := by
  unfold free; split
  · rfl
  · simp only [coalesce_max]

@[simp] theorem free_bptr (s : Heap) (p : Nat) : (free s p).heap_bptr = s.heap_bptr := by
  unfold free; split
  · rfl
  · simp only [coalesce_bptr]

@[simp] theorem free_root (s : Heap) (p : Nat) : (free s p).free_list = s.free_list := by
  unfold free; split
  · rfl
  · simp only [coalesce_root]

theorem NoAdjFree_parts {pre post : List (Nat × Nat)} {b : Nat × Nat}
    (h : NoAdjFree (pre ++ b :: post)) : NoAdjFree pre ∧ NoAdjFree post := by
  simp only [NoAdjFree_append, NoAdjFree_cons] at h
  exact ⟨h.1, h.2.1.2⟩

theorem freeAddrs_live_cons {a sz al : Nat} (l : List (Nat × Nat)) (h : al ≠ 0) :
    freeAddrs a ((sz, al) :: l) = freeAddrs (a + sz) l := by
  simp [freeAddrs, h]

/-- Tagging an allocated block free gives the state `coalesce` expects. -/
theorem free_retag {s : Heap} {pre post : List (Nat × Nat)} {sz al : Nat} {fl : List Nat}
    (h : WF s (pre ++ (sz, al) :: post) fl) (hal : al ≠ 0) {p : Nat}
    (hp : p = s.mem_start + 32 + total pre) :
    WFc { s with mem := (WRITE_w (WRITE_w s.mem (p - 8) (sz + 0)) (p + sz - 16) (sz + 0)) }
        pre sz post fl ∧
      (∀ y ∈ fl, y + 32 ≤ p ∨ p + sz ≤ y) ∧
      (∀ t, (t + 16 ≤ p ∨ p + sz ≤ t + 8) →
        WRITE_w (WRITE_w s.mem (p - 8) (sz + 0)) (p + sz - 16) (sz + 0) t = s.mem t) := by
  obtain ⟨⟨s16, s32, -, hp16, hplo, hpr, hlt⟩, hhd, hft, Tpre, Tpost, tri⟩ := h.lframe.block_at hp
  have hh32 : 32 ≤ p := le_trans (Nat.le_add_left _ _) hplo
  have hfm : ∀ y, y ∈ fl ↔ (y ∈ freeAddrs (s.mem_start + 32) pre ∨ y ∈ freeAddrs (p + sz) post) := by
    intro y
    rw [h.fl_mem y, freeAddrs_append, freeAddrs_live_cons _ hal, ← hp, List.mem_append]
  have hnodes : ∀ y ∈ fl, y + 32 ≤ p ∨ p + sz ≤ y := by
    intro y hy
    rcases (hfm y).1 hy with h1 | h1
    · exact Or.inl (mem_freeAddrs_bounds Tpre h1).2.1
    · exact Or.inr (mem_freeAddrs_bounds Tpost h1).1
  obtain ⟨hout3, hmid3, -, -⟩ := @whole_tags s.mem _ p sz 0 rfl s16 s32
    (Nat.zero_le _) hh32
  have LF' : LFrame s (pre ++ ([(sz, al)] ++ post)) fl := h.lframe
  have LF3 := @LFrame.retag _ _ _ [(sz, 0)] _ _ LF' _ _ hp
    (by simpa only [total, Nat.add_zero] using hout3)
    (by simpa only [total, Nat.add_zero] using hmid3)
    (fun y hy => Or.inl (by simpa only [total, Nat.add_zero] using hnodes y hy))
  refine ⟨{ toFrame := LF3.toFrame, noadj_pre := (NoAdjFree_parts h.noadj).1,
            noadj_post := (NoAdjFree_parts h.noadj).2, fl_mem := ?_ }, hnodes, ?_⟩
  · intro y
    rw [hfm y, ← hp]
  · intro t ht
    exact hout3 t (by simpa only [Nat.add_zero] using ht)

/-- The function `free` on the payload pointer of an allocated block: the
result is well formed, the allocated blocks are the others, the block is
inside a free block, and nothing outside that free block changes except link
fields. -/
theorem free_spec {s : Heap} {pre post : List (Nat × Nat)} {sz al : Nat} {fl : List Nat}
    (h : WF s (pre ++ (sz, al) :: post) fl) (hal : al ≠ 0) {p : Nat}
    (hp : p = s.mem_start + 32 + total pre) :
    ∃ pre' S post' fl' q, WF (free s p) (pre' ++ (S, 0) :: post') fl' ∧
      q = s.mem_start + 32 + total pre' ∧
      liveBlocks (s.mem_start + 32) (pre' ++ (S, 0) :: post') =
        liveBlocks (s.mem_start + 32) pre ++ liveBlocks (p + sz) post ∧
      q ≤ p ∧ p + sz ≤ q + S ∧
      (∀ t, NL s.free_list fl t → (t + 16 ≤ q ∨ q + S ≤ t + 8) → (free s p).mem t = s.mem t) := by
  obtain ⟨⟨s16, s32, hal1, hp16, hplo, hpr, hlt⟩, hhd, -⟩ := h.lframe.block_at hp
  have hh32 : 32 ≤ p := le_trans (Nat.le_add_left _ _) hplo
  obtain ⟨hc, hnodes, hout⟩ := free_retag h hal hp
  obtain ⟨pre', S, post', fl', e1, e2, e3, e4, e5, e6⟩ := coalesce_wf hc (p := p) hp
  rw [free_exec hhd s16 hal1 hh32 s32 hlt]
  refine ⟨pre', S, post', fl', _, e1, e2, ?_, e4, e5, ?_⟩
  · rw [e3, liveBlocks_append, liveBlocks_free_cons, ← hp]
  · intro t ht hb
    rw [e6 t ht hb]
    exact hout t (by omega)

/-! ## The function `mem_request` -/

theorem Pack_w_epilogue : Pack_w 0 1 = 1 := by decide

theorem mem_request_refused {s : Heap} {size : Nat} (h : ¬ s.mem_brk + size ≤ s.mem_max) :
    mem_request s size = (s, 0) := by
  unfold mem_request mem_sbrk
  simp only [h, if_false, if_true]

theorem mem_request_exec {s : Heap} {size : Nat} (h : s.mem_brk + size ≤ s.mem_max)
    (s16 : size % 16 = 0) (h32 : 32 ≤ s.mem_brk)
    (hlt : s.mem_brk + size < 2 ^ 64) :
    mem_request s size =
      coalesce { s with
        mem := (WRITE_w (WRITE_w (WRITE_w s.mem (s.mem_brk - 8) (size + 0))
          (s.mem_brk + size - 16) (size + 0)) (s.mem_brk + size - 8) 1)
        mem_brk := s.mem_brk + size } s.mem_brk := by
  have f1 : size % 8 = 0 := by omega
  have f0 : (0 : Nat) ≤ 1 := Nat.zero_le _
  have g1 : 8 ≤ s.mem_brk := by omega
  have g2 : s.mem_brk < 2 ^ 64 := by omega
  have g3 : 16 ≤ s.mem_brk + size := by omega
  have g4 : 8 ≤ s.mem_brk + size := by omega
  have g5 : s.mem_brk - 8 ≠ s.mem_brk + size - 16 := by omega
  have hp0 : s.mem_brk ≠ 0 := by omega
  have hHD : Compute_HD s.mem_brk = s.mem_brk - 8 := Compute_HD_eq g1 g2
  have hP : Pack_w size 0 = size + 0 := Pack_w_eq (by omega) f0
  have eFT : Compute_FT (WRITE_w s.mem (s.mem_brk - 8) (size + 0)) s.mem_brk =
      s.mem_brk + size - 16 :=
    @Compute_FT_eq _ (s.mem_brk) (size) 0 (WRITE_w_same _ _ _) f1 f0 g1 g3 hlt
  have eNX : Compute_NXBP (WRITE_w (WRITE_w s.mem (s.mem_brk - 8) (size + 0))
      (s.mem_brk + size - 16) (size + 0)) s.mem_brk = s.mem_brk + size :=
    @Compute_NXBP_eq _ (s.mem_brk) (size) 0
      (by rw [WRITE_w_other g5, WRITE_w_same]) f1 f0 g1 hlt
  have hHD2 : Compute_HD (s.mem_brk + size) = s.mem_brk + size - 8 := Compute_HD_eq g4 hlt
  unfold mem_request mem_sbrk
  simp only [h, if_true, hp0, if_false, hHD, hP, eFT, eNX, hHD2, Pack_w_epilogue]

/-- The heap right after the host has granted `size` more bytes and the new
block and epilogue have been stamped. -/
theorem extend_wfc {s : Heap} {bs : List (Nat × Nat)} {fl : List Nat} {size : Nat}
    (h : WF s bs fl) (hg : s.mem_brk + size ≤ s.mem_max) (s16 : size % 16 = 0)
    (s32 : 32 ≤ size) :
    WFc { s with
        mem := (WRITE_w (WRITE_w (WRITE_w s.mem (s.mem_brk - 8) (size + 0))
          (s.mem_brk + size - 16) (size + 0)) (s.mem_brk + size - 8) 1)
        mem_brk := s.mem_brk + size } bs size [] fl ∧
      (∀ t, t + 16 ≤ s.mem_brk →
        WRITE_w (WRITE_w (WRITE_w s.mem (s.mem_brk - 8) (size + 0))
          (s.mem_brk + size - 16) (size + 0)) (s.mem_brk + size - 8) 1 t = s.mem t) := by
  have hbrk := h.brk_eq
  have hro := h.root_out
  have hble := h.brk_le
  have hout : ∀ t, t + 16 ≤ s.mem_brk →
      WRITE_w (WRITE_w (WRITE_w s.mem (s.mem_brk - 8) (size + 0))
        (s.mem_brk + size - 16) (size + 0)) (s.mem_brk + size - 8) 1 t = s.mem t := by
    intro t ht
    rw [WRITE_w_other (by omega), WRITE_w_other (by omega), WRITE_w_other (by omega)]
  have hroot : ∀ t, s.mem_max ≤ t →
      WRITE_w (WRITE_w (WRITE_w s.mem (s.mem_brk - 8) (size + 0))
        (s.mem_brk + size - 16) (size + 0)) (s.mem_brk + size - 8) 1 t = s.mem t := by
    intro t ht
    rw [WRITE_w_other (by omega), WRITE_w_other (by omega), WRITE_w_other (by omega)]
  refine ⟨{ lo_pos := h.lo_pos, lo_al := h.lo_al, brk_le := hg, max_lt := h.max_lt,
            root_out := h.root_out, root_lt := h.root_lt, bptr := h.bptr,
            pro_hd := ?_, pro_ft := ?_, tiles := ?_, epi := ?_, links := ?_, nodup := h.nodup,
            noadj_pre := h.noadj, noadj_post := NoAdjFree_nil, fl_mem := ?_ }, hout⟩
  · dsimp only
    rw [hout _ (by omega)]; exact h.pro_hd
  · dsimp only
    rw [hout _ (by omega)]; exact h.pro_ft
  · dsimp only
    refine Tiles_append.2 ⟨?_, ?_⟩
    · rw [← hbrk]
      exact Tiles_congr (fun t ht => hout t (mem_tagAddrs_bounds h.tiles ht).2) h.tiles
    · rw [← hbrk]
      refine Tiles_cons.2 ⟨s16, s32, Nat.zero_le _, ?_, ?_, rfl⟩
      · rw [WRITE_w_other (by omega), WRITE_w_other (by omega), WRITE_w_same]
      · rw [WRITE_w_other (by omega), WRITE_w_same]
  · dsimp only
    rw [WRITE_w_same, Pack_w_epilogue]
  · dsimp only
    have hnode : ∀ y ∈ fl, y + 32 ≤ s.mem_brk := fun y hy => (h.toFrame.node h.sub hy).2.2
    have hr : ∀ t, (t = s.free_list ∨ t = s.free_list + 8) →
        WRITE_w (WRITE_w (WRITE_w s.mem (s.mem_brk - 8) (size + 0))
          (s.mem_brk + size - 16) (size + 0)) (s.mem_brk + size - 8) 1 t = s.mem t := by
      intro t ht
      rcases hro with h1 | h1
      · exact hout t (by omega)
      · exact hroot t (by omega)
    refine dll_congr ?_ ?_ h.links
    · intro y hy
      rcases List.mem_cons.1 hy with rfl | hy
      · exact hr _ (Or.inl rfl)
      · have := hnode y hy
        exact hout y (by omega)
    · intro y hy
      simp only [List.mem_append, List.mem_singleton] at hy
      rcases hy with hy | rfl
      · have := hnode y hy
        exact hout (y + 8) (by omega)
      · exact hr _ (Or.inr rfl)
  · intro y
    dsimp only
    rw [h.fl_mem y]
    simp [freeAddrs]

@[simp] theorem mem_request_start (s : Heap) (size : Nat) :
    (mem_request s size).1.mem_start = s.mem_start := by
  unfold mem_request mem_sbrk
  dsimp only
  split_ifs <;> simp only [coalesce_start]

@[simp] theorem mem_request_max (s : Heap) (size : Nat) :
    (mem_request s size).1.mem_max = s.mem_max := by
  unfold mem_request mem_sbrk
  dsimp only
  split_ifs <;> simp only [coalesce_max]

@[simp] theorem mem_request_bptr (s : Heap) (size : Nat) :
    (mem_request s size).1.heap_bptr = s.heap_bptr := by
  unfold mem_request mem_sbrk
  dsimp only
  split_ifs <;> simp only [coalesce_bptr]

@[simp] theorem mem_request_root (s : Heap) (size : Nat) :
    (mem_request s size).1.free_list = s.free_list := by
  unfold mem_request mem_sbrk
  dsimp only
  split_ifs <;> simp only [coalesce_root]

/-- The function `mem_request` when the host grants the growth: the result is
well formed, the returned pointer is the payload of a free block of at least
`size` bytes that ends the heap in its new extent, and the allocated blocks
are the same. -/
theorem mem_request_spec {s : Heap} {bs : List (Nat × Nat)} {fl : List Nat} {size : Nat}
    (h : WF s bs fl) (hg : s.mem_brk + size ≤ s.mem_max) (s16 : size % 16 = 0)
    (s32 : 32 ≤ size) :
    ∃ pre' S post' fl', WF (mem_request s size).1 (pre' ++ (S, 0) :: post') fl' ∧
      (mem_request s size).2 = s.mem_start + 32 + total pre' ∧
      (mem_request s size).1.mem_brk = s.mem_brk + size ∧
      liveBlocks (s.mem_start + 32) (pre' ++ (S, 0) :: post') = liveBlocks (s.mem_start + 32) bs ∧
      size ≤ S ∧ (mem_request s size).2 ≤ s.mem_brk ∧
      s.mem_brk + size ≤ (mem_request s size).2 + S ∧
      (∀ t, NL s.free_list fl t → t + 16 ≤ (mem_request s size).2 →
        (mem_request s size).1.mem t = s.mem t) := by
  have hbrk := h.brk_eq
  have hmax := h.max_lt
  obtain ⟨hc, hout⟩ := extend_wfc h hg s16 s32
  obtain ⟨pre', S, post', fl', e1, e2, e3, e4, e5, e6⟩ := coalesce_wf hc (p := s.mem_brk) hbrk
  rw [mem_request_exec hg s16 (by omega) (by omega)]
  refine ⟨pre', S, post', fl', e1, e2, ?_, ?_, by omega, e4, e5, ?_⟩
  · simp only [coalesce_brk]
  · rw [e3, liveBlocks_append, liveBlocks_free_cons, liveBlocks_nil, List.append_nil]
  · intro t ht hb
    rw [e6 t ht (Or.inl hb)]
    exact hout t (by omega)

/-! ## Payloads of allocated blocks -/

theorem InLive_append {a t : Nat} {l1 l2 : List (Nat × Nat)} :
    InLive a (l1 ++ l2) t ↔ InLive a l1 t ∨ InLive (a + total l1) l2 t := by
  unfold InLive
  rw [liveBlocks_append]
  constructor
  · rintro ⟨c, hc, h⟩
    rcases List.mem_append.1 hc with h1 | h1
    · exact Or.inl ⟨c, h1, h⟩
    · exact Or.inr ⟨c, h1, h⟩
  · rintro (⟨c, hc, h⟩ | ⟨c, hc, h⟩)
    · exact ⟨c, List.mem_append_left _ hc, h⟩
    · exact ⟨c, List.mem_append_right _ hc, h⟩

theorem InLive_free_cons {a sz t : Nat} {l : List (Nat × Nat)} :
    InLive a ((sz, 0) :: l) t ↔ InLive (a + sz) l t := by
  unfold InLive
  rw [liveBlocks_free_cons]

theorem InLive_live_cons {a sz al t : Nat} {l : List (Nat × Nat)} (h : al ≠ 0) :
    InLive a ((sz, al) :: l) t ↔ (a ≤ t ∧ t + 16 < a + sz) ∨ InLive (a + sz) l t := by
  unfold InLive
  rw [liveBlocks_live_cons _ h]
  simp only [List.mem_cons, exists_eq_or_imp]

theorem InLive_nil {a t : Nat} : ¬ InLive a [] t := by
  unfold InLive
  simp [liveBlocks]

theorem mem_liveBlocks_bounds {m : Nat → Nat} {bs : List (Nat × Nat)} {a e : Nat}
    {c : Nat × Nat} (h : Tiles m a bs e) (hc : c ∈ liveBlocks a bs) :
    a ≤ c.1 ∧ c.1 + c.2 ≤ e ∧ 32 ≤ c.2 ∧ c.2 % 16 = 0 ∧ c.1 % 16 = a % 16 ∧
      c.1 ∈ starts a bs ∧
      ∃ al, al ≠ 0 ∧ al ≤ 1 ∧ m (c.1 - 8) = c.2 + al ∧ m (c.1 + c.2 - 16) = c.2 + al := by
  obtain ⟨pre, al, post, rfl, hal, h2⟩ := mem_liveBlocks_split hc
  obtain ⟨h3, h4⟩ := Tiles_append.1 h
  rw [← h2] at h3 h4
  obtain ⟨a1, a2, a3, a4, a5, a6⟩ := Tiles_cons.1 h4
  have he := Tiles_end a6
  have hs : c.1 ∈ starts a (pre ++ (c.2, al) :: post) := by rw [h2]; exact mem_starts_mid
  have hb := mem_starts_bounds h hs
  exact ⟨by omega, by omega, a2, a1, hb.2.2, hs, al, hal, a3, a4, a5⟩

theorem InLive_range {m : Nat → Nat} {bs : List (Nat × Nat)} {a e t : Nat}
    (h : Tiles m a bs e) (ht : InLive a bs t) : a ≤ t ∧ t + 16 < e := by
  obtain ⟨c, hc, h1, h2⟩ := ht
  have := mem_liveBlocks_bounds h hc
  omega

theorem InLive_free_sep {m : Nat → Nat} {bs : List (Nat × Nat)} {a e t y : Nat}
    (h : Tiles m a bs e) (ht : InLive a bs t) (hy : y ∈ freeAddrs a bs) :
    t + 16 < y ∨ y + 32 ≤ t := by
  induction bs generalizing a with
  | nil => exact absurd ht InLive_nil
  | cons b bs ih =>
    obtain ⟨sz, al⟩ := b
    obtain ⟨a1, a2, a3, a4, a5, a6⟩ := Tiles_cons.1 h
    by_cases hal : al = 0
    · subst hal
      rw [InLive_free_cons] at ht
      simp only [freeAddrs, if_true, List.mem_cons] at hy
      rcases hy with rfl | hy
      · have := InLive_range a6 ht; omega
      · exact ih a6 ht hy
    · rw [InLive_live_cons hal] at ht
      rw [freeAddrs] at hy
      simp only [hal, if_false] at hy
      rcases ht with ht | ht
      · have := mem_freeAddrs_bounds a6 hy; omega
      · exact ih a6 ht hy

theorem InLive_outside_free {m : Nat → Nat} {pre post : List (Nat × Nat)} {a e r t p : Nat}
    (h : Tiles m a (pre ++ (r, 0) :: post) e) (ht : InLive a (pre ++ (r, 0) :: post) t)
    (hp : p = a + total pre) : t + 16 < p ∨ p + r ≤ t := by
  obtain ⟨h1, h2⟩ := Tiles_append.1 h
  rw [InLive_append, InLive_free_cons, ← hp] at ht
  rw [← hp] at h1 h2
  rcases ht with ht | ht
  · exact Or.inl (InLive_range h1 ht).2
  · exact Or.inr (InLive_range (Tiles_cons.1 h2).2.2.2.2.2 ht).1

/-- Payload words of allocated blocks are not link fields. -/
theorem InLive_NL {s : Heap} {bs : List (Nat × Nat)} {fl : List Nat} {t : Nat}
    (h : Frame s bs fl) (hfree : ∀ y ∈ fl, y ∈ freeAddrs (s.mem_start + 32) bs)
    (ht : InLive (s.mem_start + 32) bs t) : NL s.free_list fl t := by
  have hr := InLive_range h.tiles ht
  have h1 := h.root_out
  have h2 := h.brk_le
  refine ⟨by omega, by omega, fun y hy => ?_⟩
  have := InLive_free_sep h.tiles ht (hfree y hy)
  omega

theorem WF.live_NL {s : Heap} {bs : List (Nat × Nat)} {fl : List Nat} {t : Nat}
    (h : WF s bs fl) (ht : InLive (s.mem_start + 32) bs t) : NL s.free_list fl t :=
  InLive_NL h.toFrame (fun y hy => (h.fl_mem y).1 hy) ht

/-! ## malloc -/

theorem size_a_spec {n : Nat} (h1 : 0 < n) (h2 : n ≤ 2 ^ 64 - 32) :
    size_a n % 16 = 0 ∧ 32 ≤ size_a n ∧ n + 16 ≤ size_a n ∧ size_a n ≤ n + 31 := by
  unfold size_a align ALIGNMENT
  split_ifs with h
  · omega
  · have a1 : add64 n 16 = n + 16 := add64_eq (by omega)
    have a2 : sub64 (n + 16) 1 = n + 16 - 1 := sub64_eq (by omega) (by omega)
    have e : 16 * ((n + 16 - 1) / 16) < 2 ^ 64 := by omega
    have a3 : add64 (16 * ((n + 16 - 1) / 16)) (2 * 8) = 16 * ((n + 16 - 1) / 16) + 2 * 8 :=
      add64_eq (by omega)
    rw [a1, a2, Nat.mod_eq_of_lt e, a3]
    omega

/-- A node of the free list is the payload address of a free block, and the
size read from its header is the size of that block. -/
theorem WF.free_node {s : Heap} {bs : List (Nat × Nat)} {fl : List Nat} (h : WF s bs fl)
    {y : Nat} (hy : y ∈ fl) :
    ∃ pre r post, bs = pre ++ (r, 0) :: post ∧ y = s.mem_start + 32 + total pre ∧
      READ_w_SIZE s.mem (Compute_HD y) = r ∧ y ≠ 0 ∧ y ≠ s.free_list ∧ 32 ≤ r := by
  obtain ⟨pre, r, post, rfl, hp⟩ := mem_freeAddrs_split ((h.fl_mem y).1 hy)
  obtain ⟨⟨r16, r32, ha, hp16, hplo, hpr, hlt⟩, hhd, -⟩ := h.lframe.block_at hp
  have h1 := h.root_out
  have h2 := h.brk_le
  exact ⟨pre, r, post, rfl, hp, READ_size_tag hhd (by omega) ha (by omega) hlt, by omega,
    by omega, r32⟩

/-- Placement in either mode: the block at `p` becomes allocated with a size
between the request and the old size, and the allocated blocks after it are
the same. -/
theorem allocate_block_spec {s : Heap} {pre post : List (Nat × Nat)} {r size p : Nat}
    {fl : List Nat} (h : WF s (pre ++ (r, 0) :: post) fl)
    (hp : p = s.mem_start + 32 + total pre)
    (hs16 : size % 16 = 0) (hs32 : 32 ≤ size) (hsr : size ≤ r) :
    ∃ S post' fl', WF (allocate_block s p size) (pre ++ (S, 1) :: post') fl' ∧
      size ≤ S ∧ S ≤ r ∧ liveBlocks (p + S) post' = liveBlocks (p + r) post ∧
      (∀ t, NL s.free_list fl t → (t + 16 ≤ p ∨ p + r ≤ t + 8) →
        (allocate_block s p size).mem t = s.mem t) := by
  by_cases hc : size + 32 ≤ r
  · obtain ⟨fl1, fl2, -, hw, hfr⟩ := allocate_block_split h hp hs16 hs32 hc
    refine ⟨size, (r - size, 0) :: post, _, hw, le_refl _, hsr, ?_, hfr⟩
    rw [liveBlocks_free_cons]
    congr 1
    omega
  · obtain ⟨fl1, fl2, -, hw, hfr⟩ := allocate_block_whole h hp hsr (by omega)
    exact ⟨r, post, _, hw, hsr, le_refl _, rfl, hfr⟩

/-- The function `malloc` on a well-formed heap, with the scan replaced by
its result: the first node of the list that is large enough. -/
theorem malloc_eq {s : Heap} {bs : List (Nat × Nat)} {fl : List Nat} {fuel n : Nat}
    (h : WF s bs fl) (hf : fl.length < fuel) (hn : 0 < n) :
    malloc fuel s n =
      match fl.find? (fun y => decide (size_a n ≤ READ_w_SIZE s.mem (Compute_HD y))) with
      | some y => some (allocate_block s y (size_a n), y)
      | none =>
        if (mem_request s (size_a n)).2 ≠ 0 then
          some (allocate_block (mem_request s (size_a n)).1 (mem_request s (size_a n)).2
            (size_a n), (mem_request s (size_a n)).2)
        else some ((mem_request s (size_a n)).1, 0) := by
  have hroot : ∀ y ∈ fl, y ≠ s.free_list := fun y hy => by
    obtain ⟨_, _, _, _, _, _, _, e, _⟩ := h.free_node hy
    exact e
  unfold malloc
  rw [first_fit_spec h.links hroot hf, if_neg (by omega)]
  cases hfind : fl.find? (fun y => decide (size_a n ≤ READ_w_SIZE s.mem (Compute_HD y))) with
  | none => simp only [Option.getD_none, ne_eq, not_true_eq_false, if_false]
  | some y =>
    obtain ⟨_, _, _, _, _, _, e, _, _⟩ := h.free_node (List.mem_of_find?_eq_some hfind)
    simp only [Option.getD_some, ne_eq, e, not_false_eq_true, if_true]

/-- What `malloc` does on a well-formed heap for a request that does not
wrap: it returns, and either gives `NULL` and the state it was called in, or
the payload address of a block that is now allocated, with all other
allocated blocks and their payloads as they were. -/
theorem malloc_spec {s : Heap} {bs : List (Nat × Nat)} {fl : List Nat} {fuel n : Nat}
    (h : WF s bs fl) (hf : fl.length < fuel) (hn : 0 < n) (hn2 : n ≤ 2 ^ 64 - 32) :
    ∃ s' p, malloc fuel s n = some (s', p) ∧ s'.mem_start = s.mem_start ∧
      s'.mem_max = s.mem_max ∧ s'.free_list = s.free_list ∧ s.mem_brk ≤ s'.mem_brk ∧
      ((p = 0 ∧ s' = s) ∨
        ∃ pre S post fl', WF s' (pre ++ (S, 1) :: post) fl' ∧
          p = s.mem_start + 32 + total pre ∧ size_a n ≤ S ∧
          liveBlocks (s.mem_start + 32) bs =
            liveBlocks (s.mem_start + 32) pre ++ liveBlocks (p + S) post ∧
          ∀ t, InLive (s.mem_start + 32) bs t → s'.mem t = s.mem t) := by
  obtain ⟨z16, z32, -, -⟩ := size_a_spec hn hn2
  rw [malloc_eq h hf hn]
  cases hfind : fl.find? (fun y => decide (size_a n ≤ READ_w_SIZE s.mem (Compute_HD y))) with
  | some y =>
    obtain ⟨pre, r, post, rfl, hp, hr, -, -, -⟩ := h.free_node (List.mem_of_find?_eq_some hfind)
    have hsz : size_a n ≤ r := by
      have := List.find?_some hfind
      rw [hr] at this
      exact of_decide_eq_true this
    obtain ⟨S, post', fl', hw, e1, e2, e3, e4⟩ := allocate_block_spec h hp z16 z32 hsz
    refine ⟨_, _, rfl, allocate_block_start _ _ _, allocate_block_max _ _ _,
      allocate_block_root _ _ _, by rw [allocate_block_brk], Or.inr ⟨pre, S, post', fl', hw,
      hp, e1, ?_, ?_⟩⟩
    · rw [liveBlocks_append, liveBlocks_free_cons, e3, ← hp]
    · intro t ht
      have h1 := InLive_outside_free h.tiles ht hp
      exact e4 t (h.live_NL ht) (by omega)
  | none =>
    by_cases hg : s.mem_brk + size_a n ≤ s.mem_max
    · obtain ⟨pre, S0, post, fl1, hw1, hret, hbrk, hlive, hS0, hle, hend, hfr⟩ :=
        mem_request_spec h hg z16 z32
      have hp1 : (mem_request s (size_a n)).2 =
          (mem_request s (size_a n)).1.mem_start + 32 + total pre := by
        rw [hret, mem_request_start]
      have hne : (mem_request s (size_a n)).2 ≠ 0 := by omega
      obtain ⟨S, post', fl', hw, e1, e2, e3, e4⟩ := allocate_block_spec hw1 hp1 z16 z32 hS0
      refine ⟨_, _, if_pos hne, ?_, ?_, ?_, ?_, Or.inr ⟨pre, S, post', fl', hw, hret, e1,
        ?_, ?_⟩⟩
      · rw [allocate_block_start, mem_request_start]
      · rw [allocate_block_max, mem_request_max]
      · rw [allocate_block_root, mem_request_root]
      · rw [allocate_block_brk, hbrk]; omega
      · rw [← hlive, liveBlocks_append, liveBlocks_free_cons, e3, ← hret]
      · intro t ht
        have hr := InLive_range h.tiles ht
        have ht1 : InLive ((mem_request s (size_a n)).1.mem_start + 32)
            (pre ++ (S0, 0) :: post) t := by
          rw [mem_request_start]
          unfold InLive
          rw [hlive]
          exact ht
        have h1 := InLive_outside_free hw1.tiles ht1 hp1
        have h2 := hw1.live_NL ht1
        rw [e4 t h2 (by omega), hfr t (h.live_NL ht) (by omega)]
    · rw [mem_request_refused hg]
      exact ⟨s, 0, if_neg (by simp), rfl, rfl, rfl, le_refl _, Or.inl ⟨rfl, rfl⟩⟩

/-! ## mm_init -/

theorem mm_init_refused {s : Heap} (h : EmptyHeap s) (hg : ¬ s.mem_start + 32 ≤ s.mem_max) :
    mm_init s = ({ s with mem := FL_init s.mem s.free_list, heap_bptr := 0 }, false) := by
  have e : ¬ s.mem_brk + 4 * 8 ≤ s.mem_max := by rw [h.brk_eq]; omega
  unfold mm_init mem_sbrk
  simp only [e, if_false, if_true]

theorem mm_init_exec {s : Heap} (h : EmptyHeap s) (hg : s.mem_start + 32 ≤ s.mem_max) :
    ∃ s2 : Heap, s2 = { s with
        mem := (WRITE_w (WRITE_w (WRITE_w (WRITE_w (WRITE_w (WRITE_w s.mem s.free_list s.free_list)
          (s.free_list + 8) s.free_list) s.mem_start 0) (s.mem_start + 8) 17)
          (s.mem_start + 16) 17) (s.mem_start + 24) 1)
        mem_brk := s.mem_start + 32
        heap_bptr := s.mem_start + 16 } ∧
      mm_init s = if (mem_request s2 4096).2 = 0 then ((mem_request s2 4096).1, false)
        else ((mem_request s2 4096).1, true) := by
  refine ⟨_, rfl, ?_⟩
  have e : s.mem_brk + 4 * 8 ≤ s.mem_max := by rw [h.brk_eq]; omega
  have hlo := h.lo_pos
  have hmax := h.max_lt
  have hr := h.root_lt
  have e0 : s.mem_brk ≠ 0 := by rw [h.brk_eq]; omega
  have a1 : add64 s.mem_brk 8 = s.mem_start + 8 := by rw [h.brk_eq]; exact add64_eq (by omega)
  have a2 : add64 s.mem_brk (2 * 8) = s.mem_start + 16 := by
    rw [h.brk_eq]; exact add64_eq (by omega)
  have a3 : add64 s.mem_brk (3 * 8) = s.mem_start + 24 := by
    rw [h.brk_eq]; exact add64_eq (by omega)
  have a4 : add64 s.free_list 8 = s.free_list + 8 := add64_eq (by omega)
  have p1 : Pack_w (2 * 8) 1 = 17 := rfl
  have p2 : Pack_w 0 1 = 1 := rfl
  have c : (2 : Nat) ^ 12 = 4096 := rfl
  unfold mm_init mem_sbrk FL_init next_node prev_node
  simp only [e, if_true, e0, if_false, a1, a2, a3, a4, p1, p2, c]
  rw [h.brk_eq]

/-- The heap after the first growth request of `mm_init`: prologue and
epilogue, no block, an empty free list. -/
theorem mm_init_frame0 {s : Heap} (h : EmptyHeap s) (hg : s.mem_start + 32 ≤ s.mem_max) :
    WF { s with
        mem := (WRITE_w (WRITE_w (WRITE_w (WRITE_w (WRITE_w (WRITE_w s.mem s.free_list s.free_list)
          (s.free_list + 8) s.free_list) s.mem_start 0) (s.mem_start + 8) 17)
          (s.mem_start + 16) 17) (s.mem_start + 24) 1)
        mem_brk := s.mem_start + 32
        heap_bptr := s.mem_start + 16 } [] [] := by
  have hro := h.root_out
  have e1 : s.free_list ≠ s.mem_start + 24 := by omega
  have e2 : s.free_list ≠ s.mem_start + 16 := by omega
  have e3 : s.free_list ≠ s.mem_start + 8 := by omega
  have e4 : s.free_list ≠ s.mem_start := by omega
  have e5 : s.free_list ≠ s.free_list + 8 := by omega
  have f1 : s.free_list + 8 ≠ s.mem_start + 24 := by omega
  have f2 : s.free_list + 8 ≠ s.mem_start + 16 := by omega
  have f3 : s.free_list + 8 ≠ s.mem_start + 8 := by omega
  have f4 : s.free_list + 8 ≠ s.mem_start := by omega
  have g1 : s.mem_start + 8 ≠ s.mem_start + 24 := by omega
  have g2 : s.mem_start + 8 ≠ s.mem_start + 16 := by omega
  have g3 : s.mem_start + 16 ≠ s.mem_start + 24 := by omega
  have g4 : s.mem_start + 32 - 8 = s.mem_start + 24 := by omega
  refine { lo_pos := h.lo_pos, lo_al := h.lo_al, brk_le := hg, max_lt := h.max_lt,
           root_out := h.root_out, root_lt := h.root_lt, bptr := rfl,
           pro_hd := ?_, pro_ft := ?_, tiles := rfl, epi := ?_, links := ⟨?_, ?_⟩,
           nodup := List.nodup_nil, noadj := NoAdjFree_nil, fl_mem := ?_ }
  · dsimp only
    rw [WRITE_w_other g1, WRITE_w_other g2, WRITE_w_same]
    rfl
  · dsimp only
    rw [WRITE_w_other g3, WRITE_w_same]
    rfl
  · dsimp only
    rw [g4, WRITE_w_same]
    rfl
  · dsimp only
    rw [WRITE_w_other e1, WRITE_w_other e2, WRITE_w_other e3, WRITE_w_other e4,
      WRITE_w_other e5, WRITE_w_same]
  · dsimp only
    rw [WRITE_w_other f1, WRITE_w_other f2, WRITE_w_other f3, WRITE_w_other f4, WRITE_w_same]
  · intro x
    simp [freeAddrs]

/-- The function `mm_init` when the host grants both requests. -/
theorem mm_init_spec {s : Heap} (h : EmptyHeap s) (hg : s.mem_start + 32 + 4096 ≤ s.mem_max) :
    (mm_init s).2 = true ∧ WF (mm_init s).1 [(4096, 0)] [s.mem_start + 32] ∧
      (mm_init s).1.mem s.mem_start = 0 ∧ (mm_init s).1.mem_start = s.mem_start ∧
      (mm_init s).1.mem_max = s.mem_max ∧ (mm_init s).1.free_list = s.free_list ∧
      (mm_init s).1.mem_brk = s.mem_start + 4128 := by
  have hg0 : s.mem_start + 32 ≤ s.mem_max := by omega
  have hlo := h.lo_pos
  have hmax := h.max_lt
  have hro := h.root_out
  obtain ⟨s2, hs2, e⟩ := mm_init_exec h hg0
  have w0 : WF s2 [] [] := by rw [hs2]; exact mm_init_frame0 h hg0
  have b1 : s2.mem_start = s.mem_start := by rw [hs2]
  have b2 : s2.mem_brk = s.mem_start + 32 := by rw [hs2]
  have b3 : s2.mem_max = s.mem_max := by rw [hs2]
  have b4 : s2.free_list = s.free_list := by rw [hs2]
  have b5 : s2.mem s.mem_start = 0 := by
    rw [hs2]
    dsimp only
    rw [WRITE_w_other (by omega), WRITE_w_other (by omega), WRITE_w_other (by omega),
      WRITE_w_same]
  have hg2 : s2.mem_brk + 4096 ≤ s2.mem_max := by omega
  obtain ⟨hc, hout⟩ := extend_wfc w0 hg2 (by decide) (by decide)
  have hp : s2.mem_brk = s2.mem_start + 32 + total [] := by rw [b1, b2]; rfl
  obtain ⟨c1, c2, c3⟩ := coalesce_11 hc (p := s2.mem_brk) hp (by rw [lastAlloc_nil]; decide)
    (by rw [headAlloc_nil]; decide)
  have hx := mem_request_exec hg2 (by decide) (by omega) (by omega)
  rw [← hx] at c1 c2 c3
  dsimp only at c3
  have hne : (mem_request s2 4096).2 ≠ 0 := by omega
  rw [e, if_neg hne]
  refine ⟨rfl, ?_, ?_, ?_, ?_, ?_, ?_⟩
  · rw [b2] at c2
    exact c2
  · show (mem_request s2 4096).1.mem s.mem_start = 0
    rw [c3 s.mem_start ⟨by omega, by omega, fun y hy => by simp at hy⟩ (Or.inl (by omega)),
      hout s.mem_start (by omega)]
    exact b5
  · show (mem_request s2 4096).1.mem_start = _
    rw [mem_request_start, b1]
  · show (mem_request s2 4096).1.mem_max = _
    rw [mem_request_max, b3]
  · show (mem_request s2 4096).1.free_list = _
    rw [mem_request_root, b4]
  · show (mem_request s2 4096).1.mem_brk = _
    rw [hx, coalesce_brk]
    dsimp only
    omega

/-- The function `mm_init` fails exactly when the host refuses one of the two
growth requests: 32 bytes, then 4096 bytes. -/
theorem mm_init_false_iff {s : Heap} (h : EmptyHeap s) :
    (mm_init s).2 = false ↔
      (¬ s.mem_start + 32 ≤ s.mem_max ∨ ¬ s.mem_start + 32 + 4096 ≤ s.mem_max) := by
  by_cases hg0 : s.mem_start + 32 ≤ s.mem_max
  · by_cases hg : s.mem_start + 32 + 4096 ≤ s.mem_max
    · have := (mm_init_spec h hg).1
      simp [this, hg0, hg]
    · obtain ⟨s2, hs2, e⟩ := mm_init_exec h hg0
      have b2 : s2.mem_brk = s.mem_start + 32 := by rw [hs2]
      have b3 : s2.mem_max = s.mem_max := by rw [hs2]
      have hr : ¬ s2.mem_brk + 4096 ≤ s2.mem_max := by omega
      rw [e, mem_request_refused hr]
      simp [hg]
  · rw [mm_init_refused h hg0]
    simp [hg0]

/-! ## Sizes, tags and the list primitives -/

theorem size_a_wrap {n : Nat} (h1 : 2 ^ 64 - 32 < n) (h2 : n < 2 ^ 64) : size_a n ≤ 16 := by
  unfold size_a align ALIGNMENT add64 sub64
  split_ifs <;> omega

theorem mul64_test {a b : Nat} (ha : a ≠ 0) : mul64 a b / a ≠ b ↔ 2 ^ 64 ≤ a * b := by
  unfold mul64
  constructor
  · intro h
    by_contra hlt
    rw [Nat.mod_eq_of_lt (by omega), Nat.mul_div_cancel_left _ (Nat.pos_of_ne_zero ha)] at h
    exact h rfl
  · intro h e
    have h1 : a * (a * b % 2 ^ 64 / a) ≤ a * b % 2 ^ 64 := Nat.mul_div_le _ _
    rw [e] at h1
    have h2 : a * b % 2 ^ 64 < 2 ^ 64 := Nat.mod_lt _ (by norm_num)
    omega

theorem FL_insert_spec_eq {m : Nat → Nat} {root q f : Nat} (hf : m root = f)
    (hq : q + 8 < 2 ^ 64) (hf8 : f + 8 < 2 ^ 64) (h1 : root ≠ q) (h2 : root ≠ q + 8) :
    FL_insert_spec m root q =
      WRITE_w (WRITE_w (WRITE_w (WRITE_w m q f) (q + 8) root) (f + 8) q) root q := by
  unfold FL_insert_spec next_node prev_node READ_w
  dsimp only
  rw [add64_eq hq, hf]
  have e : WRITE_w (WRITE_w m q f) (q + 8) root root = f := by
    rw [WRITE_w_other h2, WRITE_w_other h1, hf]
  rw [e, add64_eq hf8]

/-- The first element of a circular list, or the sentinel itself when the
list is empty, points back to the sentinel. -/
theorem dll_first {m : Nat → Nat} {fl : List Nat} {root : Nat} (hd : dll m root fl root) :
    m (m root + 8) = root ∧ (m root = root ∨ m root ∈ fl) := by
  cases fl with
  | nil => exact ⟨by rw [hd.1]; exact hd.2, Or.inl hd.1⟩
  | cons x xs => exact ⟨by rw [hd.1]; exact hd.2.1, Or.inr (by rw [hd.1]; simp)⟩

/-- The disequalities between the fields of a new node, of the sentinel and
of the first element that the list primitives rely on. -/
theorem node_fields {m : Nat → Nat} {fl : List Nat} {q lo hi root : Nat}
    (hd : dll m root fl root) (hq : q ∉ fl)
    (hN : ∀ y ∈ q :: fl, y % 16 = 0 ∧ lo ≤ y ∧ y + 16 ≤ hi)
    (hR : root + 16 ≤ lo ∨ hi ≤ root) (hhi : hi < 2 ^ 64) (hroot : root + 16 ≤ 2 ^ 64) :
    q + 8 < 2 ^ 64 ∧ m root + 8 < 2 ^ 64 ∧ root ≠ q ∧ root ≠ q + 8 ∧ m root + 8 ≠ root ∧
      m root + 8 ≠ q ∧ m root + 8 ≠ q + 8 ∧ m (m root + 8) = root := by
  have hNq := hN q (by simp)
  obtain ⟨h1, h2⟩ := dll_first hd
  rcases h2 with h2 | h2
  · rw [h2]
    refine ⟨by omega, by omega, by omega, by omega, by omega, by omega, by omega, ?_⟩
    rw [← h2]; rw [h2] at h1 ⊢; exact h1
  · have hNf := hN _ (List.mem_cons_of_mem _ h2)
    have hne : m root ≠ q := fun e => hq (e ▸ h2)
    exact ⟨by omega, by omega, by omega, by omega, by omega, by omega, by omega, h1⟩

/-- The function `calloc` with its two guards replaced by what they decide. -/
theorem calloc_eq (fuel : Nat) (s : Heap) (nmemb size : Nat) :
    calloc fuel s nmemb size =
      if nmemb = 0 ∨ size = 0 ∨ 2 ^ 64 ≤ nmemb * size then some (s, 0)
      else
        (malloc fuel s (nmemb * size)).map (fun r =>
          if r.2 ≠ 0 then ({ r.1 with mem := memset r.1.mem r.2 0 (nmemb * size) }, r.2)
          else r) := by
  unfold calloc
  by_cases h0 : nmemb = 0 ∨ size = 0
  · rw [if_pos h0, if_pos (by tauto)]
  · rw [if_neg h0]
    have hn : nmemb ≠ 0 := fun e => h0 (Or.inl e)
    dsimp only
    by_cases hov : 2 ^ 64 ≤ nmemb * size
    · rw [if_pos ((mul64_test hn).2 hov), if_pos (by tauto)]
    · have e1 : ¬ mul64 nmemb size / nmemb ≠ size := fun h => hov ((mul64_test hn).1 h)
      have e2 : mul64 size nmemb = nmemb * size := by
        unfold mul64
        rw [Nat.mul_comm, Nat.mod_eq_of_lt (by omega)]
      rw [if_neg e1, if_neg (by tauto), e2]
      rcases malloc fuel s (nmemb * size) with _ | ⟨s1, p⟩
      · rfl
      · simp only [Option.map_some']
        split_ifs <;> rfl

/-! ## Well-formedness from decidable parts -/

theorem Frame_of_parts {s : Heap} {bs : List (Nat × Nat)} {fl : List Nat}
    (h1 : 0 < s.mem_start ∧ s.mem_start % 16 = 0 ∧ s.mem_brk ≤ s.mem_max ∧
      s.mem_max < 2 ^ 64 ∧ (s.free_list + 16 ≤ s.mem_start ∨ s.mem_max ≤ s.free_list) ∧
      s.free_list + 16 ≤ 2 ^ 64 ∧ s.heap_bptr = s.mem_start + 16)
    (h2 : s.mem (s.mem_start + 8) = Pack_w 16 1 ∧ s.mem (s.mem_start + 16) = Pack_w 16 1 ∧
      s.mem (s.mem_brk - 8) = Pack_w 0 1)
    (h3 : Tiles s.mem (s.mem_start + 32) bs s.mem_brk)
    (h4 : dll s.mem s.free_list fl s.free_list) (h5 : fl.Nodup) : Frame s bs fl :=
  { lo_pos := h1.1, lo_al := h1.2.1, brk_le := h1.2.2.1, max_lt := h1.2.2.2.1,
    root_out := h1.2.2.2.2.1, root_lt := h1.2.2.2.2.2.1, bptr := h1.2.2.2.2.2.2,
    pro_hd := h2.1, pro_ft := h2.2.1, tiles := h3, epi := h2.2.2, links := h4, nodup := h5 }

theorem noAdj_sound : ∀ {bs : List (Nat × Nat)}, noAdj bs = true → NoAdjFree bs
  | [], _ => List.chain'_nil
  | [_], _ => List.chain'_singleton _
  | b :: c :: bs, h => by
    simp only [noAdj, Bool.and_eq_true, Bool.not_eq_true', Bool.and_eq_false_imp,
      beq_iff_eq] at h
    refine List.chain'_cons.2 ⟨fun hbc => ?_, noAdj_sound h.2⟩
    have := h.1 hbc.1
    simp [hbc.2] at this

theorem WF_of_parts {s : Heap} {bs : List (Nat × Nat)} {fl : List Nat}
    (hF : Frame s bs fl) (h6 : noAdj bs = true)
    (h7 : (∀ x ∈ fl, x ∈ freeAddrs (s.mem_start + 32) bs) ∧
      ∀ x ∈ freeAddrs (s.mem_start + 32) bs, x ∈ fl) : WF s bs fl :=
  { toFrame := hF, noadj := noAdj_sound h6, fl_mem := fun x => ⟨h7.1 x, h7.2 x⟩ }

theorem WFc_of_parts {s : Heap} {pre post : List (Nat × Nat)} {sz : Nat} {fl : List Nat}
    (hF : Frame s (pre ++ (sz, 0) :: post) fl) (h6 : noAdj pre = true ∧ noAdj post = true)
    (h7 : (∀ x ∈ fl, x ∈ freeAddrs (s.mem_start + 32) pre ∨
        x ∈ freeAddrs (s.mem_start + 32 + total pre + sz) post) ∧
      (∀ x ∈ freeAddrs (s.mem_start + 32) pre, x ∈ fl) ∧
      ∀ x ∈ freeAddrs (s.mem_start + 32 + total pre + sz) post, x ∈ fl) :
    WFc s pre sz post fl :=
  { toFrame := hF, noadj_pre := noAdj_sound h6.1, noadj_post := noAdj_sound h6.2,
    fl_mem := fun x => ⟨h7.1 x, fun h => h.elim (h7.2.1 x) (h7.2.2 x)⟩ }

/-! ## The concrete heaps -/

theorem heap0_empty : EmptyHeap heap0 :=
  ⟨by decide, by decide, rfl, by decide, by decide, by decide⟩

theorem heap1_wf : WF heap1 [(4096, 0)] [4128] :=
  (mm_init_spec heap0_empty (by decide)).2.1

theorem heap2_wf : WF heap2 [(64, 1), (4032, 0)] [4192] :=
  WF_of_parts (Frame_of_parts (by decide) (by decide) (by decide) (by decide) (by decide))
    (by decide) (by decide)

theorem heap48_wf : WF heap48 [(48, 0), (32, 1), (4016, 0)] [4128, 4208] :=
  WF_of_parts (Frame_of_parts (by decide) (by decide) (by decide) (by decide) (by decide))
    (by decide) (by decide)

theorem heapABC_wfc : WFc heapABC [(32, 0)] 32 [(32, 0), (32, 1)] [4192, 4128] :=
  WFc_of_parts (Frame_of_parts (by decide) (by decide) (by decide) (by decide) (by decide))
    (by decide) (by decide)

theorem heapF_wf : WF heapF [(32, 0), (32, 1), (32, 1), (4000, 0)] [4128, 4224] :=
  WF_of_parts (Frame_of_parts (by decide) (by decide) (by decide) (by decide) (by decide))
    (by decide) (by decide)

theorem heapH_wf : WF heapH [(32, 1), (4064, 0)] [4160] :=
  WF_of_parts (Frame_of_parts (by decide) (by decide) (by decide) (by decide) (by decide))
    (by decide) (by decide)

theorem heapMt_wf : WF heapMt [(32, 1), (4064, 0)] [4160] :=
  WF_of_parts (Frame_of_parts (by decide) (by decide) (by decide) (by decide) (by decide))
    (by decide) (by decide)

/-! ## The bounds tests of `coalesce` and the scan of `mm_checkheap` -/

/-- On a framed heap the previous block of any block starts inside the
heap: the first test of `coalesce` passes. -/
theorem prev_test {s : Heap} {pre post : List (Nat × Nat)} {sz al : Nat} {fl : List Nat}
    (hF : Frame s (pre ++ (sz, al) :: post) fl) {p : Nat}
    (hp : p = s.mem_start + 32 + total pre) : mem_heap_lo s ≤ Compute_PVBP s.mem p := by
  obtain ⟨Tpre, Tmp⟩ := Tiles_append.1 hF.tiles
  have hbrk := Tiles_end Tmp
  have hmax := hF.max_lt
  have hble := hF.brk_le
  simp only [total] at hbrk
  rw [← hp] at Tpre hbrk
  unfold mem_heap_lo
  rcases List.eq_nil_or_concat pre with rfl | ⟨L, b, rfl⟩
  · simp only [total, Nat.add_zero] at hp
    have h1 : s.mem (p - 16) = 16 + 1 := by
      rw [hp]; exact hF.pro_ft
    rw [Compute_PVBP_eq h1 (by omega) (by omega) (by omega) (by omega) (by omega)]
    omega
  · obtain ⟨psz, pal⟩ := b
    rw [List.concat_eq_append] at Tpre hp
    obtain ⟨TL, Tb⟩ := Tiles_append.1 Tpre
    obtain ⟨a1, a2, a3, a4, a5, a6⟩ := Tiles_cons.1 Tb
    simp only [Tiles] at a6
    rw [total_append] at hp
    simp only [total, Nat.add_zero] at hp
    have hq : s.mem_start + 32 + total L = p - psz := by omega
    rw [hq] at a5
    have a5' : s.mem (p - 16) = psz + pal := by
      rw [← a5]; congr 1; omega
    rw [Compute_PVBP_eq a5' (by omega) a3 (by omega) (by omega) (by omega)]
    omega

/-- The allocated bit read from the previous block's footer, without the
bounds test. -/
theorem prev_direct_eq {s : Heap} {pre post : List (Nat × Nat)} {sz al : Nat} {fl : List Nat}
    (hF : Frame s (pre ++ (sz, al) :: post) fl) {p : Nat}
    (hp : p = s.mem_start + 32 + total pre) :
    READ_w_ALLOC s.mem (Compute_FT s.mem (Compute_PVBP s.mem p)) = lastAlloc pre := by
  have h := prev_alloc_eq hF hp
  rw [if_pos (prev_test hF hp)] at h
  exact h

/-- The allocated bit read from the next block's header, without the bounds
test: past the last block it is the bit of the epilogue. -/
theorem next_direct_eq {s : Heap} {pre post : List (Nat × Nat)} {sz al : Nat} {fl : List Nat}
    (hF : Frame s (pre ++ (sz, al) :: post) fl) {p : Nat}
    (hp : p = s.mem_start + 32 + total pre) :
    READ_w_ALLOC s.mem (Compute_HD (Compute_NXBP s.mem p)) = headAlloc post := by
  obtain ⟨Tpre, Tmp⟩ := Tiles_append.1 hF.tiles
  rw [← hp] at Tmp
  obtain ⟨a1, a2, a3, a4, a5, a6⟩ := Tiles_cons.1 Tmp
  have hbrk := Tiles_end a6
  have hmax := hF.max_lt
  have hble := hF.brk_le
  have e1 : Compute_NXBP s.mem p = p + sz :=
    Compute_NXBP_eq a4 (by omega) a3 (by omega) (by omega)
  rw [e1, Compute_HD_eq (by omega) (by omega)]
  cases post with
  | nil =>
    simp only [total, Nat.add_zero] at hbrk
    have he : s.mem (p + sz - 8) = 0 + 1 := by
      rw [← hbrk]; exact hF.epi
    rw [READ_w_ALLOC_of he (by omega) (by omega)]
    rfl
  | cons b post =>
    obtain ⟨nsz, nal⟩ := b
    obtain ⟨b1, b2, b3, b4, b5, b6⟩ := Tiles_cons.1 a6
    rw [READ_w_ALLOC_of b4 (by omega) b3]
    rfl

theorem aligned_of {a : Nat} (h : a % 16 = 0) (hlt : a + 16 < 2 ^ 64) : aligned a = true := by
  unfold aligned align ALIGNMENT add64 sub64
  simp only [decide_eq_true_eq]
  omega

/-- The scan of `mm_checkheap` over a tiled run of blocks ends at the word
after the run, when that word has size 0. -/
theorem checkheap_loop_tiles {m : Nat → Nat} {bs : List (Nat × Nat)} {a e fuel : Nat}
    (h : Tiles m a bs e) (ha : a % 16 = 0) (h8 : 8 ≤ a) (he : e < 2 ^ 64)
    (hz : READ_w_SIZE m (e - 8) = 0) (hf : bs.length < fuel) :
    checkheap_loop m fuel a = some (some e) := by
  induction bs generalizing a fuel with
  | nil =>
    obtain ⟨k, rfl⟩ : ∃ k, fuel = k + 1 := ⟨fuel - 1, by simp at hf; omega⟩
    have hae : a = e := h
    subst hae
    rw [checkheap_loop, Compute_HD_eq h8 (by omega), hz]
    simp
  | cons b bs ih =>
    obtain ⟨k, rfl⟩ : ∃ k, fuel = k + 1 := ⟨fuel - 1, by simp at hf; omega⟩
    obtain ⟨sz, al⟩ := b
    obtain ⟨a1, a2, a3, a4, a5, a6⟩ := Tiles_cons.1 h
    have hend := Tiles_end a6
    have hsz : READ_w_SIZE m (Compute_HD a) = sz :=
      READ_size_tag a4 (by omega) a3 h8 (by omega)
    have hnx : Compute_NXBP m a = a + sz :=
      Compute_NXBP_eq a4 (by omega) a3 h8 (by omega)
    rw [checkheap_loop, hsz, if_pos (by omega), aligned_of ha (by omega), hnx,
      if_neg (by simp)]
    exact ih a6 (by omega) (by omega) (by simp at hf; omega)

/-- With `DEBUG`, `mm_checkheap` called with a non-zero line number returns
`false` on every well-formed heap: the tests that follow the loop run once,
for the address the scan ends at, and that address is past `mem_heap_hi`. -/
theorem mm_checkheap_wf {s : Heap} {bs : List (Nat × Nat)} {fl : List Nat} {fuel : Nat}
    {lineno : Int} (h : Frame s bs fl) (hl : lineno ≠ 0) (hf : bs.length + 1 < fuel) :
    mm_checkheap fuel s lineno = some false := by
  have hlo := h.lo_pos
  have hal := h.lo_al
  have hmax := h.max_lt
  have hble := h.brk_le
  have hbrk := h.brk_eq
  have hph : s.mem (s.mem_start + 16 - 8) = 16 + 1 := by
    rw [show s.mem_start + 16 - 8 = s.mem_start + 8 from by omega]; exact h.pro_hd
  have hpf : s.mem (s.mem_start + 16) = 16 + 1 := h.pro_ft
  have hep : s.mem (s.mem_brk - 8) = 0 + 1 := h.epi
  have e1 : Compute_HD (s.mem_start + 16) = s.mem_start + 8 := by
    rw [Compute_HD_eq (by omega) (by omega)]; omega
  have hph' : s.mem (s.mem_start + 8) = 16 + 1 := h.pro_hd
  have e2 : READ_w_SIZE s.mem (s.mem_start + 8) = 16 :=
    READ_w_SIZE_of hph' (by omega) (by omega) (by omega)
  have e3 : READ_w_ALLOC s.mem (s.mem_start + 8) = 1 :=
    READ_w_ALLOC_of hph' (by omega) (by omega)
  have e4 : Compute_FT s.mem (s.mem_start + 16) = s.mem_start + 16 := by
    rw [Compute_FT_eq hph (by omega) (by omega) (by omega) (by omega) (by omega)]; omega
  have e5 : Compute_NXBP s.mem (s.mem_start + 16) = s.mem_start + 32 := by
    rw [Compute_NXBP_eq hph (by omega) (by omega) (by omega) (by omega)]
  have hz : READ_w_SIZE s.mem (s.mem_brk - 8) = 0 :=
    READ_w_SIZE_of hep (by omega) (by omega) (by omega)
  obtain ⟨k, rfl⟩ : ∃ k, fuel = k + 1 := ⟨fuel - 1, by omega⟩
  have hloop : checkheap_loop s.mem (k + 1) (s.mem_start + 16) = some (some s.mem_brk) := by
    rw [checkheap_loop, e1, e2, if_pos (by omega), aligned_of (by omega) (by omega), e5,
      if_neg (by simp)]
    exact checkheap_loop_tiles h.tiles (by omega) (by omega) (by omega) hz (by omega)
  have hin : in_heap s s.mem_brk = false := by
    unfold in_heap mem_heap_hi
    rw [sub64_eq (by omega) (by omega)]
    simp only [decide_eq_false_iff_not, not_and]
    omega
  unfold mm_checkheap
  dsimp only
  rw [h.bptr, if_pos hl, e1, e2, e3, e4]
  unfold READ_w
  rw [hph', hpf, hloop]
  simp only [hin]
  simp

/-! ## Fuel, stores into payloads, and the live blocks across `free` -/ 

theorem first_fit_loop_mono {m : Nat → Nat} {root size fuel p r : Nat} (k : Nat)
    (h : first_fit_loop m root size fuel p = some r) :
    first_fit_loop m root size (fuel + k) p = some r := by
  induction fuel generalizing p with
  | zero => simp [first_fit_loop] at h
  | succ f ih =>
    rw [Nat.add_right_comm]
    rw [first_fit_loop] at h ⊢
    split_ifs at h ⊢ with h1 h2
    · exact h
    · exact h
    · exact ih h

theorem first_fit_mono {s : Heap} {size fuel r : Nat} (k : Nat)
    (h : first_fit fuel s size = some r) : first_fit (fuel + k) s size = some r :=
  first_fit_loop_mono k h

/-- More fuel does not change a result of `malloc`. -/
theorem malloc_mono {s : Heap} {n fuel : Nat} {x : Heap × Nat} (k : Nat)
    (h : malloc fuel s n = some x) : malloc (fuel + k) s n = some x := by
  unfold malloc at h ⊢
  split_ifs at h ⊢ with h0
  · exact h
  · cases hff : first_fit fuel s (size_a n) with
    | none => rw [hff] at h; exact absurd h (by simp)
    | some ptr =>
      rw [hff] at h
      rw [first_fit_mono k hff]
      exact h

/-- More fuel does not change a result of `realloc`. -/
theorem realloc_mono {s : Heap} {p n fuel : Nat} {x : Heap × Nat} (k : Nat)
    (h : realloc fuel s p n = some x) : realloc (fuel + k) s p n = some x := by
  unfold realloc at h ⊢
  by_cases h0 : p = 0
  · rw [if_pos h0] at h ⊢
    exact malloc_mono k h
  · rw [if_neg h0] at h ⊢
    by_cases h1 : n = 0
    · rw [if_pos h1] at h ⊢
      exact h
    · rw [if_neg h1] at h ⊢
      dsimp only at h ⊢
      by_cases h2 : n ≤ sub64 (READ_w_SIZE s.mem (Compute_HD p)) (2 * 8)
      · rw [if_pos h2] at h ⊢
        exact h
      · rw [if_neg h2] at h ⊢
        cases hm : malloc fuel s n with
        | none => rw [hm] at h; exact absurd h (by simp)
        | some y =>
          rw [hm] at h
          rw [malloc_mono k hm]
          exact h

theorem tag_not_InLive {m : Nat → Nat} {bs : List (Nat × Nat)} {a e t : Nat}
    (h : Tiles m a bs e) (h8 : 8 ≤ a) (ht : t ∈ tagAddrs a bs) : ¬ InLive a bs t := by
  induction bs generalizing a with
  | nil => exact InLive_nil
  | cons b bs ih =>
    obtain ⟨sz, al⟩ := b
    obtain ⟨a1, a2, a3, a4, a5, a6⟩ := Tiles_cons.1 h
    simp only [tagAddrs, List.mem_cons] at ht
    intro hin
    have hrest : InLive (a + sz) bs t → a + sz ≤ t := fun hr => (InLive_range a6 hr).1
    have hfirst : (a ≤ t ∧ t + 16 < a + sz) ∨ InLive (a + sz) bs t := by
      by_cases hal : al = 0
      · subst hal
        exact Or.inr (InLive_free_cons.1 hin)
      · exact (InLive_live_cons hal).1 hin
    rcases ht with rfl | rfl | ht
    · rcases hfirst with hf | hf
      · omega
      · have := hrest hf; omega
    · rcases hfirst with hf | hf
      · omega
      · have := hrest hf; omega
    · have hb := mem_tagAddrs_bounds a6 ht
      rcases hfirst with hf | hf
      · omega
      · exact ih a6 (by omega) ht hf

/-- Stores into the payloads of allocated blocks keep the heap well formed. -/
theorem WF.store {s : Heap} {bs : List (Nat × Nat)} {fl : List Nat} (h : WF s bs fl)
    (m' : Nat → Nat) (hm : ∀ t, ¬ InLive (s.mem_start + 32) bs t → m' t = s.mem t) :
    WF { s with mem := m' } bs fl := by
  have hble := h.brk_le
  have hbrk := h.brk_eq
  have hNL : ∀ t, ¬ NL s.free_list fl t → m' t = s.mem t :=
    fun t ht => hm t (fun hin => ht (h.live_NL hin))
  have hr : ∀ t, InLive (s.mem_start + 32) bs t → s.mem_start + 32 ≤ t ∧ t + 16 < s.mem_brk :=
    fun t ht => InLive_range h.tiles ht
  refine { toFrame := h.toFrame.update m' ?_ ?_ ?_ ?_ ?_ h.nodup, noadj := h.noadj,
           fl_mem := h.fl_mem }
  · exact hm _ (fun hin => by have := hr _ hin; omega)
  · exact hm _ (fun hin => by have := hr _ hin; omega)
  · exact Tiles_congr (fun t ht => hm t (tag_not_InLive h.tiles (by omega) ht)) h.tiles
  · exact hm _ (fun hin => by have := hr _ hin; omega)
  · refine dll_congr (fun y hy => hNL y ?_) (fun y hy => hNL (y + 8) ?_) h.links
    · rcases List.mem_cons.1 hy with rfl | hy
      · exact fun hn => hn.1 rfl
      · exact fun hn => (hn.2.2 y hy).1 rfl
    · rcases List.mem_append.1 hy with hy | hy
      · exact fun hn => (hn.2.2 y hy).2 rfl
      · rw [List.mem_singleton.1 hy]
        exact fun hn => hn.2.1 rfl

/-- What a live pointer is: the payload address of an allocated block. -/
theorem WF.live_block {s : Heap} {bs : List (Nat × Nat)} {fl : List Nat} (h : WF s bs fl)
    {p : Nat} (hp : p ∈ liveAddrs (s.mem_start + 32) bs) :
    ∃ pre sz post, bs = pre ++ (sz, 1) :: post ∧ p = s.mem_start + 32 + total pre ∧
      READ_w_SIZE s.mem (Compute_HD p) = sz ∧ READ_w_ALLOC s.mem (Compute_HD p) = 1 ∧
      p % 16 = 0 ∧ 32 ≤ sz ∧ sz % 16 = 0 ∧ p + sz ≤ s.mem_brk ∧ p + sz < 2 ^ 64 ∧
      p ∉ liveAddrs (s.mem_start + 32) pre := by
  obtain ⟨pre, sz, al, post, rfl, hal, hq⟩ := mem_liveAddrs_split hp
  obtain ⟨⟨r16, r32, ha, hp16, hplo, hpr, hlt⟩, hhd, -, Tpre, -⟩ := h.lframe.block_at hq
  have hal1 : al = 1 := by omega
  subst hal1
  refine ⟨pre, sz, post, rfl, hq, READ_size_tag hhd (by omega) ha (by omega) hlt, ?_, hp16,
    r32, r16, hpr, hlt, fun hin => ?_⟩
  · rw [Compute_HD_eq (by omega) (by omega)]
    exact READ_w_ALLOC_of hhd (by omega) ha
  · have := mem_liveAddrs_bounds Tpre hin
    omega

theorem liveAddrs_mid {a sz : Nat} {pre post : List (Nat × Nat)} :
    liveAddrs a (pre ++ (sz, 1) :: post) =
      liveAddrs a pre ++ (a + total pre) :: liveAddrs (a + total pre + sz) post := by
  rw [liveAddrs_append]
  simp [liveAddrs]

/-- The function `free` on a live pointer of a well-formed heap: the heap stays
well formed, the live pointers are the old ones without `p`, the payloads of
the blocks that stay allocated keep their contents, and the block of `p` is
part of a free block that is in the free list. -/
theorem free_live {s : Heap} {bs : List (Nat × Nat)} {fl : List Nat} (h : WF s bs fl)
    {p : Nat} (hp : p ∈ liveAddrs (s.mem_start + 32) bs) :
    ∃ bs' fl', WF (free s p) bs' fl' ∧
      liveAddrs (s.mem_start + 32) bs' = (liveAddrs (s.mem_start + 32) bs).erase p ∧
      (∀ c, c ∈ liveBlocks (s.mem_start + 32) bs → c.1 ≠ p →
        c ∈ liveBlocks (s.mem_start + 32) bs') ∧
      (∀ t, InLive (s.mem_start + 32) bs' t → (free s p).mem t = s.mem t) ∧
      ∃ q S, q ∈ fl' ∧ q ≤ p ∧ p + READ_w_SIZE s.mem (Compute_HD p) ≤ q + S ∧
        READ_w_SIZE (free s p).mem (Compute_HD q) = S ∧
        READ_w_ALLOC (free s p).mem (Compute_HD q) = 0 := by
  obtain ⟨pre, sz, post, rfl, hq, hsz, -, -, -, -, -, -, hnot⟩ := h.live_block hp
  obtain ⟨pre', S, post', fl', q, hw, e2, e3, e4, e5, e6⟩ := free_spec h (by decide) hq
  have hlb : liveBlocks (s.mem_start + 32) (pre ++ (sz, 1) :: post) =
      liveBlocks (s.mem_start + 32) pre ++ (p, sz) :: liveBlocks (p + sz) post := by
    rw [liveBlocks_append, liveBlocks_live_cons _ (by decide), ← hq]
  have hsub : ∀ t, InLive (s.mem_start + 32) (pre' ++ (S, 0) :: post') t →
      InLive (s.mem_start + 32) (pre ++ (sz, 1) :: post) t := by
    rintro t ⟨c, hc, hct⟩
    refine ⟨c, ?_, hct⟩
    rw [e3] at hc
    rw [hlb]
    rcases List.mem_append.1 hc with hc | hc
    · exact List.mem_append_left _ hc
    · exact List.mem_append_right _ (List.mem_cons_of_mem _ hc)
  have hw' : WF (free s p) (pre' ++ (S, 0) :: post') fl' := hw
  have hq' : q = (free s p).mem_start + 32 + total pre' := by rw [free_start]; exact e2
  obtain ⟨⟨r16, r32, ha, hp16, hplo, hpr, hlt⟩, hhd, -⟩ := hw'.lframe.block_at hq'
  refine ⟨_, fl', hw, ?_, ?_, ?_, q, S, ?_, e4, by rw [hsz]; exact e5, ?_, ?_⟩
  · rw [liveAddrs_eq_map, e3, liveAddrs_mid, ← hq, List.erase_append_right _ hnot,
      List.erase_cons_head, List.map_append, ← liveAddrs_eq_map, ← liveAddrs_eq_map]
  · intro c hc hne
    rw [e3]
    rw [hlb] at hc
    rcases List.mem_append.1 hc with hc | hc
    · exact List.mem_append_left _ hc
    · rcases List.mem_cons.1 hc with rfl | hc
      · exact absurd rfl hne
      · exact List.mem_append_right _ hc
  · intro t ht
    have h1 := InLive_outside_free hw.tiles (by rw [free_start]; exact ht) hq'
    exact e6 t (h.live_NL (hsub t ht)) (by omega)
  · exact (hw.fl_mem q).2 (by rw [hq']; exact mem_freeAddrs_mid)
  · exact READ_size_tag hhd (by omega) ha (by omega) hlt
  · rw [Compute_HD_eq (by omega) (by omega)]
    exact READ_w_ALLOC_of hhd (by omega) ha

/-! ## realloc -/

theorem mem_liveAddrs_iff {a p : Nat} {bs : List (Nat × Nat)} :
    p ∈ liveAddrs a bs ↔ ∃ sz, (p, sz) ∈ liveBlocks a bs := by
  rw [liveAddrs_eq_map, List.mem_map]
  constructor
  · rintro ⟨c, hc, rfl⟩
    exact ⟨c.2, hc⟩
  · rintro ⟨sz, h⟩
    exact ⟨(p, sz), h, rfl⟩

/-- The tags of an allocated block, read back from the memory. -/
theorem liveBlocks_tag {m : Nat → Nat} {bs : List (Nat × Nat)} {a e : Nat} {c : Nat × Nat}
    (h : Tiles m a bs e) (h8 : 8 ≤ a) (he : e < 2 ^ 64) (hc : c ∈ liveBlocks a bs) :
    READ_w_SIZE m (Compute_HD c.1) = c.2 ∧ READ_w_ALLOC m (Compute_HD c.1) = 1 := by
  obtain ⟨b1, b2, b3, b4, b5, b6, al, c1, c2, c3, c4⟩ := mem_liveBlocks_bounds h hc
  have hal : al = 1 := by omega
  subst hal
  rw [Compute_HD_eq (by omega) (by omega)]
  exact ⟨READ_w_SIZE_of c3 (by omega) c2 (by omega), READ_w_ALLOC_of c3 (by omega) c2⟩

theorem perm_insert_live {a S p : Nat} {pre post bs : List (Nat × Nat)} {L : List Nat}
    (hp : p = a + total pre)
    (hl : liveBlocks a bs = liveBlocks a pre ++ liveBlocks (p + S) post)
    (hL : L.Perm (liveAddrs a bs)) : (p :: L).Perm (liveAddrs a (pre ++ (S, 1) :: post)) := by
  rw [liveAddrs_mid, ← hp]
  refine List.Perm.trans ?_ List.perm_middle.symm
  refine List.Perm.cons _ ?_
  rw [liveAddrs_eq_map, hl, List.map_append, ← liveAddrs_eq_map, ← liveAddrs_eq_map] at hL
  exact hL

theorem memcpy_word {m : Nat → Nat} {q p c k : Nat} (hk : k < c) (hk8 : k % 8 = 0)
    (hc8 : c % 8 = 0) : memcpy m q p c (q + k) = m (p + k) := by
  unfold memcpy
  have e : q + k - q = k := by omega
  rw [if_pos ⟨by omega, by omega, by omega⟩, if_pos (by omega), e]

theorem memcpy_outside {m : Nat → Nat} {q p c t : Nat} (h : ¬ (q ≤ t ∧ t < q + c)) :
    memcpy m q p c t = m t := by
  unfold memcpy
  rw [if_neg (fun hc => h ⟨hc.1, hc.2.1⟩)]

theorem realloc_null (fuel : Nat) (s : Heap) (n : Nat) : realloc fuel s 0 n = malloc fuel s n := by
  unfold realloc
  rw [if_pos rfl]

theorem realloc_zero (fuel : Nat) (s : Heap) {p : Nat} (hp : p ≠ 0) :
    realloc fuel s p 0 = some (free s p, 0) := by
  unfold realloc
  rw [if_neg hp, if_pos rfl]

theorem realloc_fits (fuel : Nat) (s : Heap) {p n sz : Nat} (hp : p ≠ 0) (hn : n ≠ 0)
    (hsz : READ_w_SIZE s.mem (Compute_HD p) = sz) (h16 : 16 ≤ sz) (hlt : sz < 2 ^ 64)
    (hfit : n + 16 ≤ sz) : realloc fuel s p n = some (s, p) := by
  unfold realloc
  rw [if_neg hp, if_neg hn]
  dsimp only
  rw [hsz, sub64_eq (by omega) hlt, if_pos (by omega)]

theorem realloc_grows {fuel : Nat} {s s1 : Heap} {p n sz q : Nat} (hp : p ≠ 0)
    (hsz : READ_w_SIZE s.mem (Compute_HD p) = sz) (h16 : 16 ≤ sz) (hlt : sz < 2 ^ 64)
    (hbig : sz < n + 16) (hm : malloc fuel s n = some (s1, q)) :
    realloc fuel s p n =
      some (if q = 0 then (s1, 0)
        else (free { s1 with mem := memcpy s1.mem q p (sz - 16) } p, q)) := by
  unfold realloc
  rw [if_neg hp, if_neg (by omega)]
  dsimp only
  rw [hsz, sub64_eq (by omega) hlt, if_neg (by omega), hm]
  dsimp only
  have e : (if n < sz - 2 * 8 then n else sz - 2 * 8) = sz - 16 := if_neg (by omega)
  rw [e]
  by_cases hq : q = 0
  · rw [if_pos hq, if_pos hq]
  · rw [if_neg hq, if_neg hq]

/-! ## realloc to a larger size -/

/-- The copy that `realloc` makes is a store into the payload of the new
block. -/
theorem memcpy_store {s : Heap} {bs : List (Nat × Nat)} {fl : List Nat} (h : WF s bs fl)
    {q S p c : Nat} (hq : (q, S) ∈ liveBlocks (s.mem_start + 32) bs) (hc : c + 16 < S) :
    WF { s with mem := memcpy s.mem q p c } bs fl := by
  refine h.store _ (fun t ht => memcpy_outside (fun hin => ht ⟨(q, S), hq, hin.1, ?_⟩))
  have := hin.2
  show t + 16 < q + S
  omega

/-- A growing `realloc` on a well-formed heap, for a live pointer `p` whose
block has size `sz` and a request `n` beyond its payload: either `malloc`
failed and nothing changed, or the result `q` is a new allocated block that
holds the old payload, and the old block is free. -/
theorem realloc_grow_spec {s : Heap} {bs : List (Nat × Nat)} {fl : List Nat} {fuel p n sz : Nat}
    (h : WF s bs fl) (hf : fl.length < fuel) (hp : p ∈ liveAddrs (s.mem_start + 32) bs)
    (hsz : READ_w_SIZE s.mem (Compute_HD p) = sz) (hbig : sz < n + 16)
    (hn2 : n ≤ 2 ^ 64 - 32) :
    ∃ s' q, realloc fuel s p n = some (s', q) ∧ s'.mem_start = s.mem_start ∧
      s'.mem_max = s.mem_max ∧ s'.free_list = s.free_list ∧
      ((q = 0 ∧ s' = s) ∨
        (q ≠ 0 ∧ q ≠ p ∧ q % 16 = 0 ∧ ∃ bs' fl', WF s' bs' fl' ∧
          (liveAddrs (s.mem_start + 32) bs').Perm
            (q :: (liveAddrs (s.mem_start + 32) bs).erase p) ∧
          READ_w_ALLOC s'.mem (Compute_HD q) = 1 ∧ n + 16 ≤ READ_w_SIZE s'.mem (Compute_HD q) ∧
          (∀ k, k < sz - 16 → k % 8 = 0 → s'.mem (q + k) = s.mem (p + k)) ∧
          ∃ q' S', q' ∈ fl' ∧ q' ≤ p ∧ p + sz ≤ q' + S' ∧
            READ_w_SIZE s'.mem (Compute_HD q') = S' ∧
            READ_w_ALLOC s'.mem (Compute_HD q') = 0)) := by
  obtain ⟨pre, sz0, post, hbs, hpq, hsz0, -, p16, s32, s16, hpb, hplt, -⟩ := h.live_block hp
  rw [hsz] at hsz0
  subst hsz0
  have hp0 : p ≠ 0 := by omega
  have hpl : (p, sz) ∈ liveBlocks (s.mem_start + 32) bs := by
    rw [hbs, liveBlocks_append, liveBlocks_live_cons _ (by decide), ← hpq]
    exact List.mem_append_right _ (List.mem_cons_self _ _)
  obtain ⟨z16, z32, zn, -⟩ := size_a_spec (by omega) hn2
  obtain ⟨s1, q, hm, m1, m2, m3, -, hcases⟩ := malloc_spec h hf (by omega) hn2
  rw [realloc_grows hp0 hsz (by omega) (by omega) hbig hm]
  rcases hcases with ⟨hq0, hs1⟩ | ⟨pre1, S, post1, fl1, hw1, hq, hS, hlive, hfr⟩
  · subst hq0 hs1
    exact ⟨_, _, rfl, rfl, rfl, rfl, Or.inl ⟨rfl, rfl⟩⟩
  · have hq0 : q ≠ 0 := by omega
    rw [if_neg hq0]
    have hq1 : q = s1.mem_start + 32 + total pre1 := by rw [m1]; exact hq
    obtain ⟨⟨-, -, -, hq16, hqlo, hqb, hqlt⟩, -, -, Tpre1, Tpost1, -⟩ := hw1.lframe.block_at hq1
    have hlb1 : liveBlocks (s1.mem_start + 32) (pre1 ++ (S, 1) :: post1) =
        liveBlocks (s.mem_start + 32) pre1 ++ (q, S) :: liveBlocks (q + S) post1 := by
      rw [m1, liveBlocks_append, liveBlocks_live_cons _ (by decide), ← hq]
    have hqS : (q, S) ∈ liveBlocks (s1.mem_start + 32) (pre1 ++ (S, 1) :: post1) := by
      rw [hlb1]
      exact List.mem_append_right _ (List.mem_cons_self _ _)
    have hold : ∀ c, c ∈ liveBlocks (s.mem_start + 32) bs →
        c ∈ liveBlocks (s1.mem_start + 32) (pre1 ++ (S, 1) :: post1) ∧
          (c.1 + 32 ≤ q ∨ q + S ≤ c.1) := by
      intro c hc
      rw [hlive] at hc
      rw [hlb1]
      rcases List.mem_append.1 hc with hc | hc
      · have := mem_liveBlocks_bounds (by rw [← m1]; exact Tpre1) hc
        exact ⟨List.mem_append_left _ hc, by omega⟩
      · have := mem_liveBlocks_bounds Tpost1 hc
        exact ⟨List.mem_append_right _ (List.mem_cons_of_mem _ hc), by omega⟩
    have hne : q ≠ p := by
      have := (hold _ hpl).2
      simp only at this
      omega
    have hw2 := @memcpy_store _ _ _ hw1 q S p (sz - 16) hqS (by omega)
    have hp2 : p ∈ liveAddrs (s1.mem_start + 32) (pre1 ++ (S, 1) :: post1) :=
      mem_liveAddrs_iff.2 ⟨sz, (hold _ hpl).1⟩
    obtain ⟨bs', fl', hw3, e1, e2, e3, q', S', f1, f2, f3, f4, f5⟩ := free_live hw2 hp2
    have hbrk2 := hw2.brk_le
    have hmax2 := hw2.max_lt
    have hsz2 : READ_w_SIZE (memcpy s1.mem q p (sz - 16)) (Compute_HD p) = sz :=
      (liveBlocks_tag hw2.tiles (by omega) (by omega) (hold _ hpl).1).1
    have hqS' : (q, S) ∈ liveBlocks (s.mem_start + 32) bs' := by
      have := e2 (q, S) hqS hne
      rw [m1] at this
      exact this
    have hbrk3 := hw3.brk_le
    have hmax3 := hw3.max_lt
    have hlo3 := hw3.lo_pos
    have T3 : Tiles (free { s1 with mem := memcpy s1.mem q p (sz - 16) } p).mem
        (s.mem_start + 32) bs'
        (free { s1 with mem := memcpy s1.mem q p (sz - 16) } p).mem_brk := by
      have := hw3.tiles
      rw [free_start] at this
      dsimp only at this
      rw [show s1.mem_start + 32 = s.mem_start + 32 from by rw [m1]] at this
      exact this
    obtain ⟨g1, g2⟩ := liveBlocks_tag T3 (by omega) (by omega) hqS'
    refine ⟨_, _, rfl, by rw [free_start]; exact m1, by rw [free_max]; exact m2,
      by rw [free_root]; exact m3, Or.inr ⟨hq0, hne, hq16, bs', fl', hw3, ?_, g2, ?_, ?_,
      q', S', f1, f2, ?_, f4, f5⟩⟩
    · have hperm : (liveAddrs (s.mem_start + 32) (pre1 ++ (S, 1) :: post1)).Perm
          (q :: liveAddrs (s.mem_start + 32) bs) :=
        (perm_insert_live hq hlive (List.Perm.refl _)).symm
      have := List.Perm.erase p hperm
      rw [List.erase_cons_tail (by simpa using hne)] at this
      rw [m1] at e1
      rw [e1]
      exact this
    · rw [g1]; show n + 16 ≤ S; omega
    · intro k hk hk8
      have hin : InLive (s.mem_start + 32) bs' (q + k) :=
        ⟨(q, S), hqS', Nat.le_add_right _ _, by show q + k + 16 < q + S; omega⟩
      rw [e3 (q + k) (by rw [m1]; exact hin)]
      show memcpy s1.mem q p (sz - 16) (q + k) = _
      rw [memcpy_word hk hk8 (by omega)]
      exact hfr (p + k) ⟨(p, sz), hpl, Nat.le_add_right _ _, by show p + k + 16 < p + sz; omega⟩
    · rw [hsz2] at f3
      exact f3

/-! ## Reachable states are well formed -/

theorem malloc_zero (fuel : Nat) (s : Heap) : malloc fuel s 0 = some (s, 0) := by
  unfold malloc
  rw [if_pos (le_refl _)]

/-- A successful `malloc` on a well-formed heap, with any fuel: the result is
the payload of a new allocated block that lies in the heap, is large enough,
and is disjoint from the blocks of the old live pointers; a failed one leaves
the state as it was. -/
theorem malloc_fresh {s s' : Heap} {bs : List (Nat × Nat)} {fl : List Nat} {fuel n p : Nat}
    (h : WF s bs fl) (hn2 : n ≤ 2 ^ 64 - 32) (hm : malloc fuel s n = some (s', p)) :
    s'.mem_start = s.mem_start ∧ s'.mem_max = s.mem_max ∧ s'.free_list = s.free_list ∧
    (p = 0 → s' = s) ∧
    (p ≠ 0 → ∃ bs' fl', WF s' bs' fl' ∧
      (p :: liveAddrs (s.mem_start + 32) bs).Perm (liveAddrs (s.mem_start + 32) bs') ∧
      p % 16 = 0 ∧ s.mem_start + 32 ≤ p ∧ p + READ_w_SIZE s'.mem (Compute_HD p) ≤ s'.mem_brk ∧
      n + 16 ≤ READ_w_SIZE s'.mem (Compute_HD p) ∧
      ∀ q ∈ liveAddrs (s.mem_start + 32) bs,
        q + READ_w_SIZE s'.mem (Compute_HD q) ≤ p ∨
          p + READ_w_SIZE s'.mem (Compute_HD p) ≤ q) := by
  by_cases hn : n = 0
  · subst hn
    rw [malloc_zero] at hm
    obtain ⟨rfl, rfl⟩ := Prod.mk.inj (Option.some.inj hm)
    exact ⟨rfl, rfl, rfl, fun _ => rfl, fun h0 => absurd rfl h0⟩
  · obtain ⟨s1, p1, hm1, m1, m2, m3, -, hcases⟩ :=
      @malloc_spec s bs fl (fuel + (fl.length + 1)) n h (by omega) (by omega) hn2
    rw [malloc_mono _ hm] at hm1
    obtain ⟨rfl, rfl⟩ := Prod.mk.inj (Option.some.inj hm1)
    refine ⟨m1, m2, m3, fun h0 => ?_, fun h0 => ?_⟩
    · rcases hcases with ⟨-, e⟩ | ⟨pre, S, post, fl', hw, hq, -⟩
      · exact e
      · omega
    · rcases hcases with ⟨e, -⟩ | ⟨pre, S, post, fl', hw, hq, hS, hlive, -⟩
      · exact absurd e h0
      · have hq1 : p = s'.mem_start + 32 + total pre := by rw [m1]; exact hq
        obtain ⟨⟨S16, S32, ha, hp16, hplo, hpb, hplt⟩, hhd, -, Tpre, Tpost, -⟩ :=
          hw.lframe.block_at hq1
        obtain ⟨z16, z32, zn, -⟩ := size_a_spec (Nat.pos_of_ne_zero hn) hn2
        have hble := hw.brk_le
        have hmax := hw.max_lt
        have hS' : READ_w_SIZE s'.mem (Compute_HD p) = S :=
          READ_size_tag hhd (by omega) ha (by omega) hplt
        rw [hS']
        refine ⟨_, fl', hw, perm_insert_live hq hlive (List.Perm.refl _), hp16,
          by omega, hpb, by omega, fun q hq' => ?_⟩
        obtain ⟨sz, hqs⟩ := mem_liveAddrs_iff.1 hq'
        rw [hlive] at hqs
        rcases List.mem_append.1 hqs with hc | hc
        · have hb := mem_liveBlocks_bounds Tpre (by rw [m1]; exact hc)
          have ht := (liveBlocks_tag Tpre (by omega) (by omega) (by rw [m1]; exact hc)).1
          simp only at hb ht
          rw [ht]
          omega
        · have hb := mem_liveBlocks_bounds Tpost hc
          simp only at hb
          omega

/-- With enough fuel `malloc` returns on a well-formed heap. -/
theorem malloc_total {s : Heap} {bs : List (Nat × Nat)} {fl : List Nat} (h : WF s bs fl)
    (n k : Nat) : ∃ r, malloc (fl.length + 1 + k) s n = some r := by
  by_cases hn : n = 0
  · rw [hn, malloc_zero]
    exact ⟨_, rfl⟩
  · rw [malloc_eq h (by omega) (Nat.pos_of_ne_zero hn)]
    cases fl.find? (fun y => decide (size_a n ≤ READ_w_SIZE s.mem (Compute_HD y))) with
    | some y => exact ⟨_, rfl⟩
    | none =>
      dsimp only
      split_ifs
      · exact ⟨_, rfl⟩
      · exact ⟨_, rfl⟩

theorem mem_liveAddrs_pos {s : Heap} {bs : List (Nat × Nat)} {fl : List Nat} (h : WF s bs fl)
    {p : Nat} (hp : p ∈ liveAddrs (s.mem_start + 32) bs) : p ≠ 0 := by
  have := mem_liveAddrs_bounds h.tiles hp
  omega

/-- Every reachable state, when no request exceeded `2 ^ 64 - 32`, is well
formed, and its live pointers are the payload addresses of its allocated
blocks. -/
theorem Reach.wf {B : Nat} {s : Heap} {L : List Nat} (hB : B ≤ 2 ^ 64 - 32)
    (h : Reach B s L) :
    ∃ bs fl, WF s bs fl ∧ L.Perm (liveAddrs (s.mem_start + 32) bs) := by
  induction h with
  | init s0 he hi =>
    have hg : s0.mem_start + 32 + 4096 ≤ s0.mem_max := by
      by_contra hc
      have := (mm_init_false_iff he).2 (Or.inr hc)
      rw [hi] at this
      exact absurd this (by simp)
    obtain ⟨-, hw, -, e, -⟩ := mm_init_spec he hg
    refine ⟨_, _, hw, ?_⟩
    simp [liveAddrs]
  | @step_malloc s L fuel n s' p _ hn hm ih =>
    obtain ⟨bs, fl, hw, hL⟩ := ih
    obtain ⟨m1, -, -, h0, h1⟩ := malloc_fresh hw (le_trans hn hB) hm
    by_cases hp : p = 0
    · rw [if_pos hp, h0 hp]
      exact ⟨bs, fl, hw, hL⟩
    · rw [if_neg hp]
      obtain ⟨bs', fl', hw', hperm, -⟩ := h1 hp
      exact ⟨bs', fl', hw', by rw [m1]; exact (List.Perm.cons p hL).trans hperm⟩
  | @step_free s L p _ hp ih =>
    obtain ⟨bs, fl, hw, hL⟩ := ih
    obtain ⟨bs', fl', hw', e1, -⟩ := free_live hw (hL.subset hp)
    exact ⟨bs', fl', hw', by rw [free_start, e1]; exact List.Perm.erase p hL⟩
  | @step_realloc s L fuel p n s' q _ hp hn hr ih =>
    obtain ⟨bs, fl, hw, hL⟩ := ih
    have h0L : (0 : Nat) ∉ L := fun h0 => mem_liveAddrs_pos hw (hL.subset h0) rfl
    unfold realloc_live
    rcases hp with rfl | hp
    · rw [realloc_null] at hr
      obtain ⟨m1, -, -, h0, h1⟩ := malloc_fresh hw (le_trans hn hB) hr
      rw [List.erase_of_not_mem h0L]
      by_cases hq : q = 0
      · rw [if_neg (by simpa using hq), h0 hq]
        exact ⟨bs, fl, hw, by split_ifs <;> exact hL⟩
      · rw [if_pos hq]
        obtain ⟨bs', fl', hw', hperm, -⟩ := h1 hq
        exact ⟨bs', fl', hw', by rw [m1]; exact (List.Perm.cons q hL).trans hperm⟩
    · have hpl := hL.subset hp
      have hp0 := mem_liveAddrs_pos hw hpl
      obtain ⟨pre, sz, post, -, -, hsz, -, -, s32, -, -, hlt, -⟩ := hw.live_block hpl
      by_cases hn0 : n = 0
      · subst hn0
        rw [realloc_zero _ _ hp0] at hr
        obtain ⟨rfl, rfl⟩ := Prod.mk.inj (Option.some.inj hr)
        obtain ⟨bs', fl', hw', e1, -⟩ := free_live hw hpl
        rw [if_neg (by simp), if_pos rfl]
        exact ⟨bs', fl', hw', by rw [free_start, e1]; exact List.Perm.erase p hL⟩
      · by_cases hfit : n + 16 ≤ sz
        · rw [realloc_fits _ _ hp0 hn0 hsz (by omega) (by omega) hfit] at hr
          obtain ⟨rfl, rfl⟩ := Prod.mk.inj (Option.some.inj hr)
          rw [if_pos hp0]
          exact ⟨bs, fl, hw, (List.perm_cons_erase hp).symm.trans hL⟩
        · obtain ⟨s1, q1, hr1, m1, -, -, hcases⟩ :=
            @realloc_grow_spec s bs fl (fuel + (fl.length + 1)) p n sz hw (by omega) hpl hsz
              (by omega) (le_trans hn hB)
          rw [realloc_mono _ hr] at hr1
          obtain ⟨rfl, rfl⟩ := Prod.mk.inj (Option.some.inj hr1)
          rcases hcases with ⟨hq, e⟩ | ⟨hq, -, -, bs', fl', hw', hperm, -⟩
          · rw [if_neg (by simpa using hq), if_neg hn0, e]
            exact ⟨bs, fl, hw, hL⟩
          · rw [if_pos hq]
            refine ⟨bs', fl', hw', ?_⟩
            rw [m1]
            exact ((List.Perm.erase p hL).cons q).trans hperm.symm
  | @step_store s L p t v _ hp h1 h2 ih =>
    obtain ⟨bs, fl, hw, hL⟩ := ih
    obtain ⟨sz, hps⟩ := mem_liveAddrs_iff.1 (hL.subset hp)
    have hble := hw.brk_le
    have hmax := hw.max_lt
    have hsz := (liveBlocks_tag hw.tiles (by omega) (by omega) hps).1
    rw [hsz] at h2
    refine ⟨bs, fl, hw.store _ (fun u hu => WRITE_w_other (fun e => hu ?_)), hL⟩
    rw [e]
    exact ⟨(p, sz), hps, h1, h2⟩

/-! ## `free` next to an allocated block, and requests that wrap -/

/-- When the block before `p` is allocated, `free` leaves the block of `p`,
merged with a free next block if there is one, at the head of the free
list. -/
theorem free_head {s : Heap} {pre post : List (Nat × Nat)} {sz : Nat} {fl : List Nat}
    (h : WF s (pre ++ (sz, 1) :: post) fl) {p : Nat}
    (hp : p = s.mem_start + 32 + total pre) (h1 : lastAlloc pre ≠ 0) :
    ∃ S post' fl', WF (free s p) (pre ++ (S, 0) :: post') (p :: fl') ∧ sz ≤ S ∧
      fl'.length ≤ fl.length := by
  obtain ⟨⟨s16, s32, hal1, hp16, hplo, hpr, hlt⟩, hhd, -⟩ := h.lframe.block_at hp
  have hh32 : 32 ≤ p := le_trans (Nat.le_add_left _ _) hplo
  obtain ⟨hc, -, -⟩ := free_retag h (by decide) hp
  rw [free_exec hhd s16 hal1 hh32 s32 hlt]
  by_cases h2 : headAlloc post = 0
  · obtain ⟨nsz, post', rfl⟩ := headAlloc_eq_zero h2
    obtain ⟨fl1, fl2, e1, -, e3, -⟩ := coalesce_10 hc (p := p) hp h1
    refine ⟨sz + nsz, post', fl1 ++ fl2, e3, Nat.le_add_right _ _, ?_⟩
    rw [e1]
    simp
  · obtain ⟨-, e2, -⟩ := coalesce_11 hc (p := p) hp h1 h2
    exact ⟨sz, post, fl, e2, le_refl _, le_refl _⟩

theorem size_a_le {n sz : Nat} (h0 : 0 < n) (h : n + 16 ≤ sz) (h16 : sz % 16 = 0)
    (hlt : sz < 2 ^ 64) : size_a n ≤ sz := by
  unfold size_a align ALIGNMENT add64 sub64
  split_ifs <;> omega

/-- When its first test finds the previous block allocated, `coalesce`
returns the pointer it was given. -/
theorem coalesce_ret_of_prev {s : Heap} {p : Nat}
    (h : (if mem_heap_lo s ≤ Compute_PVBP s.mem p then
      READ_w_ALLOC s.mem (Compute_FT s.mem (Compute_PVBP s.mem p)) else 1) ≠ 0) :
    (coalesce s p).2 = p := by
  unfold coalesce
  dsimp only
  generalize (if mem_heap_lo s ≤ Compute_PVBP s.mem p then
      READ_w_ALLOC s.mem (Compute_FT s.mem (Compute_PVBP s.mem p)) else 1) = a at h ⊢
  generalize (if Compute_NXBP s.mem p ≤ mem_heap_hi s then
      READ_w_ALLOC s.mem (Compute_HD (Compute_NXBP s.mem p)) else 1) = b
  by_cases hb : b ≠ 0
  · rw [if_pos ⟨h, hb⟩]
  · rw [if_neg (fun x => hb x.2), if_pos ⟨h, hb⟩]

/-- On a heap without free blocks the last block is allocated. -/
theorem lastAlloc_of_no_free {s : Heap} {bs : List (Nat × Nat)} (h : WF s bs []) :
    lastAlloc bs ≠ 0 := by
  intro h0
  obtain ⟨L, psz, rfl⟩ := lastAlloc_eq_zero h0
  have := (h.fl_mem (s.mem_start + 32 + total L)).2 mem_freeAddrs_mid
  simp at this

/-- In a well-formed heap a free block starts right after the prologue or
right after an allocated block. -/
theorem free_block_start {s : Heap} {bs : List (Nat × Nat)} {fl : List Nat} (h : WF s bs fl)
    {y : Nat} (hy : y ∈ fl) :
    y = s.mem_start + 32 ∨ ∃ c ∈ liveBlocks (s.mem_start + 32) bs, c.1 + c.2 = y := by
  obtain ⟨pre, r, post, rfl, hq, -⟩ := h.free_node hy
  rcases List.eq_nil_or_concat pre with rfl | ⟨L, b, rfl⟩
  · left
    simpa [total] using hq
  · obtain ⟨psz, pal⟩ := b
    right
    rw [List.concat_eq_append] at h hq ⊢
    have hna := (NoAdjFree_append.1 h.noadj).2.2
    rw [lastAlloc_concat, headAlloc_cons] at hna
    have hl : pal ≠ 0 := fun e => hna ⟨e, rfl⟩
    refine ⟨(s.mem_start + 32 + total L, psz), ?_, ?_⟩
    · rw [List.append_assoc, liveBlocks_append, List.singleton_append,
        liveBlocks_live_cons _ hl]
      exact List.mem_append_right _ (List.mem_cons_self _ _)
    · rw [hq, total_append]
      simp only [total]
      omega

/-- A non-null result of `malloc` on a well-formed heap is the start of what
was a free block, or of the free block that the extension of the heap gave:
it follows the prologue or an allocated block. -/
theorem malloc_result_start {s s' : Heap} {bs : List (Nat × Nat)} {fl : List Nat}
    {fuel n q : Nat} (h : WF s bs fl) (hf : fl.length < fuel) (hn : 0 < n)
    (hn2 : n ≤ 2 ^ 64 - 32) (hm : malloc fuel s n = some (s', q)) (hq : q ≠ 0) :
    q = s.mem_start + 32 ∨ ∃ c ∈ liveBlocks (s.mem_start + 32) bs, c.1 + c.2 = q := by
  obtain ⟨z16, z32, -, -⟩ := size_a_spec hn hn2
  rw [malloc_eq h hf hn] at hm
  cases hfind : fl.find? (fun y => decide (size_a n ≤ READ_w_SIZE s.mem (Compute_HD y))) with
  | some y =>
    rw [hfind] at hm
    obtain ⟨-, rfl⟩ := Prod.mk.inj (Option.some.inj hm)
    exact free_block_start h (List.mem_of_find?_eq_some hfind)
  | none =>
    rw [hfind] at hm
    by_cases hg : s.mem_brk + size_a n ≤ s.mem_max
    · obtain ⟨pre, S0, post, fl1, hw1, hret, -, hlive, -⟩ := mem_request_spec h hg z16 z32
      have hne : (mem_request s (size_a n)).2 ≠ 0 := by omega
      simp only [if_pos hne] at hm
      obtain ⟨-, rfl⟩ := Prod.mk.inj (Option.some.inj hm)
      have hmem : (mem_request s (size_a n)).2 ∈ fl1 :=
        (hw1.fl_mem _).2 (by rw [hret, mem_request_start]; exact mem_freeAddrs_mid)
      have := free_block_start hw1 hmem
      rw [mem_request_start, hlive] at this
      exact this
    · rw [mem_request_refused hg] at hm
      simp only [ne_eq, not_true_eq_false, if_false] at hm
      exact absurd (Prod.mk.inj (Option.some.inj hm)).2.symm hq

/-- When the block before `p` is free, `free` merges the block of `p` into it:
the free block that results starts where the previous block started, and the
free list is the old one, less the node of the next block when that block
was free and is merged too. -/
theorem free_tail {s : Heap} {L post : List (Nat × Nat)} {psz sz : Nat} {fl : List Nat}
    (h : WF s ((L ++ [(psz, 0)]) ++ (sz, 1) :: post) fl) {p : Nat}
    (hp : p = s.mem_start + 32 + total (L ++ [(psz, 0)])) :
    ∃ S post' fl', WF (free s p) (L ++ (S, 0) :: post') fl' ∧ psz + sz ≤ S ∧
      (fl' = fl ∨ ∃ fl1 fl2, fl = fl1 ++ (p + sz) :: fl2 ∧ fl' = fl1 ++ fl2) ∧
      liveBlocks (p + sz) post = liveBlocks (s.mem_start + 32 + total L + S) post' := by
  obtain ⟨⟨s16, s32, hal1, hp16, hplo, hpr, hlt⟩, hhd, -⟩ := h.lframe.block_at hp
  have hh32 : 32 ≤ p := le_trans (Nat.le_add_left _ _) hplo
  obtain ⟨hc, -, -⟩ := free_retag h (by decide) hp
  rw [free_exec hhd s16 hal1 hh32 s32 hlt]
  have hq : p - psz = s.mem_start + 32 + total L := by
    rw [hp, total_append]; simp only [total]; omega
  have hp' : p = p - psz + psz := by
    rw [hp, total_append]; simp only [total]; omega
  have hpe : p = s.mem_start + 32 + total L + psz := by omega
  by_cases h2 : headAlloc post = 0
  · obtain ⟨nsz, post', rfl⟩ := headAlloc_eq_zero h2
    obtain ⟨fl1, fl2, e1, -, e3, -⟩ := coalesce_00 hc hq hp'
    refine ⟨psz + sz + nsz, post', fl1 ++ fl2, e3, by omega, Or.inr ⟨fl1, fl2, e1, rfl⟩, ?_⟩
    rw [liveBlocks_free_cons]
    congr 1
    omega
  · obtain ⟨-, e2, -⟩ := coalesce_01 hc hq hp' h2
    refine ⟨psz + sz, post, fl, e2, le_refl _, Or.inl rfl, ?_⟩
    congr 1
    omega

/-! ## Requests whose block size wraps, and the fill of `calloc` -/

theorem size_a_wrap16 {n : Nat} (h1 : 2 ^ 64 - 32 < n) (h2 : n < 2 ^ 64) :
    size_a n = 0 ∨ size_a n = 16 := by
  unfold size_a align ALIGNMENT add64 sub64
  split_ifs <;> omega

/-- The tags of the block that ends at the break of a heap without free
blocks: the last block, or the prologue when there is no block. -/
theorem last_block_tags {s : Heap} {bs : List (Nat × Nat)} (h : WF s bs []) :
    ∃ psz, psz % 16 = 0 ∧ 16 ≤ psz ∧ s.mem_start + 16 + psz ≤ s.mem_brk ∧
      s.mem (s.mem_brk - 16) = psz + 1 ∧ s.mem (s.mem_brk - psz - 8) = psz + 1 := by
  have hbrk := h.brk_eq
  rcases List.eq_nil_or_concat bs with rfl | ⟨L, b, rfl⟩
  · simp only [total, Nat.add_zero] at hbrk
    refine ⟨16, by decide, by decide, by omega, ?_, ?_⟩
    · rw [hbrk, show s.mem_start + 32 - 16 = s.mem_start + 16 from by omega]
      exact h.pro_ft
    · rw [hbrk, show s.mem_start + 32 - 16 - 8 = s.mem_start + 8 from by omega]
      exact h.pro_hd
  · obtain ⟨psz, pal⟩ := b
    rw [List.concat_eq_append] at h hbrk
    have hl := lastAlloc_of_no_free h
    rw [lastAlloc_concat] at hl
    simp only at hl
    obtain ⟨TL, Tb⟩ := Tiles_append.1 h.tiles
    obtain ⟨a1, a2, a3, a4, a5, a6⟩ := Tiles_cons.1 Tb
    simp only [Tiles] at a6
    rw [total_append] at hbrk
    simp only [total, Nat.add_zero] at hbrk
    have hal : pal = 1 := by omega
    subst hal
    refine ⟨psz, a1, by omega, by omega, ?_, ?_⟩
    · rw [← a5]; congr 1; omega
    · rw [← a4]; congr 1; omega

/-- A granted request of 16 bytes returns a non-null pointer on a heap
without free blocks. -/
theorem mem_request_16 {s : Heap} {bs : List (Nat × Nat)} (h : WF s bs [])
    (hg : s.mem_brk + 16 ≤ s.mem_max) : (mem_request s 16).2 ≠ 0 := by
  have hbrk := h.brk_eq
  have hmax := h.max_lt
  have hlo := h.lo_pos
  obtain ⟨psz, p16, p1, p2, pft, phd⟩ := last_block_tags h
  rw [mem_request_exec hg (by decide) (by omega) (by omega)]
  have e1 : s.mem_brk + 16 - 16 = s.mem_brk := by omega
  have e2 : s.mem_brk + 16 - 8 = s.mem_brk + 8 := by omega
  rw [e1, e2]
  have hm : ∀ t, t + 16 ≤ s.mem_brk →
      WRITE_w (WRITE_w (WRITE_w s.mem (s.mem_brk - 8) (16 + 0)) s.mem_brk (16 + 0))
        (s.mem_brk + 8) 1 t = s.mem t := by
    intro t ht
    rw [WRITE_w_other (by omega), WRITE_w_other (by omega), WRITE_w_other (by omega)]
  have hft := (hm (s.mem_brk - 16) (by omega)).trans pft
  have hhd := (hm (s.mem_brk - psz - 8) (by omega)).trans phd
  rw [coalesce_ret_of_prev]
  · omega
  · dsimp only
    rw [Compute_PVBP_eq hft (by omega) (by omega) (by omega) (by omega) (by omega)]
    split_ifs with ht
    · rw [Compute_FT_eq hhd (by omega) (by omega) (by omega) (by omega) (by omega),
        show s.mem_brk - psz + psz - 16 = s.mem_brk - 16 from by omega,
        READ_w_ALLOC_of hft (by omega) (by omega)]
      decide
    · decide

/-- A granted request of 0 bytes returns a non-null pointer. -/
theorem mem_request_0 {s : Heap} (h32 : 32 ≤ s.mem_brk) (hlo : s.mem_start ≤ s.mem_brk)
    (hg : s.mem_brk + 0 ≤ s.mem_max) (hmax : s.mem_max < 2 ^ 64) :
    (mem_request s 0).2 ≠ 0 := by
  rw [mem_request_exec hg (by decide) h32 (by omega)]
  have g1 : s.mem_brk - 16 ≠ s.mem_brk - 8 := by omega
  have e1 : s.mem_brk + 0 - 16 = s.mem_brk - 16 := by omega
  have e2 : s.mem_brk + 0 - 8 = s.mem_brk - 8 := by omega
  rw [e1, e2]
  generalize hm3 : WRITE_w (WRITE_w (WRITE_w s.mem (s.mem_brk - 8) (0 + 0)) (s.mem_brk - 16)
    (0 + 0)) (s.mem_brk - 8) 1 = m3
  have a8 : m3 (s.mem_brk - 8) = 0 + 1 := by rw [← hm3, WRITE_w_same]
  have a16 : m3 (s.mem_brk - 16) = 0 + 0 := by
    rw [← hm3, WRITE_w_other g1, WRITE_w_same]
  have hHD : Compute_HD s.mem_brk = s.mem_brk - 8 := Compute_HD_eq (by omega) (by omega)
  have s8 : READ_w_SIZE m3 (s.mem_brk - 8) = 0 := READ_w_SIZE_of a8 (by decide) (by decide) (by decide)
  have ePV : Compute_PVBP m3 s.mem_brk = s.mem_brk := by
    rw [Compute_PVBP_eq a16 (by decide) (by decide) (by omega) (by omega) (by omega)]; rfl
  have eFT : Compute_FT m3 s.mem_brk = s.mem_brk - 16 := by
    rw [Compute_FT_eq a8 (by decide) (by decide) (by omega) (by omega) (by omega)]; rfl
  have eNX : Compute_NXBP m3 s.mem_brk = s.mem_brk := by
    rw [Compute_NXBP_eq a8 (by decide) (by decide) (by omega) (by omega)]; rfl
  have eA16 : READ_w_ALLOC m3 (s.mem_brk - 16) = 0 := READ_w_ALLOC_of a16 (by decide) (by decide)
  have ehi : ¬ s.mem_brk ≤ sub64 (s.mem_brk + 0) 1 := by
    rw [sub64_eq (by omega) (by omega)]; omega
  have eadd : add64 0 0 = 0 := rfl
  have eP : Pack_w 0 0 = 0 + 0 := rfl
  have ePV1 : Compute_PVBP (WRITE_w m3 (s.mem_brk - 16) (0 + 0)) s.mem_brk = s.mem_brk := by
    rw [Compute_PVBP_eq (WRITE_w_same _ _ _) (by decide) (by decide) (by omega) (by omega)
      (by omega)]; rfl
  have ePV2 : Compute_PVBP (WRITE_w (WRITE_w m3 (s.mem_brk - 16) (0 + 0)) (s.mem_brk - 8) (0 + 0))
      s.mem_brk = s.mem_brk := by
    rw [@Compute_PVBP_eq _ s.mem_brk 0 0 (by rw [WRITE_w_other g1, WRITE_w_same]) (by decide)
      (by decide) (by omega) (by omega) (by omega)]; rfl
  unfold coalesce mem_heap_lo mem_heap_hi
  dsimp only
  simp only [ePV, eFT, eNX, eA16, hHD, s8, ehi, if_false, if_pos hlo, eadd, eP, ePV1, ePV2,
    ne_eq, not_true_eq_false, false_and, and_false, not_false_eq_true, and_self, if_true,
    one_ne_zero]
  omega

/-- A `malloc` that returns `NULL` leaves the state as it was, for every
64-bit request. -/
theorem malloc_null_unchanged {s s' : Heap} {bs : List (Nat × Nat)} {fl : List Nat}
    {fuel n : Nat} (h : WF s bs fl) (hn : n < 2 ^ 64) (hm : malloc fuel s n = some (s', 0)) :
    s' = s := by
  by_cases hn2 : n ≤ 2 ^ 64 - 32
  · exact (malloc_fresh h hn2 hm).2.2.2.1 rfl
  · have hm' := malloc_mono (fl.length + 1) hm
    rw [malloc_eq h (by omega) (by omega)] at hm'
    have hz := size_a_wrap16 (by omega) hn
    cases hfind : fl.find? (fun y => decide (size_a n ≤ READ_w_SIZE s.mem (Compute_HD y))) with
    | some y =>
      rw [hfind] at hm'
      obtain ⟨_, _, _, _, _, _, hy0, _, _⟩ := h.free_node (List.mem_of_find?_eq_some hfind)
      exact absurd (Prod.mk.inj (Option.some.inj hm')).2 hy0
    | none =>
      rw [hfind] at hm'
      have hfl : fl = [] := by
        cases fl with
        | nil => rfl
        | cons y l =>
          have := List.find?_eq_none.1 hfind y (List.mem_cons_self _ _)
          obtain ⟨_, r, _, _, _, hr, _, _, r32⟩ := h.free_node (List.mem_cons_self y l)
          rw [hr] at this
          simp only [decide_eq_true_eq, not_le] at this
          omega
      subst hfl
      by_cases hg : s.mem_brk + size_a n ≤ s.mem_max
      · have hne : (mem_request s (size_a n)).2 ≠ 0 := by
          have hbrk := h.brk_eq
          rcases hz with hz | hz
          · rw [hz] at hg ⊢
            exact mem_request_0 (by omega) (by omega) hg h.max_lt
          · rw [hz] at hg ⊢
            exact mem_request_16 h hg
        simp only [if_pos hne] at hm'
        exact absurd (Prod.mk.inj (Option.some.inj hm')).2 hne
      · rw [mem_request_refused hg] at hm'
        simp only [ne_eq, not_true_eq_false, if_false] at hm'
        exact (Prod.mk.inj (Option.some.inj hm')).1.symm

/-! ### Bytes -/

theorem byteAt_word (m : Nat → Nat) {p : Nat} (i : Nat) (hp : p % 8 = 0) :
    byteAt m (p + i) = m (p + (i - i % 8)) / 256 ^ (i % 8) % 256 := by
  unfold byteAt
  have e1 : (p + i) % 8 = i % 8 := by omega
  have e2 : p + i - i % 8 = p + (i - i % 8) := by omega
  rw [e1, e2]

theorem byte_of_high (Y : Nat) {k j : Nat} (h : j < k) : Y * 256 ^ k / 256 ^ j % 256 = 0 := by
  have e : Y * 256 ^ k = 256 ^ j * (Y * 256 ^ (k - j - 1) * 256) := by
    have : k = j + (k - j - 1) + 1 := by omega
    conv_lhs => rw [this]
    rw [pow_succ, pow_add]
    ring
  rw [e, Nat.mul_div_cancel_left _ (by positivity), Nat.mul_mod_left]

theorem memset_outside {m : Nat → Nat} {q v c t : Nat} (h : ¬ (q ≤ t ∧ t < q + c)) :
    memset m q v c t = m t := by
  unfold memset
  rw [if_neg (fun hc => h ⟨hc.1, hc.2.1⟩)]

/-- Every byte that `memset` fills with 0 reads as 0. -/
theorem memset_zero_byte (m : Nat → Nat) {p n i : Nat} (hp : p % 8 = 0) (hi : i < n) :
    byteAt (memset m p 0 n) (p + i) = 0 := by
  rw [byteAt_word _ i hp]
  unfold memset
  rw [if_pos ⟨by omega, by omega, by omega⟩]
  split_ifs with h
  · simp
  · simp only [Nat.zero_mod, Nat.zero_mul, Nat.zero_add]
    exact byte_of_high _ (by omega)

/-! ## Claims about sizes, tags and the list primitives -/

/-- C6, as stated, fails: for the request `2 ^ 64 - 1` the 64-bit sum wraps and
`size_a` is 16, which is neither at least 32 nor at least the request plus 16. -/
theorem size_a_wraps_at_max :
    ¬ (size_a (2 ^ 64 - 1) % 16 = 0 ∧ 32 ≤ size_a (2 ^ 64 - 1) ∧
      (2 ^ 64 - 1) + 16 ≤ size_a (2 ^ 64 - 1)) := by
  decide

/-- C6, amended: for a request `n` with `0 < n < 2 ^ 64` the block size
`size_a n` that `malloc` computes is a multiple of 16, at least 32 and at
least `n + 16` exactly when `n ≤ 2 ^ 64 - 32`. -/
theorem size_a_legal_iff (n : Nat) (h1 : 0 < n) (h2 : n < 2 ^ 64) :
    (size_a n % 16 = 0 ∧ 32 ≤ size_a n ∧ n + 16 ≤ size_a n) ↔ n ≤ 2 ^ 64 - 32 := by
  constructor
  · intro h
    by_contra hn
    have := size_a_wrap (by omega) h2
    omega
  · intro h
    obtain ⟨a, b, c, -⟩ := size_a_spec h1 h
    exact ⟨a, b, c⟩

theorem size_a_legal_iff_witness :
    (size_a 40 % 16 = 0 ∧ 32 ≤ size_a 40 ∧ 40 + 16 ≤ size_a 40) ↔ 40 ≤ 2 ^ 64 - 32 :=
  size_a_legal_iff 40 (by decide) (by decide)

/-- C12: `calloc` returns `NULL` without calling `malloc` exactly when
`nmemb = 0`, or `size = 0`, or the product `nmemb * size` does not fit in 64
bits, and otherwise passes the exact product to `malloc`; for `nmemb ≠ 0` the
division test of the source is true exactly when the product is at least
`2 ^ 64`. -/
theorem calloc_rejects_overflow (fuel : Nat) (s : Heap) (nmemb size : Nat) :
    (nmemb ≠ 0 → (mul64 nmemb size / nmemb ≠ size ↔ 2 ^ 64 ≤ nmemb * size)) ∧
      calloc fuel s nmemb size =
        if nmemb = 0 ∨ size = 0 ∨ 2 ^ 64 ≤ nmemb * size then some (s, 0)
        else
          (malloc fuel s (nmemb * size)).map (fun r =>
            if r.2 ≠ 0 then ({ r.1 with mem := memset r.1.mem r.2 0 (nmemb * size) }, r.2)
            else r) := by
  exact ⟨fun h => mul64_test h, calloc_eq fuel s nmemb size⟩

/-- C16: on a circular doubly linked list rooted at the sentinel (the empty
list included) and for a node that is not in it, `FL_append` leaves the same
memory as the four assignments in the order of the specification; the node is
then first in the list, the old first element follows it, and no word other
than the two fields of the node, the `next` field of the sentinel and the
`prev` field of the old first element changes. -/
theorem FL_append_refines_insert {m : Nat → Nat} {fl : List Nat} {q lo hi root : Nat}
    (hd : dll m root fl root) (hnd : fl.Nodup) (hq : q ∉ fl)
    (hN : ∀ y ∈ q :: fl, y % 16 = 0 ∧ lo ≤ y ∧ y + 16 ≤ hi)
    (hR : root + 16 ≤ lo ∨ hi ≤ root) (hhi : hi < 2 ^ 64) (hroot : root + 16 ≤ 2 ^ 64) :
    FL_append m root q = FL_insert_spec m root q ∧
      dll (FL_append m root q) root (q :: fl) root ∧
      ∀ t, t ≠ q → t ≠ q + 8 → t ≠ root → t ≠ m root + 8 → FL_append m root q t = m t := by
  obtain ⟨a1, a2, a3, a4, a5, a6, a7, a8⟩ := node_fields hd hq hN hR hhi hroot
  refine ⟨?_, (FL_append_dll hd hnd hq hN hR hhi hroot).1, ?_⟩
  · rw [FL_append_eq rfl a1 a2 (Ne.symm a3), FL_insert_spec_eq rfl a1 a2 a3 a4]
    exact WRITE_w_comm (Ne.symm a5)
  · intro t t1 t2 t3 t4
    rw [FL_append_eq rfl a1 a2 (Ne.symm a3), WRITE_w_other t4, WRITE_w_other t3,
      WRITE_w_other t2, WRITE_w_other t1]

theorem FL_append_refines_insert_witness :
    FL_append heap1.mem 64 8192 = FL_insert_spec heap1.mem 64 8192 ∧
      dll (FL_append heap1.mem 64 8192) 64 [8192, 4128] 64 ∧
      FL_append heap1.mem 64 8192 4120 = heap1.mem 4120 :=
  have h := @FL_append_refines_insert heap1.mem [4128] 8192 4096 1048576 64
    (by decide) (by decide) (by decide) (by decide) (by decide) (by decide) (by decide)
  ⟨h.1, h.2.1, h.2.2 4120 (by decide) (by decide) (by decide) (by decide)⟩

/-- C19: on a circular doubly linked list rooted at the sentinel and for a node
that is not in it, `FL_append` followed by `FL_unlink` of the node restores
every word other than the two fields of the node, so the links of the
sentinel and of every list element are as before the insert, and the two
fields of the node are `NULL`. -/
theorem FL_unlink_undoes_append {m : Nat → Nat} {fl : List Nat} {q lo hi root : Nat}
    (hd : dll m root fl root) (hq : q ∉ fl)
    (hN : ∀ y ∈ q :: fl, y % 16 = 0 ∧ lo ≤ y ∧ y + 16 ≤ hi)
    (hR : root + 16 ≤ lo ∨ hi ≤ root) (hhi : hi < 2 ^ 64) (hroot : root + 16 ≤ 2 ^ 64) :
    (∀ t, t ≠ q → t ≠ q + 8 → FL_unlink (FL_append m root q) q t = m t) ∧
      dll (FL_unlink (FL_append m root q) q) root fl root ∧
      FL_unlink (FL_append m root q) q q = 0 ∧
      FL_unlink (FL_append m root q) q (q + 8) = 0 := by
  obtain ⟨a1, a2, a3, a4, a5, a6, a7, a8⟩ := node_fields hd hq hN hR hhi hroot
  have hNq := hN q (by simp)
  have e1 : FL_append m root q (q + 8) = root := by
    rw [FL_append_eq rfl a1 a2 (Ne.symm a3), WRITE_w_other (Ne.symm a7),
      WRITE_w_other (Ne.symm a4), WRITE_w_same]
  have e2 : FL_append m root q q = m root := by
    rw [FL_append_eq rfl a1 a2 (Ne.symm a3), WRITE_w_other (Ne.symm a6),
      WRITE_w_other (Ne.symm a3), WRITE_w_other (by omega), WRITE_w_same]
  have key : ∀ t, t ≠ q → t ≠ q + 8 → FL_unlink (FL_append m root q) q t = m t := by
    intro t t1 t2
    rw [FL_unlink_eq e1 e2 a1 a2 a3 a4, WRITE_w_other t2, WRITE_w_other t1]
    by_cases t3 : t = m root + 8
    · rw [t3, WRITE_w_same, a8]
    · rw [WRITE_w_other t3]
      by_cases t4 : t = root
      · rw [t4, WRITE_w_same]
      · rw [WRITE_w_other t4, FL_append_eq rfl a1 a2 (Ne.symm a3), WRITE_w_other t3,
          WRITE_w_other t4, WRITE_w_other t2, WRITE_w_other t1]
  refine ⟨key, ?_, ?_, ?_⟩
  · refine dll_congr (fun y hy => key y ?_ ?_) (fun y hy => key (y + 8) ?_ ?_) hd
    · rcases List.mem_cons.1 hy with rfl | hy
      · exact a3
      · exact fun e => hq (e ▸ hy)
    · rcases List.mem_cons.1 hy with rfl | hy
      · exact a4
      · have := hN y (List.mem_cons_of_mem _ hy); omega
    · rcases List.mem_append.1 hy with hy | hy
      · have := hN y (List.mem_cons_of_mem _ hy); omega
      · rw [List.mem_singleton.1 hy]; omega
    · rcases List.mem_append.1 hy with hy | hy
      · intro e
        have : y = q := by omega
        exact hq (this ▸ hy)
      · rw [List.mem_singleton.1 hy]; omega
  · rw [FL_unlink_eq e1 e2 a1 a2 a3 a4, WRITE_w_other (by omega), WRITE_w_same]
  · rw [FL_unlink_eq e1 e2 a1 a2 a3 a4, WRITE_w_same]

theorem FL_unlink_undoes_append_witness :
    FL_unlink (FL_append heap1.mem 64 8192) 8192 64 = heap1.mem 64 ∧
      FL_unlink (FL_append heap1.mem 64 8192) 8192 4136 = heap1.mem 4136 ∧
      dll (FL_unlink (FL_append heap1.mem 64 8192) 8192) 64 [4128] 64 ∧
      FL_unlink (FL_append heap1.mem 64 8192) 8192 8192 = 0 ∧
      FL_unlink (FL_append heap1.mem 64 8192) 8192 (8192 + 8) = 0 :=
  have h := @FL_unlink_undoes_append heap1.mem [4128] 8192 4096 1048576 64
    (by decide) (by decide) (by decide) (by decide) (by decide) (by decide)
  ⟨h.1 64 (by decide) (by decide), h.1 4136 (by decide) (by decide), h.2.1, h.2.2.1, h.2.2.2⟩

/-- C20: for every size `s < 2 ^ 64` that is a multiple of 16 and every flag
`a` that is 0 or 1, `READ_w_SIZE` of a word holding `Pack_w s a` is `s` and
`READ_w_ALLOC` of it is `a`. -/
theorem Pack_w_roundtrip (m : Nat → Nat) (ptr s a : Nat) (hs : s < 2 ^ 64)
    (h16 : s % 16 = 0) (ha : a ≤ 1) (hm : m ptr = Pack_w s a) :
    READ_w_SIZE m ptr = s ∧ READ_w_ALLOC m ptr = a := by
  rw [Pack_w_eq (by omega) ha] at hm
  exact ⟨READ_w_SIZE_of hm (by omega) ha (by omega), READ_w_ALLOC_of hm (by omega) ha⟩

theorem Pack_w_roundtrip_witness :
    READ_w_SIZE (WRITE_w heap0.mem 4120 (Pack_w 4096 1)) 4120 = 4096 ∧
      READ_w_ALLOC (WRITE_w heap0.mem 4120 (Pack_w 4096 1)) 4120 = 1 :=
  Pack_w_roundtrip _ 4120 4096 1 (by decide) (by decide) (by decide) rfl

/-! ## Claims about coalescing, placement and the checker -/

/-- C14: the four-case table of the coalescer.  In a heap that is well formed
except that the block at `p` is tagged free and not in the free list,
`coalesce` returns `p` when the previous block is allocated and the payload
of the previous block when it is free; the returned block carries the size
of `p` plus the size of each free neighbour and the allocated bit 0 in header
and footer; a free next block leaves the free list; and the returned block is
in the list once, at the head when the previous block is allocated and where
the previous block was when it is free.  The resulting heap is well formed. -/
theorem coalesce_table {s : Heap} {pre post : List (Nat × Nat)} {sz : Nat} {fl : List Nat}
    (h : WFc s pre sz post fl) {p : Nat} (hp : p = s.mem_start + 32 + total pre) :
    (lastAlloc pre ≠ 0 → headAlloc post ≠ 0 →
      (coalesce s p).2 = p ∧ WF (coalesce s p).1 (pre ++ (sz, 0) :: post) (p :: fl)) ∧
    (lastAlloc pre ≠ 0 → ∀ nsz post', post = (nsz, 0) :: post' →
      (coalesce s p).2 = p ∧ ∃ fl1 fl2, fl = fl1 ++ (p + sz) :: fl2 ∧
        WF (coalesce s p).1 (pre ++ (sz + nsz, 0) :: post') (p :: (fl1 ++ fl2))) ∧
    (∀ L psz, pre = L ++ [(psz, 0)] → headAlloc post ≠ 0 →
      (coalesce s p).2 = p - psz ∧
        WF (coalesce s p).1 (L ++ (psz + sz, 0) :: post) fl) ∧
    (∀ L psz nsz post', pre = L ++ [(psz, 0)] → post = (nsz, 0) :: post' →
      (coalesce s p).2 = p - psz ∧ ∃ fl1 fl2, fl = fl1 ++ (p + sz) :: fl2 ∧
        WF (coalesce s p).1 (L ++ (psz + sz + nsz, 0) :: post') (fl1 ++ fl2)) := by
  refine ⟨fun h1 h2 => ?_, fun h1 nsz post' e => ?_, fun L psz e h2 => ?_,
    fun L psz nsz post' e1 e2 => ?_⟩
  · obtain ⟨a, b, -⟩ := coalesce_11 h hp h1 h2
    exact ⟨a, b⟩
  · subst e
    obtain ⟨fl1, fl2, a, b, c, -⟩ := coalesce_10 h hp h1
    exact ⟨b, fl1, fl2, a, c⟩
  · subst e
    have hq : p - psz = s.mem_start + 32 + total L := by
      rw [hp, total_append]; simp only [total]; omega
    have hp' : p = p - psz + psz := by
      rw [hp, total_append]; simp only [total]; omega
    obtain ⟨a, b, -⟩ := coalesce_01 h hq hp' h2
    exact ⟨a, b⟩
  · subst e1 e2
    have hq : p - psz = s.mem_start + 32 + total L := by
      rw [hp, total_append]; simp only [total]; omega
    have hp' : p = p - psz + psz := by
      rw [hp, total_append]; simp only [total]; omega
    obtain ⟨fl1, fl2, a, b, c, -⟩ := coalesce_00 h hq hp'
    exact ⟨b, fl1, fl2, a, c⟩

theorem coalesce_table_witness :
    (coalesce heapABC 4160).2 = 4160 - 32 ∧ ∃ fl1 fl2, [4192, 4128] = fl1 ++ (4160 + 32) :: fl2 ∧
      WF (coalesce heapABC 4160).1 ([] ++ (32 + 32 + 32, 0) :: [(32, 1)]) (fl1 ++ fl2) :=
  (coalesce_table heapABC_wfc (p := 4160) (by decide)).2.2.2 [] 32 32 [(32, 1)] rfl rfl

/-- C15: the splitting rule.  For a free block at `p` of size `r` in a
well-formed heap and a request `size` that is a multiple of 16 with
`32 ≤ size ≤ r`: when `r - size ≥ 32`, `allocate_block` leaves at `p` an
allocated block of size `size`, followed by a free block of size `r - size`
that is at the head of the free list, and `p` is out of the list; when
`r - size < 32` the whole block of size `r` is allocated, `p` is out of the
list and there is no new block.  The resulting heap is well formed. -/
theorem allocate_block_rule {s : Heap} {pre post : List (Nat × Nat)} {r size p : Nat}
    {fl : List Nat} (h : WF s (pre ++ (r, 0) :: post) fl)
    (hp : p = s.mem_start + 32 + total pre)
    (hs16 : size % 16 = 0) (hs32 : 32 ≤ size) (hsr : size ≤ r) :
    (32 ≤ r - size → ∃ fl1 fl2, fl = fl1 ++ p :: fl2 ∧
      WF (allocate_block s p size) (pre ++ (size, 1) :: (r - size, 0) :: post)
        ((p + size) :: (fl1 ++ fl2))) ∧
    (r - size < 32 → ∃ fl1 fl2, fl = fl1 ++ p :: fl2 ∧
      WF (allocate_block s p size) (pre ++ (r, 1) :: post) (fl1 ++ fl2)) := by
  constructor
  · intro hc
    obtain ⟨fl1, fl2, a, b, -⟩ := allocate_block_split h hp hs16 hs32 (by omega)
    exact ⟨fl1, fl2, a, b⟩
  · intro hc
    obtain ⟨fl1, fl2, a, b, -⟩ := allocate_block_whole h hp hsr (by omega)
    exact ⟨fl1, fl2, a, b⟩

theorem allocate_block_rule_witness :
    (∃ fl1 fl2, [4128] = fl1 ++ 4128 :: fl2 ∧
      WF (allocate_block heap1 4128 32) ([] ++ (32, 1) :: (4096 - 32, 0) :: [])
        ((4128 + 32) :: (fl1 ++ fl2))) ∧
    (∃ fl1 fl2, [4128, 4208] = fl1 ++ 4128 :: fl2 ∧
      WF (allocate_block heap48 4128 32) ([] ++ (48, 1) :: [(32, 1), (4016, 0)])
        (fl1 ++ fl2)) :=
  ⟨(@allocate_block_rule heap1 [] [] 4096 32 4128 [4128] heap1_wf (by decide) (by decide)
      (by decide) (by decide)).1 (by decide),
    (@allocate_block_rule heap48 [] [(32, 1), (4016, 0)] 48 32 4128 [4128, 4208] heap48_wf
      (by decide) (by decide) (by decide) (by decide)).2 (by decide)⟩

/-- C17: on a heap with prologue, tiling blocks and epilogue in place (every
well-formed heap, and every heap in which `coalesce` is called, is one), and
for every block `p`, the values `prev_block_allocation` and
`next_block_allocation` that `coalesce` computes with its two heap-bounds
tests are the allocated bits read directly from the previous block's footer
and from the next block's header, so `coalesce` returns the same pointer and
the same state as the variant without the tests. -/
theorem coalesce_tests_redundant {s : Heap} {pre post : List (Nat × Nat)} {sz al : Nat}
    {fl : List Nat} (hF : Frame s (pre ++ (sz, al) :: post) fl) {p : Nat}
    (hp : p = s.mem_start + 32 + total pre) :
    (if mem_heap_lo s ≤ Compute_PVBP s.mem p then
        READ_w_ALLOC s.mem (Compute_FT s.mem (Compute_PVBP s.mem p)) else 1) =
      READ_w_ALLOC s.mem (Compute_FT s.mem (Compute_PVBP s.mem p)) ∧
    (if Compute_NXBP s.mem p ≤ mem_heap_hi s then
        READ_w_ALLOC s.mem (Compute_HD (Compute_NXBP s.mem p)) else 1) =
      READ_w_ALLOC s.mem (Compute_HD (Compute_NXBP s.mem p)) ∧
    coalesce s p = coalesce_untested s p := by
  have h1 := (prev_alloc_eq hF hp).trans (prev_direct_eq hF hp).symm
  have h2 := (next_alloc_eq hF hp).trans (next_direct_eq hF hp).symm
  refine ⟨h1, h2, ?_⟩
  unfold coalesce coalesce_untested
  dsimp only
  rw [h1, h2]

theorem coalesce_tests_redundant_witness :
    (¬ Compute_NXBP heap1.mem 4128 ≤ mem_heap_hi heap1) ∧
    ((if mem_heap_lo heap1 ≤ Compute_PVBP heap1.mem 4128 then
        READ_w_ALLOC heap1.mem (Compute_FT heap1.mem (Compute_PVBP heap1.mem 4128)) else 1) =
      READ_w_ALLOC heap1.mem (Compute_FT heap1.mem (Compute_PVBP heap1.mem 4128)) ∧
    (if Compute_NXBP heap1.mem 4128 ≤ mem_heap_hi heap1 then
        READ_w_ALLOC heap1.mem (Compute_HD (Compute_NXBP heap1.mem 4128)) else 1) =
      READ_w_ALLOC heap1.mem (Compute_HD (Compute_NXBP heap1.mem 4128)) ∧
    coalesce heap1 4128 = coalesce_untested heap1 4128) ∧
    ((if mem_heap_lo heapABC ≤ Compute_PVBP heapABC.mem 4160 then
        READ_w_ALLOC heapABC.mem (Compute_FT heapABC.mem (Compute_PVBP heapABC.mem 4160)) else 1) =
      READ_w_ALLOC heapABC.mem (Compute_FT heapABC.mem (Compute_PVBP heapABC.mem 4160)) ∧
    (if Compute_NXBP heapABC.mem 4160 ≤ mem_heap_hi heapABC then
        READ_w_ALLOC heapABC.mem (Compute_HD (Compute_NXBP heapABC.mem 4160)) else 1) =
      READ_w_ALLOC heapABC.mem (Compute_HD (Compute_NXBP heapABC.mem 4160)) ∧
    coalesce heapABC 4160 = coalesce_untested heapABC 4160) :=
  ⟨by decide,
    @coalesce_tests_redundant heap1 [] [] 4096 0 [4128] heap1_wf.toFrame 4128 (by decide),
    coalesce_tests_redundant heapABC_wfc.toFrame (p := 4160) (by decide)⟩

/-- C18 fails on the code: compiled with `DEBUG`, `mm_checkheap (1)` returns
`false` on the heap that a successful `mm_init` leaves.  The per-block tests
after the alignment test are outside the loop body, so they run once, for the
address the scan ends at, which is past `mem_heap_hi`. -/
theorem mm_checkheap_after_init :
    (mm_init heap0).2 = true ∧ mm_checkheap 3 (mm_init heap0).1 1 = some false :=
  ⟨(mm_init_spec heap0_empty (by decide)).1,
    mm_checkheap_wf heap1_wf.toFrame (by decide) (by decide)⟩

/-! ## Claims about `mm_init`, `malloc`, `free` and `realloc` -/

/-- C1: `malloc` preserves the heap invariants.  On every well-formed heap
(I1 to I6) and for every request `n` with `0 < n ≤ 2 ^ 64 - 32`, `malloc`
returns, and the state it leaves is well formed again, whether it found a
fit, extended the heap, or returned `NULL` because the host refused. -/
theorem malloc_preserves_wf {s : Heap} {bs : List (Nat × Nat)} {fl : List Nat} {fuel n : Nat}
    (h : WF s bs fl) (hf : fl.length < fuel) (hn : 0 < n) (hn2 : n ≤ 2 ^ 64 - 32) :
    ∃ s' p bs' fl', malloc fuel s n = some (s', p) ∧ WF s' bs' fl' := by
  obtain ⟨s', p, hm, -, -, -, -, hcases⟩ := malloc_spec h hf hn hn2
  rcases hcases with ⟨-, e⟩ | ⟨pre, S, post, fl', hw, -⟩
  · exact ⟨s', p, bs, fl, hm, e ▸ h⟩
  · exact ⟨s', p, _, fl', hm, hw⟩

theorem malloc_preserves_wf_witness :
    ∃ s' p bs' fl', malloc 2 heap1 40 = some (s', p) ∧ WF s' bs' fl' :=
  malloc_preserves_wf heap1_wf (by decide) (by decide) (by decide)

/-- C2: `free` preserves the heap invariants.  On every well-formed heap and
for every payload pointer `p` of an allocated block, the state after `free`
is well formed again (so no two adjacent blocks are free and the free list
holds exactly the free blocks, each once), and its allocated blocks are the
old ones without `p`. -/
theorem free_preserves_wf {s : Heap} {bs : List (Nat × Nat)} {fl : List Nat} {p : Nat}
    (h : WF s bs fl) (hp : p ∈ liveAddrs (s.mem_start + 32) bs) :
    ∃ bs' fl', WF (free s p) bs' fl' ∧
      liveAddrs (s.mem_start + 32) bs' = (liveAddrs (s.mem_start + 32) bs).erase p := by
  obtain ⟨bs', fl', hw, e, -⟩ := free_live h hp
  exact ⟨bs', fl', hw, e⟩

theorem free_preserves_wf_witness :
    (∃ bs' fl', WF (free heap2 4128) bs' fl' ∧
      liveAddrs (heap2.mem_start + 32) bs' =
        (liveAddrs (heap2.mem_start + 32) [(64, 1), (4032, 0)]).erase 4128) ∧
    malloc 2 heap1 40 = some (heap2, 4128) ∧
    WF (free heap2 4128) [(4096, 0)] [4128] :=
  ⟨free_preserves_wf heap2_wf (by decide), rfl,
    WF_of_parts (Frame_of_parts (by decide) (by decide) (by decide) (by decide) (by decide))
      (by decide) (by decide)⟩

/-- C3: `mm_init` on an empty heap at a 16-aligned address.  When the host
grants both requests, `mm_init` returns `true` and leaves the padding word 0,
the prologue header and footer 17, the base pointer 16 bytes into the heap,
one free block of 4096 bytes at offset 32 with header and footer 4096, the
epilogue word 1 in the last word of the heap, and a free list holding exactly
that block, so the heap is well formed.  It returns `false` exactly when the
host refuses the first request (32 bytes) or the second (4096 bytes). -/
theorem mm_init_layout {s : Heap} (h : EmptyHeap s) :
    (s.mem_start + 32 + 4096 ≤ s.mem_max →
      (mm_init s).2 = true ∧ (mm_init s).1.mem s.mem_start = 0 ∧
      (mm_init s).1.mem (s.mem_start + 8) = 17 ∧ (mm_init s).1.mem (s.mem_start + 16) = 17 ∧
      (mm_init s).1.heap_bptr = s.mem_start + 16 ∧
      (mm_init s).1.mem (s.mem_start + 24) = 4096 ∧
      (mm_init s).1.mem (s.mem_start + 4112) = 4096 ∧
      (mm_init s).1.mem_brk = s.mem_start + 4128 ∧
      (mm_init s).1.mem (s.mem_start + 4120) = 1 ∧
      WF (mm_init s).1 [(4096, 0)] [s.mem_start + 32]) ∧
    ((mm_init s).2 = false ↔
      (¬ s.mem_start + 32 ≤ s.mem_max ∨ ¬ s.mem_start + 32 + 4096 ≤ s.mem_max)) := by
  refine ⟨fun hg => ?_, mm_init_false_iff h⟩
  obtain ⟨a1, hw, a3, a4, a5, a6, a7⟩ := mm_init_spec h hg
  have b1 := hw.pro_hd
  have b2 := hw.pro_ft
  have b3 := hw.bptr
  have b4 := hw.epi
  obtain ⟨-, -, -, c4, c5, -⟩ := Tiles_cons.1 hw.tiles
  rw [a4] at b1 b2 b3 c4 c5
  rw [a7] at b4
  exact ⟨a1, a3, b1, b2, b3, c4, c5, a7, b4, hw⟩

theorem mm_init_layout_witness :
    (mm_init heap0).2 = true ∧ (mm_init heap0).1.mem heap0.mem_start = 0 ∧
      (mm_init heap0).1.mem (heap0.mem_start + 8) = 17 ∧
      (mm_init heap0).1.mem (heap0.mem_start + 16) = 17 ∧
      (mm_init heap0).1.heap_bptr = heap0.mem_start + 16 ∧
      (mm_init heap0).1.mem (heap0.mem_start + 24) = 4096 ∧
      (mm_init heap0).1.mem (heap0.mem_start + 4112) = 4096 ∧
      (mm_init heap0).1.mem_brk = heap0.mem_start + 4128 ∧
      (mm_init heap0).1.mem (heap0.mem_start + 4120) = 1 ∧
      WF (mm_init heap0).1 [(4096, 0)] [heap0.mem_start + 32] :=
  (mm_init_layout heap0_empty).1 (by decide)

/-! ## Claims about reachable states, first fit and `realloc` to a size that fits -/

/-- C4, as stated, fails: in the state reached by `mm_init` and
`malloc (2 ^ 64 - 20)`, whose block size wraps to 0 so that the block handed
out stays in the free list, `malloc (16)` returns the live pointer 4128
again. -/
theorem malloc_not_exclusive_after_wrap :
    ¬ ∀ (s : Heap) (L : List Nat) (fuel n : Nat) (s' : Heap) (p : Nat),
      Reach (2 ^ 64 - 1) s L → 0 < n → n ≤ 2 ^ 64 - 32 → malloc fuel s n = some (s', p) →
      p ≠ 0 → Exclusive s' L p n := by
  intro h
  have r1 : Reach (2 ^ 64 - 1) heap1 [] := Reach.init heap0 heap0_empty (by decide)
  have e1 : malloc 2 heap1 (2 ^ 64 - 20) = some (heapW, 4128) := rfl
  have r2 : Reach (2 ^ 64 - 1) heapW [4128] := Reach.step_malloc 2 (2 ^ 64 - 20) r1 (by decide) e1
  have e2 : malloc 2 heapW 16 = some (allocate_block heapW 4128 32, 4128) := rfl
  have := (h heapW [4128] 2 16 _ 4128 r2 (by decide) (by decide) e2 (by decide)).2.2.2 4128
    (List.mem_singleton.2 rfl)
  exact absurd this (by decide)

/-- C4, amended: in every state reachable from `mm_init` by `malloc`, `free` of
live pointers, `realloc` and stores into live payloads, all with requests of
at most `2 ^ 64 - 32` bytes, a non-null `p = malloc (n)` with
`n ≤ 2 ^ 64 - 32` (so `0 < n`) has its `n` bytes inside the heap, between its
own header and footer, and its block overlaps the block of no other live
pointer. -/
theorem malloc_exclusive {s s' : Heap} {L : List Nat} {fuel n p : Nat}
    (hr : Reach (2 ^ 64 - 32) s L) (hn2 : n ≤ 2 ^ 64 - 32)
    (hm : malloc fuel s n = some (s', p)) (hp : p ≠ 0) : Exclusive s' L p n := by
  obtain ⟨bs, fl, hw, hL⟩ := hr.wf (le_refl _)
  obtain ⟨m1, -, -, -, h1⟩ := malloc_fresh hw hn2 hm
  obtain ⟨bs', fl', hw', -, -, a1, a2, a3, a4⟩ := h1 hp
  refine ⟨?_, by omega, a3, fun q hq => a4 q (hL.subset hq)⟩
  unfold mem_heap_lo
  omega

theorem malloc_exclusive_witness :
    malloc 2 heap1 40 = some (heap2, 4128) ∧
    malloc 2 heap2 16 = some (allocate_block heap2 4192 32, 4192) ∧
    Exclusive (allocate_block heap2 4192 32) [4128] 4192 16 :=
  ⟨rfl, rfl,
    @malloc_exclusive heap2 (allocate_block heap2 4192 32) [4128] 2 16 4192
      (Reach.step_malloc 2 40 (Reach.init heap0 heap0_empty (by decide)) (by decide)
        (rfl : malloc 2 heap1 40 = some (heap2, 4128)))
      (by decide) rfl (by decide)⟩

/-- C5, as stated, fails: after `mm_init`, `p = malloc (2 ^ 64 - 20)`, `free (p)`
and `malloc (8000)`, the call `malloc (16)` returns 12144, which is past
`mem_heap_hi`. -/
theorem malloc_outside_heap_after_wrap :
    ¬ ∀ (s : Heap) (L : List Nat) (fuel n : Nat) (s' : Heap) (p : Nat),
      Reach (2 ^ 64 - 1) s L → malloc fuel s n = some (s', p) → p ≠ 0 →
      p % 16 = 0 ∧ mem_heap_lo s' ≤ p ∧ p ≤ mem_heap_hi s' := by
  intro h
  have r1 : Reach (2 ^ 64 - 1) heap1 [] := Reach.init heap0 heap0_empty (by decide)
  have e1 : malloc 2 heap1 (2 ^ 64 - 20) = some (heapW, 4128) := rfl
  have r2 : Reach (2 ^ 64 - 1) heapW [4128] := Reach.step_malloc 2 (2 ^ 64 - 20) r1 (by decide) e1
  have r3 : Reach (2 ^ 64 - 1) heapWf [] := Reach.step_free 4128 r2 (List.mem_singleton.2 rfl)
  have e3 : malloc 2 heapWf 8000 = some (heapW3, 4128) := rfl
  have r4 : Reach (2 ^ 64 - 1) heapW3 [4128] := Reach.step_malloc 2 8000 r3 (by decide) e3
  have e4 : malloc 2 heapW3 16 = some (allocate_block heapW3 12144 32, 12144) := rfl
  have := (h heapW3 [4128] 2 16 _ 12144 r4 e4 (by decide)).2.2
  exact absurd this (by decide)

/-- C5, amended: in every state reachable from `mm_init` (on a heap at a
16-aligned address) by `malloc`, `free` of live pointers, `realloc` and stores
into live payloads, all with requests of at most `2 ^ 64 - 32` bytes, every
non-null result `p` of `malloc` is a multiple of 16 and lies between
`mem_heap_lo` and `mem_heap_hi`. -/
theorem malloc_aligned_in_heap {s s' : Heap} {L : List Nat} {fuel n p : Nat}
    (hr : Reach (2 ^ 64 - 32) s L) (hn2 : n ≤ 2 ^ 64 - 32)
    (hm : malloc fuel s n = some (s', p)) (hp : p ≠ 0) :
    p % 16 = 0 ∧ mem_heap_lo s' ≤ p ∧ p ≤ mem_heap_hi s' := by
  obtain ⟨bs, fl, hw, hL⟩ := hr.wf (le_refl _)
  obtain ⟨m1, -, -, -, h1⟩ := malloc_fresh hw hn2 hm
  obtain ⟨bs', fl', hw', -, a0, a1, a2, a3, -⟩ := h1 hp
  have hble := hw'.brk_le
  have hmax := hw'.max_lt
  unfold mem_heap_lo mem_heap_hi
  rw [sub64_eq (by omega) (by omega)]
  omega

theorem malloc_aligned_in_heap_witness :
    malloc 2 heap1 40 = some (heap2, 4128) ∧ READ_w_SIZE heap2.mem (Compute_HD 4128) = 64 ∧
      4128 = heap1.mem_start + 32 ∧
      (4128 % 16 = 0 ∧ mem_heap_lo heap2 ≤ 4128 ∧ 4128 ≤ mem_heap_hi heap2) :=
  ⟨rfl, by decide, by decide,
    @malloc_aligned_in_heap heap1 heap2 [] 2 40 4128
      (Reach.init heap0 heap0_empty (by decide)) (by decide) rfl (by decide)⟩

/-- C9, as stated, fails: in the heap with a free block at 4128 followed by
allocated blocks at 4160 and 4192, `free (4160)` merges the block into the
free block before it, and `malloc (16)` then returns 4128, not 4160. -/
theorem free_then_malloc_moves :
    ¬ ∀ (s : Heap) (bs : List (Nat × Nat)) (fl : List Nat) (p n fuel : Nat) (s' : Heap) (q : Nat),
      WF s bs fl → p ∈ liveAddrs (s.mem_start + 32) bs → 0 < n →
      n + 16 ≤ READ_w_SIZE s.mem (Compute_HD p) →
      malloc fuel (free s p) n = some (s', q) → q = p := by
  intro h
  have e : malloc 3 (free heapF 4160) 16 =
      some (allocate_block (free heapF 4160) 4128 32, 4128) := rfl
  exact absurd (h heapF _ _ 4160 16 3 _ 4128 heapF_wf (by decide) (by decide) (by decide) e)
    (by decide)

/-- C9, amended: on a well-formed heap, for the payload pointer `p` of an
allocated block of size `sz` and for `0 < n ≤ sz - 16`, the sequence
`free (p)`, `q = malloc (n)` returns, and `q = p` exactly when the block
before `p` is allocated (or `p` is the first block after the prologue).  When
the block before `p` is free, of size `psz`, `free (p)` merges the block of `p`
into it: the heap is well formed with a free block of at least `psz + sz`
bytes at the address of the previous block, and the free list is the old one
in the old order, less the node of the block after `p` when that block was
free and is merged too; so the merged block keeps the address and the list
position of the previous block, and `q` is not `p`. -/
theorem free_then_malloc_same {s : Heap} {pre post : List (Nat × Nat)} {sz : Nat}
    {fl : List Nat} {p n fuel : Nat} (h : WF s (pre ++ (sz, 1) :: post) fl)
    (hp : p = s.mem_start + 32 + total pre) (hn : 0 < n)
    (hfit : n + 16 ≤ sz) (hf : fl.length + 1 < fuel) :
    ∃ s' q, malloc fuel (free s p) n = some (s', q) ∧ (q = p ↔ lastAlloc pre ≠ 0) ∧
      ∀ L psz, pre = L ++ [(psz, 0)] →
        q ≠ p ∧ p = s.mem_start + 32 + total L + psz ∧
        ∃ S post' fl', WF (free s p) (L ++ (S, 0) :: post') fl' ∧ psz + sz ≤ S ∧
          (fl' = fl ∨ ∃ fl1 fl2, fl = fl1 ++ (p + sz) :: fl2 ∧ fl' = fl1 ++ fl2) := by
  obtain ⟨⟨s16, s32, -, -, hplo, hpb, hplt⟩, -⟩ := h.lframe.block_at hp
  by_cases h1 : lastAlloc pre ≠ 0
  · obtain ⟨S, post', fl', hw, hS, hlen⟩ := free_head h hp h1
    have hp' : p = (free s p).mem_start + 32 + total pre := by rw [free_start]; exact hp
    obtain ⟨⟨S16, S32, ha, hp16, -, hpb', hplt'⟩, hhd, -⟩ := hw.lframe.block_at hp'
    have hsz : READ_w_SIZE (free s p).mem (Compute_HD p) = S :=
      READ_size_tag hhd (by omega) ha (by omega) hplt'
    have hle : size_a n ≤ S := le_trans (size_a_le hn hfit s16 (by omega)) hS
    refine ⟨allocate_block (free s p) p (size_a n), p, ?_, iff_of_true rfl h1, ?_⟩
    · rw [malloc_eq hw (by simp; omega) hn,
        List.find?_cons_of_pos _ (by simpa [hsz] using hle)]
    · intro L psz e
      rw [e, lastAlloc_concat] at h1
      exact absurd rfl h1
  · obtain ⟨L, psz, rfl⟩ := lastAlloc_eq_zero (not_not.1 h1)
    obtain ⟨S, post', fl', hw, hS, hfl, hlive⟩ := free_tail h hp
    have hlen : fl'.length ≤ fl.length := by
      rcases hfl with e | ⟨fl1, fl2, e1, e2⟩
      · rw [e]
      · rw [e1, e2]; simp
    have hn2 : n ≤ 2 ^ 64 - 32 := by omega
    obtain ⟨s', q, hm, -⟩ := @malloc_spec _ _ _ fuel n hw (by omega) hn hn2
    have hq : (free s p).mem_start + 32 + total L = (free s p).mem_start + 32 + total L := rfl
    obtain ⟨⟨-, p32, -⟩, -, -, TL, Tpost, -⟩ := hw.lframe.block_at hq
    obtain ⟨-, Tb⟩ := Tiles_append.1 (Tiles_append.1 h.tiles).1
    have b32 := (Tiles_cons.1 Tb).2.1
    simp only at b32
    have hp2 := hp
    rw [total_append] at hp2
    simp only [total, Nat.add_zero] at hp2
    rw [free_start] at TL Tpost
    have hqp : q ≠ p := by
      intro hqp
      rcases malloc_result_start hw (by omega) hn hn2 hm (by omega) with e | ⟨c, hc, e⟩
      · rw [free_start] at e
        omega
      · rw [free_start, liveBlocks_append, liveBlocks_free_cons] at hc
        rcases List.mem_append.1 hc with hc | hc
        · have := mem_liveBlocks_bounds TL hc
          omega
        · have := mem_liveBlocks_bounds Tpost hc
          omega
    refine ⟨s', q, hm, iff_of_false hqp h1, ?_⟩
    intro L2 psz2 e
    obtain ⟨e1, e2⟩ := List.append_inj' e rfl
    obtain ⟨rfl⟩ : psz = psz2 := by simpa using e2
    subst e1
    exact ⟨hqp, by omega, S, post', fl', hw, hS, hfl⟩

theorem free_then_malloc_same_witness :
    (∃ s' q, malloc 3 (free heap2 4128) 40 = some (s', q) ∧ (q = 4128 ↔ lastAlloc [] ≠ 0) ∧
      ∀ L psz, [] = L ++ [(psz, 0)] →
        q ≠ 4128 ∧ 4128 = heap2.mem_start + 32 + total L + psz ∧
        ∃ S post' fl', WF (free heap2 4128) (L ++ (S, 0) :: post') fl' ∧ psz + 64 ≤ S ∧
          (fl' = [4192] ∨
            ∃ fl1 fl2, [4192] = fl1 ++ (4128 + 64) :: fl2 ∧ fl' = fl1 ++ fl2)) ∧
    (∃ s' q, malloc 4 (free heapF 4160) 16 = some (s', q) ∧
      (q = 4160 ↔ lastAlloc [(32, 0)] ≠ 0) ∧
      ∀ L psz, [(32, 0)] = L ++ [(psz, 0)] →
        q ≠ 4160 ∧ 4160 = heapF.mem_start + 32 + total L + psz ∧
        ∃ S post' fl', WF (free heapF 4160) (L ++ (S, 0) :: post') fl' ∧ psz + 32 ≤ S ∧
          (fl' = [4128, 4224] ∨
            ∃ fl1 fl2, [4128, 4224] = fl1 ++ (4160 + 32) :: fl2 ∧ fl' = fl1 ++ fl2)) ∧
    malloc 3 (free heap2 4128) 40 = some (allocate_block (free heap2 4128) 4128 64, 4128) ∧
    malloc 4 (free heapF 4160) 16 = some (allocate_block (free heapF 4160) 4128 32, 4128) :=
  ⟨@free_then_malloc_same heap2 [] [(4032, 0)] 64 [4192] 4128 40 3 heap2_wf (by decide)
      (by decide) (by decide) (by decide),
    @free_then_malloc_same heapF [(32, 0)] [(32, 1), (4000, 0)] 32 [4128, 4224] 4160 16 4
      heapF_wf (by decide) (by decide) (by decide) (by decide),
    rfl, rfl⟩

/-- C10, as stated, fails for `n = 0`: `realloc (p, 0)` frees `p` and returns
`NULL`. -/
theorem realloc_zero_frees :
    ¬ ∀ (s : Heap) (bs : List (Nat × Nat)) (fl : List Nat) (p n fuel : Nat),
      WF s bs fl → p ∈ liveAddrs (s.mem_start + 32) bs →
      n + 16 ≤ READ_w_SIZE s.mem (Compute_HD p) → realloc fuel s p n = some (s, p) := by
  intro h
  have e := h heap2 _ _ 4128 0 1 heap2_wf (by decide) (by decide)
  rw [realloc_zero 1 heap2 (by decide)] at e
  exact absurd (Prod.mk.inj (Option.some.inj e)).2 (by decide)

/-- C10, amended: on a well-formed heap, for the payload pointer `p` of an
allocated block and `0 < n ≤ block_size (p) - 16`, `realloc (p, n)` returns
`p` and leaves the state, every heap word and the free list included, as it
was. -/
theorem realloc_fits_noop {s : Heap} {bs : List (Nat × Nat)} {fl : List Nat} {p n : Nat}
    (fuel : Nat) (h : WF s bs fl) (hp : p ∈ liveAddrs (s.mem_start + 32) bs) (hn : 0 < n)
    (hfit : n + 16 ≤ READ_w_SIZE s.mem (Compute_HD p)) :
    realloc fuel s p n = some (s, p) := by
  obtain ⟨pre, sz, post, -, -, hsz, -, -, s32, -, -, hlt, -⟩ := h.live_block hp
  exact realloc_fits fuel s (mem_liveAddrs_pos h hp) (by omega) hsz (by omega) (by omega)
    (by rw [← hsz]; exact hfit)

theorem realloc_fits_noop_witness : realloc 1 heap2 4128 48 = some (heap2, 4128) :=
  realloc_fits_noop 1 heap2_wf (by decide) (by decide) (by decide)

/-! ## Claims about failed allocations, `realloc` that grows, and `calloc` -/

/-- C8: a failed allocation changes nothing.  On a well-formed heap and for
every 64-bit `n`: when `malloc (n)` returns `NULL`, the state after the call
is the state before it, every heap word, the break, the base pointer and the
links of the sentinel included; and when `realloc (p, n)`, for the payload
pointer `p` of an allocated block whose payload is smaller than `n`, returns
`NULL`, the state is again the state before the call, so the block of `p` is
still allocated and holds what it held. -/
theorem failed_allocation_changes_nothing {s : Heap} {bs : List (Nat × Nat)} {fl : List Nat}
    {fuel n : Nat} (h : WF s bs fl) (hn : n < 2 ^ 64) :
    ((malloc fuel s n).map Prod.snd = some 0 → malloc fuel s n = some (s, 0)) ∧
    ∀ p, p ∈ liveAddrs (s.mem_start + 32) bs → READ_w_SIZE s.mem (Compute_HD p) < n + 16 →
      (realloc fuel s p n).map Prod.snd = some 0 →
      realloc fuel s p n = some (s, 0) ∧ READ_w_ALLOC s.mem (Compute_HD p) = 1 := by
  constructor
  · intro hm
    rcases hr : malloc fuel s n with _ | ⟨s', q⟩
    · rw [hr] at hm; exact absurd hm (by simp)
    · rw [hr] at hm
      have hq : q = 0 := by simpa using hm
      subst hq
      rw [malloc_null_unchanged h hn hr]
  · intro p hp hbig hm
    obtain ⟨pre, sz, post, -, -, hsz, hal, -, s32, -, -, hlt, -⟩ := h.live_block hp
    have hp0 := mem_liveAddrs_pos h hp
    refine ⟨?_, hal⟩
    rcases hr : malloc fuel s n with _ | ⟨s1, q⟩
    · unfold realloc at hm
      rw [if_neg hp0, if_neg (by omega)] at hm
      dsimp only at hm
      rw [hsz, sub64_eq (by omega) (by omega), if_neg (by omega), hr] at hm
      exact absurd hm (by simp)
    · rw [realloc_grows hp0 hsz (by omega) (by omega) (by omega) hr] at hm ⊢
      by_cases hq : q = 0
      · subst hq
        rw [if_pos rfl, malloc_null_unchanged h hn hr]
      · rw [if_neg hq] at hm
        exact absurd (by simpa using hm) hq

theorem failed_allocation_changes_nothing_witness :
    malloc 2 heapMt 5000 = some (heapMt, 0) ∧
      (realloc 2 heapMt 4128 5000 = some (heapMt, 0) ∧
        READ_w_ALLOC heapMt.mem (Compute_HD 4128) = 1) :=
  have h := @failed_allocation_changes_nothing heapMt _ _ 2 5000 heapMt_wf (by decide)
  ⟨h.1 (by decide), h.2 4128 (by decide) (by decide) (by decide)⟩

/-- C11: a growing `realloc` moves the data.  On a well-formed heap, for the
payload pointer `p` of an allocated block of size `sz` (payload `sz - 16`) and
a request `n` with `sz - 16 < n ≤ 2 ^ 64 - 32`, `realloc (p, n)` returns; when
the result `q` is not `NULL`, then `q ≠ p`, the block of `q` is allocated with
a payload of at least `n` bytes, the first `sz - 16` bytes at `q` are the
bytes that were at `p`, the heap is well formed, and the old block of `p` lies
in a free block that is in the free list. -/
theorem realloc_grow_moves {s : Heap} {bs : List (Nat × Nat)} {fl : List Nat} {fuel p n : Nat}
    (h : WF s bs fl) (hf : fl.length < fuel) (hp : p ∈ liveAddrs (s.mem_start + 32) bs)
    (hbig : READ_w_SIZE s.mem (Compute_HD p) < n + 16) (hn2 : n ≤ 2 ^ 64 - 32) :
    ∃ s' q, realloc fuel s p n = some (s', q) ∧
      (q ≠ 0 → q ≠ p ∧ READ_w_ALLOC s'.mem (Compute_HD q) = 1 ∧
        n + 16 ≤ READ_w_SIZE s'.mem (Compute_HD q) ∧
        (∀ i, i < READ_w_SIZE s.mem (Compute_HD p) - 16 →
          byteAt s'.mem (q + i) = byteAt s.mem (p + i)) ∧
        ∃ bs' fl', WF s' bs' fl' ∧ ∃ q' S', q' ∈ fl' ∧ q' ≤ p ∧
          p + READ_w_SIZE s.mem (Compute_HD p) ≤ q' + S' ∧
          READ_w_SIZE s'.mem (Compute_HD q') = S' ∧
          READ_w_ALLOC s'.mem (Compute_HD q') = 0) := by
  obtain ⟨s', q, hr, -, -, -, hcases⟩ := realloc_grow_spec h hf hp rfl hbig hn2
  refine ⟨s', q, hr, fun hq => ?_⟩
  rcases hcases with ⟨e, -⟩ | ⟨-, hne, hq16, bs', fl', hw, -, a1, a2, a3, a4⟩
  · exact absurd e hq
  · obtain ⟨pre, sz, post, -, -, hsz, -, p16, -⟩ := h.live_block hp
    refine ⟨hne, a1, a2, fun i hi => ?_, bs', fl', hw, a4⟩
    rw [byteAt_word _ i (by omega), byteAt_word _ i (by omega),
      a3 (i - i % 8) (by omega) (by omega)]

theorem realloc_grow_moves_witness :
    (∃ s' q, realloc 2 heapH 4128 100 = some (s', q) ∧
      (q ≠ 0 → q ≠ 4128 ∧ READ_w_ALLOC s'.mem (Compute_HD q) = 1 ∧
        100 + 16 ≤ READ_w_SIZE s'.mem (Compute_HD q) ∧
        (∀ i, i < READ_w_SIZE heapH.mem (Compute_HD 4128) - 16 →
          byteAt s'.mem (q + i) = byteAt heapH.mem (4128 + i)) ∧
        ∃ bs' fl', WF s' bs' fl' ∧ ∃ q' S', q' ∈ fl' ∧ q' ≤ 4128 ∧
          4128 + READ_w_SIZE heapH.mem (Compute_HD 4128) ≤ q' + S' ∧
          READ_w_SIZE s'.mem (Compute_HD q') = S' ∧
          READ_w_ALLOC s'.mem (Compute_HD q') = 0)) ∧
    (realloc 2 heapH 4128 100).map Prod.snd = some 4160 ∧
    (realloc 2 heapH 4128 100).map
        (fun r => [0, 1, 2, 3, 4].map (fun i => byteAt r.1.mem (r.2 + i))) =
      some [0x48, 0x45, 0x4C, 0x4C, 0x4F] :=
  ⟨realloc_grow_moves heapH_wf (by decide) (by decide) (by decide) (by decide),
    by decide, by decide⟩

/-- Where the block size does not wrap, `calloc` zeroes what it returns: on a
well-formed heap and for `nmemb * size ≤ 2 ^ 64 - 32`,
`calloc (nmemb, size)` returns, and whenever its result `p` is not `NULL`, the
`nmemb * size` bytes at `p` are all 0 and lie in the payload of the block of
`p`, which is allocated; the heap is well formed, so no header or footer is
overwritten, and the payloads of the other allocated blocks hold what they
held. -/
theorem calloc_zeroes {s : Heap} {bs : List (Nat × Nat)} {fl : List Nat}
    {fuel nmemb size : Nat} (h : WF s bs fl) (hf : fl.length < fuel)
    (hb : nmemb * size ≤ 2 ^ 64 - 32) :
    ∃ s' p, calloc fuel s nmemb size = some (s', p) ∧
      (p ≠ 0 →
        (∀ i, i < nmemb * size → byteAt s'.mem (p + i) = 0) ∧
        nmemb * size + 16 ≤ READ_w_SIZE s'.mem (Compute_HD p) ∧
        READ_w_ALLOC s'.mem (Compute_HD p) = 1 ∧ (∃ bs' fl', WF s' bs' fl') ∧
        ∀ t, InLive (s.mem_start + 32) bs t → s'.mem t = s.mem t) := by
  rw [calloc_eq]
  by_cases hrej : nmemb = 0 ∨ size = 0 ∨ 2 ^ 64 ≤ nmemb * size
  · rw [if_pos hrej]
    exact ⟨s, 0, rfl, fun hp => absurd rfl hp⟩
  · rw [if_neg hrej]
    have hn : 0 < nmemb * size :=
      Nat.mul_pos (Nat.pos_of_ne_zero (fun e => hrej (Or.inl e)))
        (Nat.pos_of_ne_zero (fun e => hrej (Or.inr (Or.inl e))))
    obtain ⟨s1, p1, hm, m1, -, -, -, hcases⟩ := malloc_spec h hf hn hb
    rw [hm]
    simp only [Option.map_some']
    rcases hcases with ⟨e, -⟩ | ⟨pre, S, post, fl', hw, hq, hS, hlive, hfr⟩
    · rw [if_neg (by simpa using e)]
      exact ⟨s1, p1, rfl, fun hp => absurd e hp⟩
    · have hp1 : p1 ≠ 0 := by omega
      rw [if_pos hp1]
      refine ⟨_, p1, rfl, fun _ => ?_⟩
      obtain ⟨z16, z32, zn, -⟩ := size_a_spec hn hb
      have hq1 : p1 = s1.mem_start + 32 + total pre := by rw [m1]; exact hq
      obtain ⟨⟨-, -, -, hq16, hqlo, hqb, hqlt⟩, -, -, Tpre, Tpost, -⟩ := hw.lframe.block_at hq1
      have hqS : (p1, S) ∈ liveBlocks (s1.mem_start + 32) (pre ++ (S, 1) :: post) := by
        rw [liveBlocks_append, liveBlocks_live_cons _ (by decide), ← hq1]
        exact List.mem_append_right _ (List.mem_cons_self _ _)
      have hw2 : WF { s1 with mem := memset s1.mem p1 0 (nmemb * size) }
          (pre ++ (S, 1) :: post) fl' := by
        refine hw.store _ (fun t ht => memset_outside (fun hin => ht ⟨(p1, S), hqS, hin.1, ?_⟩))
        have := hin.2
        show t + 16 < p1 + S
        omega
      have hble := hw2.brk_le
      have hmax := hw2.max_lt
      obtain ⟨g1, g2⟩ := liveBlocks_tag hw2.tiles (by omega) (by omega) hqS
      refine ⟨fun i hi => memset_zero_byte _ (by omega) hi, ?_, g2, ⟨_, _, hw2⟩, fun t ht => ?_⟩
      · rw [g1]; show nmemb * size + 16 ≤ S; omega
      · show memset s1.mem p1 0 (nmemb * size) t = s.mem t
        rw [memset_outside, hfr t ht]
        obtain ⟨c, hc, hc1, hc2⟩ := ht
        rw [hlive] at hc
        rcases List.mem_append.1 hc with hc | hc
        · have := mem_liveBlocks_bounds (by rw [← m1]; exact Tpre) hc
          omega
        · have := mem_liveBlocks_bounds Tpost hc
          omega

theorem calloc_zeroes_witness :
    (∃ s' p, calloc 2 heapH 3 8 = some (s', p) ∧
      (p ≠ 0 →
        (∀ i, i < 3 * 8 → byteAt s'.mem (p + i) = 0) ∧
        3 * 8 + 16 ≤ READ_w_SIZE s'.mem (Compute_HD p) ∧
        READ_w_ALLOC s'.mem (Compute_HD p) = 1 ∧ (∃ bs' fl', WF s' bs' fl') ∧
        ∀ t, InLive (heapH.mem_start + 32) [(32, 1), (4064, 0)] t → s'.mem t = heapH.mem t)) ∧
    (calloc 2 heapH 3 8).map Prod.snd = some 4160 ∧
    (calloc 2 heapH 3 8).map (fun r => byteAt r.1.mem 4128) = some 0x48 :=
  ⟨calloc_zeroes heapH_wf (by decide) (by decide), by decide, by decide⟩

end MM
